import Mathlib

/-!
# Mystic Pillars solver: a shallow embedding of `main.cpp`

The C++ program keeps a vector of pillars; every pillar owns a vector of cells (candidate
moves).  The embedding keeps the same three records (`Cell`, `Pillar`, `Maze`) with lists in
place of vectors.

Modelling conventions.

* A `Pillar*` is the position of the pillar in `Maze::pillars`; a `Cell*` is the pair
  (position of the owning pillar, position of the cell in `Pillar::cells`).  A null `Cell*` is
  `none`.  A position stands for the pointer only while the vector is not reallocated: the
  theorems about built mazes assume that all pillars are added before the first link
  (`PillarsFirst`), as in every scenario of the program.
* `unsigned` is 32 bits wide.  Every arithmetic operation that can leave the range is written
  with an explicit `% UNSIGNED_MOD` (sums and differences through `addU` and `subU`);
  arguments of type `unsigned` are reduced when they enter the program.  `Maze::nPillars()`
  converts the size of the vector to `unsigned`; the embedding keeps the size itself, and the
  theorems about built mazes say that the number of pillars is below `UNSIGNED_MOD`.
* A C++ exception is a returned message; the maze that is returned with it is the state in
  which the exception left the object.
* `Maze::recurse` is recursive with no syntactic bound; the embedding is structurally recursive
  on a fuel argument and returns `none` when the fuel is used up.  `solve` passes enough fuel
  (see `recurse_complete` and `solve_total`).
-/

namespace MysticPillars

/-- Number of values of the type `unsigned`. -/
def UNSIGNED_MOD : Nat := 4294967296

/-- Addition of two `unsigned` values: the sum modulo `UNSIGNED_MOD`. -/
def addU (a b : Nat) : Nat := (a + b) % UNSIGNED_MOD

/-- Subtraction of two `unsigned` values: the difference modulo `UNSIGNED_MOD` (both branches
are that difference; the case distinction keeps the intermediate values small). -/
def subU (a b : Nat) : Nat :=
  if b ≤ a then (a - b) % UNSIGNED_MOD
  else (a + UNSIGNED_MOD - b % UNSIGNED_MOD) % UNSIGNED_MOD

/-- The constant `BIG_DIST` of `Maze::preprocess`. -/
def BIG_DIST : Nat := 10000

/-- The constant `CANNOT_SOLVE`. -/
def CANNOT_SOLVE : Nat := 10000

/-- A pointer to a cell: the owning pillar and the position in its `cells`. -/
abbrev CellRef := Nat × Nat

/-- The record `Cell`; the defaults are the member initialisers of the C++ struct
(null pointers to pillars are position 0: `preprocess` assigns both before any read). -/
structure Cell where
  source : Nat := 0
  target : Nat := 0
  reverse : Option CellRef := none
  dist : Nat := 0
  isSymmetrical : Bool := false
  nBans : Nat := 0
deriving DecidableEq, Repr

instance : Inhabited Cell := ⟨{}⟩

/-- The record `Pillar`. -/
structure Pillar where
  index : Nat := 0
  initial : Nat := 0
  required : Nat := 0
  adjacent : List Nat := []
  current : Nat := 0
  cells : List Cell := []
deriving DecidableEq, Repr

instance : Inhabited Pillar := ⟨{}⟩

/-- The record `Maze`. -/
structure Maze where
  pillars : List Pillar := []
  nBadPillars : Nat := 0
  wantedSolution : Nat := 0
deriving DecidableEq, Repr

instance : Inhabited Maze := ⟨{}⟩

/-- The pillar at position `u`. -/
def Maze.pillar (m : Maze) (u : Nat) : Pillar := m.pillars.getD u default

/-- The cell a `Cell*` points to. -/
def Maze.cell (m : Maze) (r : CellRef) : Cell := (m.pillar r.1).cells.getD r.2 default

/-- In-place update of the pillar at position `u`. -/
def Maze.modifyPillar (m : Maze) (u : Nat) (f : Pillar → Pillar) : Maze :=
  { m with pillars := m.pillars.modify f u }

/-- In-place update of the cell `r` points to. -/
def Maze.modifyCell (m : Maze) (r : CellRef) (f : Cell → Cell) : Maze :=
  m.modifyPillar r.1 (fun p => { p with cells := p.cells.modify f r.2 })

/-- The method `Maze::nPillars`.  The C++ method converts the size of the vector to
`unsigned`; this is the size itself, which is the same number for fewer than 2^32 pillars. -/
def Maze.nPillars (m : Maze) : Nat := m.pillars.length

/-- The method `Maze::addPillar`. -/
def Maze.addPillar (m : Maze) (initial required : Nat) : Maze :=
  { m with pillars := m.pillars ++
      [{ index := m.nPillars, initial := initial % UNSIGNED_MOD,
         required := required % UNSIGNED_MOD }] }

/-- The method `Maze::addMonoLink`; `none` is the `std::out_of_range` of `pillars.at`.  The
C++ method stores the address `&pillars.at(i2)`; the embedding stores the position `i2`, which
names the same pillar as long as the vector `pillars` is not reallocated (see
`PillarsFirst`). -/
def Maze.addMonoLink (m : Maze) (i1 i2 : Nat) : Option Maze :=
  if i1 % UNSIGNED_MOD < m.pillars.length ∧ i2 % UNSIGNED_MOD < m.pillars.length then
    some (m.modifyPillar (i1 % UNSIGNED_MOD)
      (fun p => { p with adjacent := p.adjacent ++ [i2 % UNSIGNED_MOD] }))
  else none

/-- The method `Maze::addBiLink`; `none` is the `std::out_of_range` of `pillars.at`. -/
def Maze.addBiLink (m : Maze) (i1 i2 : Nat) : Option Maze :=
  if i1 % UNSIGNED_MOD < m.pillars.length ∧ i2 % UNSIGNED_MOD < m.pillars.length then
    some ((m.modifyPillar (i1 % UNSIGNED_MOD)
      (fun p => { p with adjacent := p.adjacent ++ [i2 % UNSIGNED_MOD] })).modifyPillar
        (i2 % UNSIGNED_MOD) (fun p => { p with adjacent := p.adjacent ++ [i1 % UNSIGNED_MOD] }))
  else none

/-- One call of the construction interface. -/
inductive BuildOp where
  | addPillar (initial required : Nat)
  | addMonoLink (i1 i2 : Nat)
  | addBiLink (i1 i2 : Nat)
deriving DecidableEq, Repr

/-- Run one construction call. -/
def BuildOp.run (m : Maze) : BuildOp → Option Maze
  | .addPillar a b => some (m.addPillar a b)
  | .addMonoLink i j => m.addMonoLink i j
  | .addBiLink i j => m.addBiLink i j

/-- Run a sequence of construction calls from a given maze. -/
def buildFrom : Maze → List BuildOp → Option Maze
  | m, [] => some m
  | m, op :: ops =>
    match op.run m with
    | some m1 => buildFrom m1 ops
    | none => none

/-- A newly built maze: a default-constructed `Maze` followed by construction calls, none of
which throws. -/
def build (ops : List BuildOp) : Option Maze := buildFrom {} ops

/-- The construction call is an `addPillar`. -/
def BuildOp.isPillar : BuildOp → Bool
  | .addPillar _ _ => true
  | _ => false

/-- Every `addPillar` of the sequence comes before its first link: whenever a call `b` comes
after a call `a` and `b` is an `addPillar`, so is `a`.  An `addPillar` after a link may
reallocate the vector `pillars` (`emplace_back`) and leave the `Pillar*` stored in `adjacent`
dangling, which `preprocess` then dereferences; the positions of the embedding are those
pointers only for sequences of this form. -/
def PillarsFirst (ops : List BuildOp) : Prop :=
  ops.Pairwise (fun a b => b.isPillar = true → a.isPillar = true)

instance (ops : List BuildOp) : Decidable (PillarsFirst ops) := by
  unfold PillarsFirst
  exact inferInstance

/-- The two sums of `Maze::checkSums`, accumulated in `unsigned`. -/
def sumsLoop : List Pillar → Nat × Nat → Nat × Nat
  | [], acc => acc
  | p :: ps, acc =>
    sumsLoop ps (addU acc.1 p.initial, addU acc.2 p.required)

/-- The method `Maze::checkSums`: `some msg` is the thrown `std::logic_error`. -/
def Maze.checkSums (m : Maze) : Option String :=
  let s := sumsLoop m.pillars (0, 0)
  if s.1 ≠ s.2 then some "Initial != required" else none

/-- The call `p.cells.resize(n)`. -/
def resizeCells (cs : List Cell) (n : Nat) : List Cell :=
  cs.take n ++ List.replicate (n - cs.length) default

/-- The inner loop of the initial fill, on the cells of pillar `u`. -/
def initialFillCells (n u : Nat) (cs : List Cell) : List Cell :=
  (List.range n).foldl
    (fun cs j => cs.modify (fun c => { c with source := u, target := j, dist := BIG_DIST }) j) cs

/-- One iteration of the initial fill of `preprocess`, for the pillar at position `u`. -/
def initialFillPillar (n : Nat) (m : Maze) (u : Nat) : Maze :=
  let m1 := m.modifyPillar u (fun p => { p with current := p.initial })
  let m2 : Maze :=
    if (m1.pillar u).initial ≠ (m1.pillar u).required then
      { m1 with nBadPillars := addU m1.nBadPillars 1 }
    else m1
  m2.modifyPillar u (fun p => { p with cells := initialFillCells n u (resizeCells p.cells n) })

/-- The initial fill of `preprocess`. -/
def initialFill (m : Maze) : Maze :=
  (List.range m.pillars.length).foldl (initialFillPillar m.nPillars) { m with nBadPillars := 0 }

/-- One iteration of the Floyd-Warshall initialisation, for the pillar at position `u`. -/
def floydInitPillar (m : Maze) (u : Nat) : Maze :=
  let m1 := (m.pillar u).adjacent.foldl
    (fun m v => m.modifyCell (u, (m.pillar v).index) (fun c => { c with dist := 1 })) m
  m1.modifyCell (u, (m1.pillar u).index) (fun c => { c with dist := 0 })

/-- The Floyd-Warshall initialisation of `preprocess`. -/
def floydInit (m : Maze) : Maze :=
  (List.range m.pillars.length).foldl floydInitPillar m

/-- The body of the innermost Floyd-Warshall loop: cell `j` of pillar `u`, through pillar `i`. -/
def floydCell (i u : Nat) (m : Maze) (j : Nat) : Maze :=
  let v := m.cell (u, j)
  let through := (m.cell (u, (m.pillar i).index)).dist
    + (m.cell (i, (m.pillar v.target).index)).dist
  m.modifyCell (u, j) (fun c => { c with dist := min c.dist through })

/-- The loop over the cells of pillar `u`. -/
def floydRow (i : Nat) (m : Maze) (u : Nat) : Maze :=
  (List.range (m.pillar u).cells.length).foldl (floydCell i u) m

/-- The loop over the pillars `u`, for a fixed intermediate pillar `i`. -/
def floydPass (m : Maze) (i : Nat) : Maze :=
  (List.range m.pillars.length).foldl (floydRow i) m

/-- The Floyd-Warshall run of `preprocess`. -/
def floydRun (m : Maze) : Maze :=
  (List.range m.pillars.length).foldl floydPass m

/-- The body of the symmetry check for the pillars `u` and `v`. -/
def symmetryPair (u : Nat) (m : Maze) (v : Nat) : Maze :=
  let r1 : CellRef := (u, (m.pillar v).index)
  let r2 : CellRef := (v, (m.pillar u).index)
  if (m.cell r1).dist = (m.cell r2).dist then
    (m.modifyCell r1 (fun c => { c with isSymmetrical := true })).modifyCell r2
      (fun c => { c with isSymmetrical := true })
  else m

/-- The symmetry check of `preprocess`. -/
def symmetryCheck (m : Maze) : Maze :=
  (List.range m.pillars.length).foldl
    (fun m u => (List.range m.pillars.length).foldl (symmetryPair u) m) m

/-- The predicate of `remove_if` is false: the cell stays. -/
def keepCell (c : Cell) : Bool := !(c.dist == 0 || c.dist == BIG_DIST)

/-- The matrix cut of `preprocess` (`remove_if` followed by `erase`, for every pillar). -/
def cutMatrix (m : Maze) : Maze :=
  (List.range m.pillars.length).foldl
    (fun m u => m.modifyPillar u (fun p => { p with cells := p.cells.filter keepCell })) m

/-- The innermost loop of the reverse search: the first cell of `cs`, from position `k` on,
whose target is the pillar `u`. -/
def findTarget (u : Nat) : List Cell → Nat → Option Nat
  | [], _ => none
  | c2 :: cs, k => if c2.target = u then some k else findTarget u cs (k + 1)

/-- The loop over the cells of pillar `u` in the reverse search; the message is the thrown
`std::logic_error`. -/
def reverseCells (u : Nat) : List Nat → Maze → Maze × Option String
  | [], m => (m, none)
  | j :: js, m =>
    let m1 := m.modifyCell (u, j) (fun c => { c with reverse := none })
    let c := m1.cell (u, j)
    if c.isSymmetrical then
      match findTarget u (m1.pillar c.target).cells 0 with
      | some k => reverseCells u js (m1.modifyCell (u, j) (fun c => { c with reverse := some (c.target, k) }))
      | none => (m1, some "Cannot find reverse cell")
    else reverseCells u js m1

/-- The loop over the pillars in the reverse search. -/
def reversePillars : List Nat → Maze → Maze × Option String
  | [], m => (m, none)
  | u :: us, m =>
    match reverseCells u (List.range (m.pillar u).cells.length) m with
    | (m1, none) => reversePillars us m1
    | (m1, some msg) => (m1, some msg)

/-- The method `Maze::preprocess`: the maze it leaves and the exception, if one is thrown. -/
def Maze.preprocess (m : Maze) : Maze × Option String :=
  let m5 := cutMatrix (symmetryCheck (floydRun (floydInit (initialFill m))))
  reversePillars (List.range m5.pillars.length) m5

/-- The statement `++nBadPillars`. -/
def Maze.incBad (m : Maze) : Maze :=
  { m with nBadPillars := addU m.nBadPillars 1 }

/-- The statement `--nBadPillars`. -/
def Maze.decBad (m : Maze) : Maze :=
  { m with nBadPillars := subU m.nBadPillars 1 }

/-- The adjustment of `nBadPillars` when the pillar at `u` has `current == required`. -/
def Maze.bumpIfGood (m : Maze) (u : Nat) (bump : Maze → Maze) : Maze :=
  if (m.pillar u).current = (m.pillar u).required then bump m else m

/-- Assignment to the `current` of the pillar at `u`. -/
def Maze.setCurrent (m : Maze) (u : Nat) (c : Nat) : Maze :=
  m.modifyPillar u (fun p => { p with current := c })

/-- The method `Maze::doMove`: the maze it leaves and the returned flag. -/
def Maze.doMove (m : Maze) (r : CellRef) : Maze × Bool :=
  let x := m.cell r
  if x.nBans ≠ 0 then (m, false)
  else if (m.pillar x.source).current < x.dist then (m, false)
  else
    let m1 := m.bumpIfGood x.source Maze.incBad
    let m2 := m1.setCurrent x.source ((m1.pillar x.source).current - x.dist)
    let m3 := m2.bumpIfGood x.source Maze.decBad
    let m4 := m3.bumpIfGood x.target Maze.incBad
    let m5 := m4.setCurrent x.target (addU (m4.pillar x.target).current x.dist)
    let m6 := m5.bumpIfGood x.target Maze.decBad
    match x.reverse with
    | some rr => (m6.modifyCell rr (fun c => { c with nBans := addU c.nBans 1 }), true)
    | none => (m6, true)

/-- The method `Maze::undoMove`. -/
def Maze.undoMove (m : Maze) (r : CellRef) : Maze :=
  let x := m.cell r
  let m1 := m.bumpIfGood x.source Maze.incBad
  let m2 := m1.setCurrent x.source (addU (m1.pillar x.source).current x.dist)
  let m3 := m2.bumpIfGood x.source Maze.decBad
  let m4 := m3.bumpIfGood x.target Maze.incBad
  let m5 := m4.setCurrent x.target (subU (m4.pillar x.target).current x.dist)
  let m6 := m5.bumpIfGood x.target Maze.decBad
  match x.reverse with
  | some rr => m6.modifyCell rr (fun c => { c with nBans := subU c.nBans 1 })
  | none => m6

/-- The vector `moves` of `recurse`: a null entry is `none`. -/
abbrev Moves := List (Option CellRef)

/-- The loop of `recurse` over the cells of pillar `u` (positions `js`).  The last component is
`some r` when the loop left the function with `return r`, and `none` when it ran to its end.
`rec` is the recursive call `recurse(moves, i1)`; `none` means that it ran out of fuel. -/
def cellLoop (rec : Maze → Moves → Option (Maze × Moves × Nat)) (iMove u : Nat) :
    List Nat → Maze → Moves → Option (Maze × Moves × Option Nat)
  | [], m, mv => some (m, mv, none)
  | j :: js, m, mv =>
    match m.doMove (u, j) with
    | (m1, true) =>
      match rec m1 (mv.set iMove (some (u, j))) with
      | none => none
      | some (m2, mv2, r) =>
        if r ≠ CANNOT_SOLVE then some (m2, mv2, some r)
        else cellLoop rec iMove u js (m2.undoMove (u, j)) mv2
    | (m1, false) => cellLoop rec iMove u js m1 mv

/-- The loop of `recurse` over the pillars (positions `us`). -/
def pillarLoop (rec : Maze → Moves → Option (Maze × Moves × Nat)) (iMove : Nat) :
    List Nat → Maze → Moves → Option (Maze × Moves × Option Nat)
  | [], m, mv => some (m, mv, none)
  | u :: us, m, mv =>
    if (m.pillar u).current ≠ 0 then
      match cellLoop rec iMove u (List.range (m.pillar u).cells.length) m mv with
      | none => none
      | some (m1, mv1, some r) => some (m1, mv1, some r)
      | some (m1, mv1, none) => pillarLoop rec iMove us m1 mv1
    else pillarLoop rec iMove us m mv

/-- The method `Maze::recurse`: the maze it leaves, the vector `moves` and the returned
number.  The first argument is the fuel. -/
def recurse : Nat → Maze → Moves → Nat → Option (Maze × Moves × Nat)
  | 0, _, _, _ => none
  | fuel + 1, m, mv, iMove =>
    if m.nBadPillars = 0 then some (m, mv, iMove)
    else
      let remainder := subU m.wantedSolution iMove
      if remainder * 2 % UNSIGNED_MOD < m.nBadPillars then some (m, mv, CANNOT_SOLVE)
      else
        let i1 := addU iMove 1
        match pillarLoop (fun m1 mv1 => recurse fuel m1 mv1 i1) iMove
            (List.range m.pillars.length) m mv with
        | none => none
        | some (m1, mv1, some r) => some (m1, mv1, r)
        | some (m1, mv1, none) => some (m1, mv1, CANNOT_SOLVE)

/-- The call `r.resize(n)` on a vector of cell pointers. -/
def resizeMoves (r : Moves) (n : Nat) : Moves :=
  r.take n ++ List.replicate (n - r.length) none

/-- What a call of `solve` produces: an exception or the returned vector. -/
inductive SolveResult where
  | threw (msg : String)
  | moves (r : Moves)
deriving DecidableEq, Repr

/-- The method `Maze::solve`: the maze it leaves and what it produces; `none` only if the
fuel handed to `recurse` did not suffice. -/
def Maze.solve (m : Maze) (nWantedMoves : Nat) : Option (Maze × SolveResult) :=
  match m.checkSums with
  | some msg => some (m, .threw msg)
  | none =>
    match m.preprocess with
    | (m1, some msg) => some (m1, .threw msg)
    | (m1, none) =>
      let r : Moves := resizeMoves [] (nWantedMoves % UNSIGNED_MOD)
      let m2 : Maze := { m1 with wantedSolution := nWantedMoves % UNSIGNED_MOD }
      match recurse (nWantedMoves % UNSIGNED_MOD + 1) m2 r 0 with
      | none => none
      | some (m3, r3, nMoves) =>
        if nMoves = CANNOT_SOLVE then some (m3, .moves [])
        else some (m3, .moves (resizeMoves r3 nMoves))


/-! ## Predicates used in the statements -/

/-- What every newly built maze satisfies: the stored index of a pillar is its position, the
links point to existing pillars, the counts fit `unsigned`, and no pillar has cells yet. -/
structure Fresh (m : Maze) : Prop where
  index_eq : ∀ u, u < m.pillars.length → (m.pillar u).index = u
  adjacent_lt : ∀ u, u < m.pillars.length → ∀ v ∈ (m.pillar u).adjacent, v < m.pillars.length
  initial_lt : ∀ u, u < m.pillars.length → (m.pillar u).initial < UNSIGNED_MOD
  required_lt : ∀ u, u < m.pillars.length → (m.pillar u).required < UNSIGNED_MOD
  cells_nil : ∀ u, u < m.pillars.length → (m.pillar u).cells = []

/-- Total of the initial counts of all pillars (as a natural number, not reduced). -/
def totalInitial (m : Maze) : Nat := (m.pillars.map (fun p => p.initial)).sum

/-- Total of the required counts of all pillars (as a natural number, not reduced). -/
def totalRequired (m : Maze) : Nat := (m.pillars.map (fun p => p.required)).sum

/-- A one-pillar maze that violates conservation: one token at the start, two required. -/
def unbalancedMaze : Maze := { pillars := [{ index := 0, initial := 1, required := 2 }] }

/-- The deficiency: the number of pillars whose current count differs from the required one. -/
def Maze.badCount (m : Maze) : Nat :=
  m.pillars.countP (fun p => decide (p.current ≠ p.required))

/-- What one iteration of the initial fill does to a pillar at position `u` of `n`. -/
def filledPillar (n u : Nat) (p : Pillar) : Pillar :=
  { p with current := p.initial, cells := initialFillCells n u (resizeCells p.cells n) }

/-- The maze `m1` has the layout of `m`: the same pillars with the same constant members and
links, cell vectors of the same sizes, and cells with the same source and target. -/
structure SameLayout (m m1 : Maze) : Prop where
  length : m1.pillars.length = m.pillars.length
  wanted : m1.wantedSolution = m.wantedSolution
  index : ∀ u, (m1.pillar u).index = (m.pillar u).index
  initial : ∀ u, (m1.pillar u).initial = (m.pillar u).initial
  required : ∀ u, (m1.pillar u).required = (m.pillar u).required
  adjacent : ∀ u, (m1.pillar u).adjacent = (m.pillar u).adjacent
  cells_length : ∀ u, (m1.pillar u).cells.length = (m.pillar u).cells.length
  source : ∀ q, (m1.cell q).source = (m.cell q).source
  target : ∀ q, (m1.cell q).target = (m.cell q).target

/-- The member `proj` of every cell is the same in `m1` as in `m`. -/
def Keeps {α : Type} (proj : Cell → α) (m m1 : Maze) : Prop :=
  ∀ q, proj (m1.cell q) = proj (m.cell q)

/-- The counts and the deficiency counter are the same in `m1` as in `m`. -/
def KeepsCounts (m m1 : Maze) : Prop :=
  m1.nBadPillars = m.nBadPillars ∧ ∀ u, (m1.pillar u).current = (m.pillar u).current

/-- The maze `m1` differs from `m` at most in the member `dist` of cells. -/
structure OnlyDist (m m1 : Maze) : Prop where
  layout : SameLayout m m1
  counts : KeepsCounts m m1
  sym : Keeps Cell.isSymmetrical m m1
  rev : Keeps Cell.reverse m m1
  bans : Keeps Cell.nBans m m1

/-- The maze `m1` differs from `m` at most in the member `isSymmetrical` of cells. -/
structure OnlySym (m m1 : Maze) : Prop where
  layout : SameLayout m m1
  counts : KeepsCounts m m1
  dist : Keeps Cell.dist m m1
  rev : Keeps Cell.reverse m m1
  bans : Keeps Cell.nBans m m1

/-- The maze `m1` differs from `m` at most in the member `reverse` of cells. -/
structure OnlyReverse (m m1 : Maze) : Prop where
  layout : SameLayout m m1
  counts : KeepsCounts m m1
  dist : Keeps Cell.dist m m1
  sym : Keeps Cell.isSymmetrical m m1
  bans : Keeps Cell.nBans m m1

/-- The distance that the Floyd-Warshall initialisation writes into the cell `(u, j)`, where
`old` is the value before and `adj` the links of `u`. -/
def linkDist (adj : List Nat) (u j old : Nat) : Nat :=
  if j = u then 0 else if j ∈ adj then 1 else old

/-- The distance stored in the cell at position `j` of pillar `u`. -/
def Maze.dist (m : Maze) (u j : Nat) : Nat := (m.cell (u, j)).dist

/-- The full matrix that `preprocess` works on between the initial fill and the cut: every
pillar has one cell per pillar, and the cell at position `j` targets pillar `j`. -/
structure Square (m : Maze) : Prop where
  index_eq : ∀ u, u < m.pillars.length → (m.pillar u).index = u
  cells_length : ∀ u, u < m.pillars.length → (m.pillar u).cells.length = m.pillars.length
  source_eq : ∀ u j, u < m.pillars.length → j < m.pillars.length → (m.cell (u, j)).source = u
  target_eq : ∀ u j, u < m.pillars.length → j < m.pillars.length → (m.cell (u, j)).target = j

/-- One relaxation pass of Floyd-Warshall through the pillar `i`, on a distance table. -/
def fwPass (D : Nat → Nat → Nat) (i : Nat) : Nat → Nat → Nat :=
  fun u j => min (D u j) (D u i + D i j)

/-- The distance table after the passes through the pillars `0 .. k-1`. -/
def fwTable (D : Nat → Nat → Nat) : Nat → Nat → Nat → Nat
  | 0 => D
  | k + 1 => fwPass (fwTable D k) k

/-- The distance table with which Floyd-Warshall starts: 0 on the diagonal, 1 along a link,
`BIG_DIST` elsewhere. -/
def linkTable (m : Maze) : Nat → Nat → Nat :=
  fun u j => linkDist (m.pillar u).adjacent u j BIG_DIST

/-- `Hops m u v len`: there is a walk of exactly `len` directed links from pillar `u` to
pillar `v` (a link from `a` to `b` is an entry `b` in the list `adjacent` of `a`). -/
inductive Hops (m : Maze) : Nat → Nat → Nat → Prop where
  | here (u : Nat) : Hops m u u 0
  | step {u w v len : Nat} : w ∈ (m.pillar u).adjacent → Hops m w v len → Hops m u v (len + 1)

/-- The pillar `v` can be reached from `u` along directed links. -/
def Reachable (m : Maze) (u v : Nat) : Prop := ∃ len, Hops m u v len

/-- The number `d` is the minimum number of directed hops from `u` to `v`. -/
def MinHops (m : Maze) (u v d : Nat) : Prop := Hops m u v d ∧ ∀ len, Hops m u v len → d ≤ len

/-- `WalkB m k u v len`: a walk of `len ≥ 1` links from `u` to `v` whose inner pillars all
have a position below `k`. -/
inductive WalkB (m : Maze) (k : Nat) : Nat → Nat → Nat → Prop where
  | single {u v : Nat} : v ∈ (m.pillar u).adjacent → WalkB m k u v 1
  | cons {u w v len : Nat} : w ∈ (m.pillar u).adjacent → w < k → WalkB m k w v len →
      WalkB m k u v (len + 1)

/-- `Trail m u v p`: a walk from `u` to `v` along links; `p` lists the pillars it visits, the
first being `u` and the last `v`. -/
inductive Trail (m : Maze) : Nat → Nat → List Nat → Prop where
  | here (u : Nat) : Trail m u u [u]
  | step {u w v : Nat} {p : List Nat} : w ∈ (m.pillar u).adjacent → Trail m w v p →
      Trail m u v (u :: p)

/-- The cell at position `j` of pillar `u` before the cut, for the distance table `T`. -/
def fullCell (T : Nat → Nat → Nat) (u j : Nat) : Cell :=
  { source := u, target := j, dist := T u j, isSymmetrical := decide (T u j = T j u) }

/-- The cells of pillar `u` that survive the cut, for the distance table `T` on `n` pillars. -/
def keptCells (T : Nat → Nat → Nat) (n u : Nat) : List Cell :=
  ((List.range n).map (fullCell T u)).filter keepCell

/-- The reverse pointer that the last loop of `preprocess` stores in the cell `c` of pillar
`u`, when the cells of every pillar `v` are `cells v`. -/
def reverseOf (cells : Nat → List Cell) (u : Nat) (c : Cell) : Option CellRef :=
  if c.isSymmetrical then (findTarget u (cells c.target) 0).map (fun k => (c.target, k))
  else none

/-- The distance table that `preprocess` computes for a maze. -/
def Maze.table (m : Maze) : Nat → Nat → Nat := fwTable (linkTable m) m.pillars.length

/-- The cells of pillar `u` after `preprocess`, in closed form. -/
def preparedCells (m : Maze) (u : Nat) : List Cell :=
  (keptCells m.table m.pillars.length u).map
    (fun c => { c with reverse := reverseOf (keptCells m.table m.pillars.length) u c })

/-- A small maze used to instantiate the theorems: three pillars in a row, a two-way link
between 0 and 1 and a one-way link from 1 to 2; one token has to travel from 0 to 2. -/
def demoOps : List BuildOp :=
  [.addPillar 1 0, .addPillar 0 0, .addPillar 0 1, .addBiLink 0 1, .addMonoLink 1 2]

/-- The maze that `demoOps` builds. -/
def demoMaze : Maze :=
  { pillars := [{ index := 0, initial := 1, required := 0, adjacent := [1] },
                { index := 1, initial := 0, required := 0, adjacent := [0, 2] },
                { index := 2, initial := 0, required := 1, adjacent := [] }] }

/-- The part of `doMove` that moves the tokens of the cell `x` and adjusts `nBadPillars`. -/
def Maze.moveStep (m : Maze) (x : Cell) : Maze :=
  let m1 := m.bumpIfGood x.source Maze.incBad
  let m2 := m1.setCurrent x.source ((m1.pillar x.source).current - x.dist)
  let m3 := m2.bumpIfGood x.source Maze.decBad
  let m4 := m3.bumpIfGood x.target Maze.incBad
  let m5 := m4.setCurrent x.target (addU (m4.pillar x.target).current x.dist)
  m5.bumpIfGood x.target Maze.decBad

/-- The part of `undoMove` that moves the tokens of the cell `x` back and adjusts
`nBadPillars`. -/
def Maze.unmoveStep (m : Maze) (x : Cell) : Maze :=
  let m1 := m.bumpIfGood x.source Maze.incBad
  let m2 := m1.setCurrent x.source (addU (m1.pillar x.source).current x.dist)
  let m3 := m2.bumpIfGood x.source Maze.decBad
  let m4 := m3.bumpIfGood x.target Maze.incBad
  let m5 := m4.setCurrent x.target (subU (m4.pillar x.target).current x.dist)
  m5.bumpIfGood x.target Maze.decBad

/-- The last statement of `doMove` and of `undoMove`: the update `f` of the ban counter of
the reverse cell, if there is one. -/
def Maze.banStep (m : Maze) (rev : Option CellRef) (f : Nat → Nat) : Maze :=
  match rev with
  | some rr => m.modifyCell rr (fun c => { c with nBans := f c.nBans })
  | none => m

/-- The statement `++` on an `unsigned`. -/
def incU (x : Nat) : Nat := addU x 1

/-- The statement `--` on an `unsigned`. -/
def decU (x : Nat) : Nat := subU x 1

/-- What the search never changes: the layout and the members `dist`, `isSymmetrical` and
`reverse` of the cells. -/
structure SearchFrame (m m1 : Maze) : Prop where
  layout : SameLayout m m1
  dist : Keeps Cell.dist m m1
  sym : Keeps Cell.isSymmetrical m m1
  rev : Keeps Cell.reverse m m1

/-- The properties of the candidate lists that the search relies on. -/
structure Searchable (m : Maze) : Prop where
  source_eq : ∀ u j, j < (m.pillar u).cells.length → (m.cell (u, j)).source = u
  target_lt : ∀ u j, j < (m.pillar u).cells.length →
    (m.cell (u, j)).target < m.pillars.length
  target_ne : ∀ u j, j < (m.pillar u).cells.length → (m.cell (u, j)).target ≠ u
  dist_pos : ∀ u j, j < (m.pillar u).cells.length → 1 ≤ (m.cell (u, j)).dist
  dist_lt : ∀ u j, j < (m.pillar u).cells.length → (m.cell (u, j)).dist < UNSIGNED_MOD
  reverse_valid : ∀ u j, j < (m.pillar u).cells.length → ∀ rr,
    (m.cell (u, j)).reverse = some rr → rr.2 < (m.pillar rr.1).cells.length
  size_lt : m.pillars.length < UNSIGNED_MOD

/-- The properties of the search state that every call of `recurse` finds: the counters fit
`unsigned` and `nBadPillars` is the number of pillars that differ from their requirement. -/
structure Sane (m : Maze) : Prop where
  current_lt : ∀ u, (m.pillar u).current < UNSIGNED_MOD
  nBans_lt : ∀ q, (m.cell q).nBans < UNSIGNED_MOD
  nBad_eq : m.nBadPillars = m.badCount

/-- The three statements of `doMove` and `undoMove` that give the pillar at `u` the new
count `c`: adjust `nBadPillars` before, assign, adjust `nBadPillars` after. -/
def Maze.retarget (m : Maze) (u c : Nat) : Maze :=
  ((m.bumpIfGood u Maze.incBad).setCurrent u c).bumpIfGood u Maze.decBad

/-- The current counts of all pillars, in the order of the pillars. -/
def Maze.counts (m : Maze) : List Nat := m.pillars.map (fun p => p.current)

/-- The initial counts of all pillars. -/
def Maze.initials (m : Maze) : List Nat := m.pillars.map (fun p => p.initial)

/-- The required counts of all pillars. -/
def Maze.requireds (m : Maze) : List Nat := m.pillars.map (fun p => p.required)

/-- A move as the caller sees it: source index, target index and distance. -/
structure Move where
  source : Nat
  target : Nat
  dist : Nat
deriving DecidableEq, Repr

/-- The move that a cell stands for. -/
def Cell.move (c : Cell) : Move := ⟨c.source, c.target, c.dist⟩

/-- The move that a cell pointer stands for. -/
def Maze.moveOf (m : Maze) (r : CellRef) : Move := (m.cell r).move

/-- Applying the move `x` to a vector of counts: `dist` tokens leave the source and arrive at
the target (the arithmetic is that of the `unsigned` member `current`). -/
def moveCounts (cur : List Nat) (x : Move) : List Nat :=
  let c1 := cur.set x.source (cur.getD x.source 0 - x.dist)
  c1.set x.target (addU (c1.getD x.target 0) x.dist)

/-- Replaying a sequence of moves from a vector of counts: every move needs its source to
hold at least `dist` tokens at the moment it is applied; `none` if one does not. -/
def replay : List Nat → List Move → Option (List Nat)
  | cur, [] => some cur
  | cur, x :: xs => if x.dist ≤ cur.getD x.source 0 then replay (moveCounts cur x) xs else none

/-- A call `recurse(moves, i)` in the maze `m` that returned `r`, not `CANNOT_SOLVE`, and left
the maze `m1` and the vector `mv1`: the moves `path` were applied on the way. -/
structure Found (m : Maze) (mv : Moves) (i : Nat) (m1 : Maze) (mv1 : Moves) (r : Nat)
    (path : List CellRef) : Prop where
  depth : r = i + path.length
  bound : r ≤ m.wantedSolution
  valid : ∀ p ∈ path, p.2 < (m.pillar p.1).cells.length
  replayed : replay m.counts (path.map m.moveOf) = some m1.counts
  goal : m1.counts = m.requireds
  frame : SearchFrame m m1
  length_eq : mv1.length = mv.length
  kept : ∀ k, k < i → mv1.getD k none = mv.getD k none
  written : ∀ k, k < path.length → mv1.getD (i + k) none = some (path.getD k (0, 0))
  early : ∀ k, k < path.length →
    replay m.counts ((path.take k).map m.moveOf) ≠ some m.requireds

/-- A call `recurse(moves, i)` in the maze `m` that returned `CANNOT_SOLVE`, or a loop of it
that ran to its end, and left the maze `m1` and the vector `mv1`. -/
structure Failed (m : Maze) (mv : Moves) (i : Nat) (m1 : Maze) (mv1 : Moves) : Prop where
  same : m1 = m
  length_eq : mv1.length = mv.length
  kept : ∀ k, k < i → mv1.getD k none = mv.getD k none

/-- What the loops of `recurse` assume of the recursive call at depth `i1`, in a maze whose
`wantedSolution` is `K`. -/
def RecSound (rec : Maze → Moves → Option (Maze × Moves × Nat)) (i1 K : Nat) : Prop :=
  ∀ m1 mv1 res, Searchable m1 → Sane m1 → m1.wantedSolution = K → mv1.length = K →
    rec m1 mv1 = some res →
    (res.2.2 = CANNOT_SOLVE → Failed m1 mv1 i1 res.1 res.2.1) ∧
    (res.2.2 ≠ CANNOT_SOLVE → ∃ path, Found m1 mv1 i1 res.1 res.2.1 res.2.2 path)

/-- What a loop of `recurse` at depth `i` guarantees of its outcome. -/
def LoopSound (m : Maze) (mv : Moves) (i : Nat) (out : Maze × Moves × Option Nat) : Prop :=
  (out.2.2 = none → Failed m mv i out.1 out.2.1) ∧
  (∀ r, out.2.2 = some r →
    r ≠ CANNOT_SOLVE ∧ ∃ path, Found m mv i out.1 out.2.1 r path)

/-- A maze with a shortcut: the maze `demoMaze` with all links two-way and one more link
from pillar 0 straight to pillar 2. -/
def shortcutOps : List BuildOp :=
  [.addPillar 1 0, .addPillar 0 0, .addPillar 0 1, .addBiLink 0 1, .addBiLink 1 2,
   .addMonoLink 0 2]

/-- The maze that `shortcutOps` builds. -/
def shortcutMaze : Maze :=
  { pillars := [{ index := 0, initial := 1, required := 0, adjacent := [1, 2] },
                { index := 1, initial := 0, required := 0, adjacent := [0, 2] },
                { index := 2, initial := 0, required := 1, adjacent := [1] }] }

/-- The number of positions at which two vectors of counts differ. -/
def diffCount : List Nat → List Nat → Nat
  | a :: l, b :: l1 => (if a = b then 0 else 1) + diffCount l l1
  | _, _ => 0

/-- A sequence of cell pointers that the search can follow from the state `m` to the goal:
every pointer names a cell, the moves are possible in turn and end with every pillar at its
required count, no cell of the sequence carries a ban in `m`, and no cell of the sequence is
the stored reverse of an earlier one (so that no ban arises on the way). -/
structure Playable (m : Maze) (path : List CellRef) : Prop where
  valid : ∀ p ∈ path, p.2 < (m.pillar p.1).cells.length
  replayed : replay m.counts (path.map m.moveOf) = some m.requireds
  unbanned : ∀ p ∈ path, (m.cell p).nBans = 0
  forward : path.Pairwise (fun a b => (m.cell a).reverse ≠ some b)

/-- No move of the sequence goes back along an earlier symmetrical move of the sequence: if
the cell `a` comes before the cell `b` and `a` is symmetrical, then `b` is not the move from
the target of `a` to the source of `a`. -/
def NoReversal (m : Maze) (path : List CellRef) : Prop :=
  path.Pairwise (fun a b => ¬ ((m.cell a).isSymmetrical = true ∧
    (m.cell b).source = (m.cell a).target ∧ (m.cell b).target = (m.cell a).source))

/-- A maze in which the shortest solution goes back along a link: a one-way ring
0 → 2 → 3 → 4 → 5 → 6 → 0 and a two-way link between 0 and 1.  Pillar 0 holds four tokens
that have to reach pillar 6, five links away; the token of pillar 1 has to end where it
started. -/
def catalystOps : List BuildOp :=
  [.addPillar 4 0, .addPillar 1 1, .addPillar 0 0, .addPillar 0 0, .addPillar 0 0,
   .addPillar 0 0, .addPillar 0 4,
   .addMonoLink 0 2, .addMonoLink 2 3, .addMonoLink 3 4, .addMonoLink 4 5, .addMonoLink 5 6,
   .addMonoLink 6 0, .addBiLink 0 1]

/-- The maze that `catalystOps` builds. -/
def catalystMaze : Maze :=
  { pillars := [{ index := 0, initial := 4, required := 0, adjacent := [2, 1] },
                { index := 1, initial := 1, required := 1, adjacent := [0] },
                { index := 2, initial := 0, required := 0, adjacent := [3] },
                { index := 3, initial := 0, required := 0, adjacent := [4] },
                { index := 4, initial := 0, required := 0, adjacent := [5] },
                { index := 5, initial := 0, required := 0, adjacent := [6] },
                { index := 6, initial := 0, required := 4, adjacent := [0] }] }

/-- What the loops of `recurse` assume of the recursive call as to termination: in a maze
whose `wantedSolution` is `K` it returns. -/
def RecTotal (rec : Maze → Moves → Option (Maze × Moves × Nat)) (K : Nat) : Prop :=
  ∀ m1 mv1, Searchable m1 → Sane m1 → m1.wantedSolution = K → mv1.length = K →
    ∃ res, rec m1 mv1 = some res

/-- The recursive call never returns `CANNOT_SOLVE` from the state `m1`. -/
def RecFinds (rec : Maze → Moves → Option (Maze × Moves × Nat)) (K : Nat) (m1 : Maze) : Prop :=
  ∀ mv1 res, mv1.length = K → rec m1 mv1 = some res → res.2.2 ≠ CANNOT_SOLVE

instance (m : Maze) (path : List CellRef) : Decidable (NoReversal m path) := by
  unfold NoReversal
  exact inferInstance

/-- A maze that is solved from the start: two pillars with a two-way link, the only token
is where it has to be. -/
def idleOps : List BuildOp := [.addPillar 1 1, .addPillar 0 0, .addBiLink 0 1]

/-- The maze that `idleOps` builds. -/
def idleMaze : Maze :=
  { pillars := [{ index := 0, initial := 1, required := 1, adjacent := [1] },
                { index := 1, initial := 0, required := 0, adjacent := [0] }] }

/-- A maze whose only solution has 10000 moves: a one-way link from pillar 0 to pillar 1 and
10000 tokens to bring over, one per move. -/
def longOps : List BuildOp := [.addPillar 10000 0, .addPillar 0 10000, .addMonoLink 0 1]

/-- The maze that `longOps` builds. -/
def longMaze : Maze :=
  { pillars := [{ index := 0, initial := 10000, required := 0, adjacent := [1] },
                { index := 1, initial := 0, required := 10000, adjacent := [] }] }

/-- The scenario `solve96` of the program: eight pillars, seven two-way links. -/
def solve96Ops : List BuildOp :=
  [.addPillar 0 0, .addPillar 0 0, .addPillar 0 0, .addPillar 2 0, .addPillar 0 6,
   .addPillar 0 0, .addPillar 1 0, .addPillar 3 0,
   .addBiLink 4 0, .addBiLink 0 1, .addBiLink 1 5, .addBiLink 5 6, .addBiLink 6 2,
   .addBiLink 6 3, .addBiLink 3 7]

/-- The maze that `solve96Ops` builds. -/
def solve96Maze : Maze :=
  { pillars := [{ index := 0, initial := 0, required := 0, adjacent := [4, 1] },
                { index := 1, initial := 0, required := 0, adjacent := [0, 5] },
                { index := 2, initial := 0, required := 0, adjacent := [6] },
                { index := 3, initial := 2, required := 0, adjacent := [6, 7] },
                { index := 4, initial := 0, required := 6, adjacent := [0] },
                { index := 5, initial := 0, required := 0, adjacent := [1, 6] },
                { index := 6, initial := 1, required := 0, adjacent := [5, 2, 3] },
                { index := 7, initial := 3, required := 0, adjacent := [3] }] }

/-- Applying the cells `path` in turn with `doMove`: the state after the last move, or `none`
if a pointer names no cell or `doMove` refuses a move. -/
def Maze.play : Maze → List CellRef → Option Maze
  | m, [] => some m
  | m, x :: xs =>
    if x.2 < (m.pillar x.1).cells.length then
      match m.doMove x with
      | (m1, true) => m1.play xs
      | (_, false) => none
    else none

/-- The states in which a search finds the maze object: a newly built maze (all pillars
added before the first link, fewer than 2^32 of them) went through `preprocess`,
`wantedSolution` was assigned, and the cells `path`,
at most `wantedSolution` of them, were applied in turn with `doMove`.  (A move that is undone
leads back to the state before it, so these are all the states between the calls of
`doMove`, `undoMove` and `recurse` in `solve`.) -/
def SearchState (m : Maze) (path : List CellRef) : Prop :=
  ∃ ops m0, PillarsFirst ops ∧ build ops = some m0 ∧ m0.pillars.length < UNSIGNED_MOD ∧
    m.wantedSolution < UNSIGNED_MOD ∧ path.length ≤ m.wantedSolution ∧
    ({ m0.preprocess.1 with wantedSolution := m.wantedSolution } : Maze).play path = some m

/-- The maze `demoMaze` as `solve(3)` hands it to `recurse`. -/
def demoState : Maze := { demoMaze.preprocess.1 with wantedSolution := 3 }

/-- The maze `demoMaze` as `solve(1)` hands it to `recurse`: one move does not suffice. -/
def demoStuck : Maze := { demoMaze.preprocess.1 with wantedSolution := 1 }

/-- What the loops of `recurse` assume of a successful recursive call at depth `i1`: the
moves it reports were applied in turn with `doMove`. -/
def RecPlays (rec : Maze → Moves → Option (Maze × Moves × Nat)) (i1 K : Nat) : Prop :=
  ∀ m1 mv1 res, Searchable m1 → Sane m1 → m1.wantedSolution = K → mv1.length = K →
    rec m1 mv1 = some res → res.2.2 ≠ CANNOT_SOLVE →
    ∃ path, Found m1 mv1 i1 res.1 res.2.1 res.2.2 path ∧ m1.play path = some res.1

/-- What a run of `recurse` does besides computing its result: it is entered with a value of
`iMove`, and it executes the assignment `moves[iMove] = &v`. -/
inductive Event where
  | enter (iMove : Nat)
  | write (iMove : Nat)
deriving DecidableEq, Repr

/-- The loop `cellLoop` with a log: the same loop, which also returns the events of its
run in the order in which they happen. -/
def cellLoopLog (rec : Maze → Moves → Option ((Maze × Moves × Nat) × List Event))
    (iMove u : Nat) :
    List Nat → Maze → Moves → Option ((Maze × Moves × Option Nat) × List Event)
  | [], m, mv => some ((m, mv, none), [])
  | j :: js, m, mv =>
    match m.doMove (u, j) with
    | (m1, true) =>
      match rec m1 (mv.set iMove (some (u, j))) with
      | none => none
      | some ((m2, mv2, r), log2) =>
        if r ≠ CANNOT_SOLVE then some ((m2, mv2, some r), Event.write iMove :: log2)
        else
          match cellLoopLog rec iMove u js (m2.undoMove (u, j)) mv2 with
          | none => none
          | some (out, log3) => some (out, Event.write iMove :: (log2 ++ log3))
    | (m1, false) => cellLoopLog rec iMove u js m1 mv

/-- The loop `pillarLoop` with a log. -/
def pillarLoopLog (rec : Maze → Moves → Option ((Maze × Moves × Nat) × List Event))
    (iMove : Nat) :
    List Nat → Maze → Moves → Option ((Maze × Moves × Option Nat) × List Event)
  | [], m, mv => some ((m, mv, none), [])
  | u :: us, m, mv =>
    if (m.pillar u).current ≠ 0 then
      match cellLoopLog rec iMove u (List.range (m.pillar u).cells.length) m mv with
      | none => none
      | some ((m1, mv1, some r), log1) => some ((m1, mv1, some r), log1)
      | some ((m1, mv1, none), log1) =>
        match pillarLoopLog rec iMove us m1 mv1 with
        | none => none
        | some (out, log2) => some (out, log1 ++ log2)
    else pillarLoopLog rec iMove us m mv

/-- The method `Maze::recurse` with a log: the same function, which also returns the events
of its run, beginning with its own entry. -/
def recurseLog : Nat → Maze → Moves → Nat → Option ((Maze × Moves × Nat) × List Event)
  | 0, _, _, _ => none
  | fuel + 1, m, mv, iMove =>
    if m.nBadPillars = 0 then some ((m, mv, iMove), [Event.enter iMove])
    else
      let remainder := subU m.wantedSolution iMove
      if remainder * 2 % UNSIGNED_MOD < m.nBadPillars then
        some ((m, mv, CANNOT_SOLVE), [Event.enter iMove])
      else
        let i1 := addU iMove 1
        match pillarLoopLog (fun m1 mv1 => recurseLog fuel m1 mv1 i1) iMove
            (List.range m.pillars.length) m mv with
        | none => none
        | some ((m1, mv1, some r), log) => some ((m1, mv1, r), Event.enter iMove :: log)
        | some ((m1, mv1, none), log) => some ((m1, mv1, CANNOT_SOLVE), Event.enter iMove :: log)

/-- An event stays within the bound `K`: `recurse` is entered with `iMove ≤ K`, and an
assignment `moves[iMove] = &v` has `iMove < K`. -/
def Event.within (K : Nat) : Event → Prop
  | Event.enter iMove => iMove ≤ K
  | Event.write iMove => iMove < K

instance (K : Nat) (e : Event) : Decidable (e.within K) := by
  cases e <;> unfold Event.within <;> exact inferInstance

/-- The maze `demoMaze` as `solve(2147483648)` hands it to `recurse`: twice the budget does
not fit 32 bits. -/
def wideState : Maze := { demoMaze.preprocess.1 with wantedSolution := 2147483648 }

/-- A maze with a one-way link from pillar 0 to pillar 1 and a two-way link between
pillars 0 and 2; one token has to go from pillar 0 to pillar 1. -/
def staleOps : List BuildOp :=
  [.addPillar 1 0, .addPillar 0 1, .addPillar 0 0, .addMonoLink 0 1, .addBiLink 0 2]

/-- The maze that `staleOps` builds. -/
def staleMaze : Maze :=
  { pillars := [{ index := 0, initial := 1, required := 0, adjacent := [1, 2] },
                { index := 1, initial := 0, required := 1, adjacent := [] },
                { index := 2, initial := 0, required := 0, adjacent := [0] }] }

/-! ## Access and update of pillars and cells -/

theorem list_getD_modify {α : Type} (l : List α) (f : α → α) (u w : Nat) (d : α) :
    (l.modify f u).getD w d = if w = u ∧ u < l.length then f (l.getD u d) else l.getD w d := by
  simp only [List.getD_eq_getElem?_getD, List.getElem?_modify]
  by_cases h : u = w
  · subst h
    by_cases hu : u < l.length
    · simp [hu, List.getElem?_eq_getElem hu]
    · have : l[u]? = none := List.getElem?_eq_none (by omega)
      simp [hu, this]
  · have h2 : ¬ w = u := fun e => h e.symm
    cases hl : l[w]? <;> simp [h, h2]

theorem list_ext_getD {α : Type} (l1 l2 : List α) (d : α) (hlen : l1.length = l2.length)
    (h : ∀ i, i < l1.length → l1.getD i d = l2.getD i d) : l1 = l2 := by
  apply List.ext_getElem hlen
  intro i h1 h2
  have := h i h1
  simp only [List.getD_eq_getElem?_getD, List.getElem?_eq_getElem h1,
    List.getElem?_eq_getElem h2, Option.getD_some] at this
  exact this

theorem list_getD_default {α : Type} (l : List α) (i : Nat) (d : α) (h : l.length ≤ i) :
    l.getD i d = d := by
  simp [List.getD_eq_getElem?_getD, List.getElem?_eq_none h]

@[simp] theorem Maze.modifyPillar_length (m : Maze) (u : Nat) (f : Pillar → Pillar) :
    (m.modifyPillar u f).pillars.length = m.pillars.length := by
  simp [Maze.modifyPillar]

@[simp] theorem Maze.modifyPillar_nBadPillars (m : Maze) (u : Nat) (f : Pillar → Pillar) :
    (m.modifyPillar u f).nBadPillars = m.nBadPillars := rfl

@[simp] theorem Maze.modifyPillar_wantedSolution (m : Maze) (u : Nat) (f : Pillar → Pillar) :
    (m.modifyPillar u f).wantedSolution = m.wantedSolution := rfl

theorem Maze.pillar_modifyPillar (m : Maze) (u : Nat) (f : Pillar → Pillar) (w : Nat) :
    (m.modifyPillar u f).pillar w
      = if w = u ∧ u < m.pillars.length then f (m.pillar u) else m.pillar w := by
  simp only [Maze.pillar, Maze.modifyPillar]
  exact list_getD_modify _ _ _ _ _

theorem Maze.pillar_modifyPillar_self (m : Maze) (u : Nat) (f : Pillar → Pillar)
    (hu : u < m.pillars.length) : (m.modifyPillar u f).pillar u = f (m.pillar u) := by
  simp [Maze.pillar_modifyPillar, hu]

theorem Maze.pillar_modifyPillar_ne (m : Maze) (u : Nat) (f : Pillar → Pillar) (w : Nat)
    (h : w ≠ u) : (m.modifyPillar u f).pillar w = m.pillar w := by
  simp [Maze.pillar_modifyPillar, h]

theorem Maze.modifyPillar_of_le (m : Maze) (u : Nat) (f : Pillar → Pillar)
    (hu : m.pillars.length ≤ u) : m.modifyPillar u f = m := by
  simp [Maze.modifyPillar, List.modify_eq_self hu]

theorem Maze.pillar_of_le (m : Maze) (u : Nat) (hu : m.pillars.length ≤ u) :
    m.pillar u = default := list_getD_default _ _ _ hu

theorem Maze.ext_pillar (m m1 : Maze) (hlen : m.pillars.length = m1.pillars.length)
    (hp : ∀ u, u < m.pillars.length → m.pillar u = m1.pillar u)
    (hb : m.nBadPillars = m1.nBadPillars) (hw : m.wantedSolution = m1.wantedSolution) :
    m = m1 := by
  cases m with
  | mk ps b w =>
    cases m1 with
    | mk ps1 b1 w1 =>
      simp only [Maze.mk.injEq]
      exact ⟨list_ext_getD ps ps1 default hlen hp, hb, hw⟩

@[simp] theorem Maze.modifyCell_length (m : Maze) (r : CellRef) (f : Cell → Cell) :
    (m.modifyCell r f).pillars.length = m.pillars.length := by
  simp [Maze.modifyCell]

@[simp] theorem Maze.modifyCell_nBadPillars (m : Maze) (r : CellRef) (f : Cell → Cell) :
    (m.modifyCell r f).nBadPillars = m.nBadPillars := rfl

@[simp] theorem Maze.modifyCell_wantedSolution (m : Maze) (r : CellRef) (f : Cell → Cell) :
    (m.modifyCell r f).wantedSolution = m.wantedSolution := rfl

theorem Maze.pillar_modifyCell (m : Maze) (r : CellRef) (f : Cell → Cell) (w : Nat) :
    (m.modifyCell r f).pillar w
      = if w = r.1 then { m.pillar w with cells := (m.pillar w).cells.modify f r.2 }
        else m.pillar w := by
  simp only [Maze.modifyCell, Maze.pillar_modifyPillar]
  by_cases h : w = r.1
  · subst h
    by_cases hu : r.1 < m.pillars.length
    · simp [hu]
    · have hd : m.pillar r.1 = default := Maze.pillar_of_le _ _ (by omega)
      rw [hd]
      simp only [hu, and_false, if_false, if_true]
      show (default : Pillar) = { (default : Pillar) with cells := List.modify f r.2 [] }
      rw [List.modify_nil]
      rfl
  · simp [h]

@[simp] theorem Maze.modifyCell_index (m : Maze) (r : CellRef) (f : Cell → Cell) (w : Nat) :
    ((m.modifyCell r f).pillar w).index = (m.pillar w).index := by
  rw [Maze.pillar_modifyCell]; split <;> rfl

@[simp] theorem Maze.modifyCell_initial (m : Maze) (r : CellRef) (f : Cell → Cell) (w : Nat) :
    ((m.modifyCell r f).pillar w).initial = (m.pillar w).initial := by
  rw [Maze.pillar_modifyCell]; split <;> rfl

@[simp] theorem Maze.modifyCell_required (m : Maze) (r : CellRef) (f : Cell → Cell) (w : Nat) :
    ((m.modifyCell r f).pillar w).required = (m.pillar w).required := by
  rw [Maze.pillar_modifyCell]; split <;> rfl

@[simp] theorem Maze.modifyCell_adjacent (m : Maze) (r : CellRef) (f : Cell → Cell) (w : Nat) :
    ((m.modifyCell r f).pillar w).adjacent = (m.pillar w).adjacent := by
  rw [Maze.pillar_modifyCell]; split <;> rfl

@[simp] theorem Maze.modifyCell_current (m : Maze) (r : CellRef) (f : Cell → Cell) (w : Nat) :
    ((m.modifyCell r f).pillar w).current = (m.pillar w).current := by
  rw [Maze.pillar_modifyCell]; split <;> rfl

@[simp] theorem Maze.modifyCell_cells_length (m : Maze) (r : CellRef) (f : Cell → Cell)
    (w : Nat) : ((m.modifyCell r f).pillar w).cells.length = (m.pillar w).cells.length := by
  rw [Maze.pillar_modifyCell]; split <;> simp

theorem Maze.cell_modifyCell (m : Maze) (r : CellRef) (f : Cell → Cell) (q : CellRef) :
    (m.modifyCell r f).cell q
      = if q = r ∧ r.2 < (m.pillar r.1).cells.length then f (m.cell r) else m.cell q := by
  obtain ⟨u, j⟩ := r
  obtain ⟨w, k⟩ := q
  simp only [Maze.cell, Maze.pillar_modifyCell]
  by_cases h : w = u
  · subst h
    simp only [if_true, list_getD_modify, Prod.mk.injEq, true_and]
  · simp [h]

theorem Maze.cell_modifyCell_self (m : Maze) (r : CellRef) (f : Cell → Cell)
    (h : r.2 < (m.pillar r.1).cells.length) : (m.modifyCell r f).cell r = f (m.cell r) := by
  simp [Maze.cell_modifyCell, h]

theorem Maze.cell_modifyCell_ne (m : Maze) (r : CellRef) (f : Cell → Cell) (q : CellRef)
    (h : q ≠ r) : (m.modifyCell r f).cell q = m.cell q := by
  simp [Maze.cell_modifyCell, h]

theorem Maze.cells_length_pos_lt (m : Maze) (u j : Nat) (h : j < (m.pillar u).cells.length) :
    u < m.pillars.length := by
  by_contra hu
  rw [Maze.pillar_of_le _ _ (by omega)] at h
  exact absurd h (Nat.not_lt_zero _)

theorem Maze.ext_cell (p q : Pillar) (hi : p.index = q.index) (hn : p.initial = q.initial)
    (hr : p.required = q.required) (ha : p.adjacent = q.adjacent) (hc : p.current = q.current)
    (hl : p.cells.length = q.cells.length)
    (h : ∀ j, j < p.cells.length → p.cells.getD j default = q.cells.getD j default) : p = q := by
  cases p; cases q
  simp only [Pillar.mk.injEq]
  simp only at hi hn hr ha hc hl h
  exact ⟨hi, hn, hr, ha, hc, list_ext_getD _ _ default hl h⟩

/-- A fold over `List.range (k + 1)` is the fold over `List.range k` followed by step `k`. -/
theorem foldl_range_succ {σ : Type} (f : σ → Nat → σ) (s : σ) (k : Nat) :
    (List.range (k + 1)).foldl f s = f ((List.range k).foldl f s) k := by
  rw [List.range_succ, List.foldl_append]; rfl
theorem Maze.addPillar_length (m : Maze) (a b : Nat) :
    (m.addPillar a b).pillars.length = m.pillars.length + 1 := by
  simp [Maze.addPillar]

theorem Maze.pillar_addPillar_lt (m : Maze) (a b w : Nat) (h : w < m.pillars.length) :
    (m.addPillar a b).pillar w = m.pillar w := by
  simp only [Maze.pillar, Maze.addPillar, List.getD_eq_getElem?_getD]
  rw [List.getElem?_append_left h]

theorem Maze.pillar_addPillar_self (m : Maze) (a b : Nat) :
    (m.addPillar a b).pillar m.pillars.length
      = { index := m.pillars.length, initial := a % UNSIGNED_MOD,
          required := b % UNSIGNED_MOD } := by
  simp only [Maze.pillar, Maze.addPillar, List.getD_eq_getElem?_getD, Maze.nPillars]
  rw [List.getElem?_append_right (Nat.le_refl _)]
  simp

theorem fresh_empty : Fresh {} := by
  constructor <;> intro u hu <;> exact absurd hu (Nat.not_lt_zero _)

theorem fresh_addPillar (m : Maze) (a b : Nat) (h : Fresh m) : Fresh (m.addPillar a b) := by
  have key : ∀ u, u < (m.addPillar a b).pillars.length →
      (u < m.pillars.length ∧ (m.addPillar a b).pillar u = m.pillar u) ∨
      (u = m.pillars.length ∧ (m.addPillar a b).pillar u
        = { index := m.pillars.length, initial := a % UNSIGNED_MOD,
            required := b % UNSIGNED_MOD }) := by
    intro u hu
    rw [Maze.addPillar_length] at hu
    by_cases h1 : u < m.pillars.length
    · exact Or.inl ⟨h1, Maze.pillar_addPillar_lt m a b u h1⟩
    · have : u = m.pillars.length := by omega
      subst this
      exact Or.inr ⟨rfl, Maze.pillar_addPillar_self m a b⟩
  have hW : 0 < UNSIGNED_MOD := by decide
  constructor
  · intro u hu
    rcases key u hu with ⟨h1, e⟩ | ⟨h1, e⟩
    · rw [e]; exact h.index_eq u h1
    · rw [e]; exact h1.symm
  · intro u hu v hv
    rw [Maze.addPillar_length]
    rcases key u hu with ⟨h1, e⟩ | ⟨_, e⟩
    · rw [e] at hv; exact Nat.lt_succ_of_lt (h.adjacent_lt u h1 v hv)
    · rw [e] at hv; exact absurd hv (List.not_mem_nil v)
  · intro u hu
    rcases key u hu with ⟨h1, e⟩ | ⟨_, e⟩
    · rw [e]; exact h.initial_lt u h1
    · rw [e]; exact Nat.mod_lt _ hW
  · intro u hu
    rcases key u hu with ⟨h1, e⟩ | ⟨_, e⟩
    · rw [e]; exact h.required_lt u h1
    · rw [e]; exact Nat.mod_lt _ hW
  · intro u hu
    rcases key u hu with ⟨h1, e⟩ | ⟨_, e⟩
    · rw [e]; exact h.cells_nil u h1
    · rw [e]

theorem fresh_link (m : Maze) (i j : Nat) (hj : j < m.pillars.length) (h : Fresh m) :
    Fresh (m.modifyPillar i (fun p => { p with adjacent := p.adjacent ++ [j] })) := by
  constructor
  · intro u hu
    rw [Maze.modifyPillar_length] at hu
    rw [Maze.pillar_modifyPillar]; split
    · rename_i hc; rw [hc.1]; exact h.index_eq i hc.2
    · exact h.index_eq u hu
  · intro u hu v hv
    rw [Maze.modifyPillar_length] at hu ⊢
    rw [Maze.pillar_modifyPillar] at hv
    split at hv
    · rename_i hc
      simp only [List.mem_append, List.mem_singleton] at hv
      rcases hv with hv | hv
      · exact h.adjacent_lt i hc.2 v hv
      · rw [hv]; exact hj
    · exact h.adjacent_lt u hu v hv
  · intro u hu
    rw [Maze.modifyPillar_length] at hu
    rw [Maze.pillar_modifyPillar]; split
    · rename_i hc; exact h.initial_lt i hc.2
    · exact h.initial_lt u hu
  · intro u hu
    rw [Maze.modifyPillar_length] at hu
    rw [Maze.pillar_modifyPillar]; split
    · rename_i hc; exact h.required_lt i hc.2
    · exact h.required_lt u hu
  · intro u hu
    rw [Maze.modifyPillar_length] at hu
    rw [Maze.pillar_modifyPillar]; split
    · rename_i hc; exact h.cells_nil i hc.2
    · exact h.cells_nil u hu

theorem fresh_run (m m1 : Maze) (op : BuildOp) (h : Fresh m) (e : op.run m = some m1) :
    Fresh m1 := by
  cases op with
  | addPillar a b =>
    simp only [BuildOp.run, Option.some.injEq] at e
    subst e; exact fresh_addPillar m a b h
  | addMonoLink i j =>
    simp only [BuildOp.run, Maze.addMonoLink] at e
    split at e
    · rename_i hc
      simp only [Option.some.injEq] at e
      subst e; exact fresh_link m _ _ hc.2 h
    · exact absurd e (by simp)
  | addBiLink i j =>
    simp only [BuildOp.run, Maze.addBiLink] at e
    split at e
    · rename_i hc
      simp only [Option.some.injEq] at e
      subst e
      exact fresh_link _ _ _ (by rw [Maze.modifyPillar_length]; exact hc.1)
        (fresh_link m _ _ hc.2 h)
    · exact absurd e (by simp)

theorem fresh_buildFrom (ops : List BuildOp) : ∀ (m m1 : Maze), Fresh m →
    buildFrom m ops = some m1 → Fresh m1 := by
  induction ops with
  | nil =>
    intro m m1 h e
    simp only [buildFrom, Option.some.injEq] at e
    subst e; exact h
  | cons op ops ih =>
    intro m m1 h e
    simp only [buildFrom] at e
    cases hr : op.run m with
    | none => rw [hr] at e; exact absurd e (by simp)
    | some m2 =>
      rw [hr] at e
      exact ih m2 m1 (fresh_run m m2 op h hr) e

theorem fresh_build (ops : List BuildOp) (m : Maze) (e : build ops = some m) : Fresh m :=
  fresh_buildFrom ops {} m fresh_empty e
theorem sumsLoop_eq (ps : List Pillar) : ∀ a b : Nat,
    sumsLoop ps (a % UNSIGNED_MOD, b % UNSIGNED_MOD)
      = ((a + (ps.map (fun p => p.initial)).sum) % UNSIGNED_MOD,
         (b + (ps.map (fun p => p.required)).sum) % UNSIGNED_MOD) := by
  induction ps with
  | nil => intro a b; simp [sumsLoop]
  | cons p ps ih =>
    intro a b
    simp only [sumsLoop, addU, List.map_cons, List.sum_cons]
    rw [Nat.mod_add_mod, Nat.mod_add_mod, ih, Nat.add_assoc, Nat.add_assoc]

theorem checkSums_eq (m : Maze) :
    m.checkSums = if totalInitial m % UNSIGNED_MOD ≠ totalRequired m % UNSIGNED_MOD
      then some "Initial != required" else none := by
  have h := sumsLoop_eq m.pillars 0 0
  simp only [Nat.zero_mod, Nat.zero_add] at h
  simp only [Maze.checkSums, h, totalInitial, totalRequired]

/-- C2. Conservation error.  For a maze whose totals of initial and of required counts are
both below 2^32: if the totals differ, `checkSums` throws "Initial != required" and `solve`
ends with that exception in the very maze it was called on (no count, no candidate list and
not the deficiency counter is touched: `preprocess` and `recurse` have not run); if the totals
are equal, `checkSums` throws nothing. -/
theorem solve_conservation_error (m : Maze) (K : Nat)
    (hi : totalInitial m < UNSIGNED_MOD) (hr : totalRequired m < UNSIGNED_MOD) :
    (totalInitial m ≠ totalRequired m →
      m.checkSums = some "Initial != required" ∧
      m.solve K = some (m, SolveResult.threw "Initial != required")) ∧
    (totalInitial m = totalRequired m → m.checkSums = none) := by
  have hc := checkSums_eq m
  rw [Nat.mod_eq_of_lt hi, Nat.mod_eq_of_lt hr] at hc
  constructor
  · intro hne
    have h1 : m.checkSums = some "Initial != required" := by rw [hc, if_pos hne]
    exact ⟨h1, by simp only [Maze.solve, h1]⟩
  · intro heq
    rw [hc, if_neg (not_not.mpr heq)]

/-- C2, at a concrete maze: one pillar with one token where two are required. -/
theorem solve_conservation_error_witness :
    totalInitial unbalancedMaze < UNSIGNED_MOD ∧ totalRequired unbalancedMaze < UNSIGNED_MOD ∧
    totalInitial unbalancedMaze ≠ totalRequired unbalancedMaze ∧
    unbalancedMaze.solve 3 = some (unbalancedMaze, SolveResult.threw "Initial != required") :=
  ⟨by decide, by decide, by decide,
    ((solve_conservation_error unbalancedMaze 3 (by decide) (by decide)).1 (by decide)).2⟩
theorem foldl_range_induct {σ : Type} (P : Nat → σ → Prop) (f : σ → Nat → σ) (s : σ) (n : Nat)
    (h0 : P 0 s) (hs : ∀ k, k < n → ∀ t, P k t → P (k + 1) (f t k)) :
    P n ((List.range n).foldl f s) := by
  induction n with
  | zero => simpa using h0
  | succ n ih =>
    rw [foldl_range_succ]
    exact hs n (Nat.lt_succ_self n) _ (ih (fun k hk t ht => hs k (Nat.lt_succ_of_lt hk) t ht))

theorem resizeCells_length (cs : List Cell) (n : Nat) : (resizeCells cs n).length = n := by
  simp only [resizeCells, List.length_append, List.length_take, List.length_replicate]
  omega

theorem resizeCells_nil_getD (n j : Nat) : (resizeCells [] n).getD j default = default := by
  simp only [resizeCells, List.take_nil, List.nil_append, List.length_nil, Nat.sub_zero,
    List.getD_eq_getElem?_getD]
  by_cases h : j < n
  · rw [List.getElem?_eq_getElem (by simpa using h)]; simp
  · rw [List.getElem?_eq_none (by simpa using h)]; rfl

theorem initialFillCells_spec (n u : Nat) (cs : List Cell) (h : cs.length = n) :
    (initialFillCells n u cs).length = n ∧
    ∀ j, j < n → (initialFillCells n u cs).getD j default
      = { cs.getD j default with source := u, target := j, dist := BIG_DIST } := by
  have key := foldl_range_induct
    (fun k (t : List Cell) => t.length = n ∧ ∀ j, j < n → t.getD j default
      = if j < k then { cs.getD j default with source := u, target := j, dist := BIG_DIST }
        else cs.getD j default)
    (fun cs j => cs.modify (fun c => { c with source := u, target := j, dist := BIG_DIST }) j)
    cs n ⟨h, fun j _ => by simp⟩
    (by
      intro k hk t ⟨hl, ht⟩
      refine ⟨by simp [hl], ?_⟩
      intro j hj
      rw [list_getD_modify]
      by_cases hjk : j = k
      · subst hjk
        simp only [hl, hj, and_self, if_true, Nat.lt_succ_self]
        rw [ht j hj]; simp
      · simp only [hjk, false_and, if_false]
        rw [ht j hj]
        by_cases h1 : j < k
        · simp [h1, Nat.lt_succ_of_lt h1]
        · have : ¬ j < k + 1 := by omega
          simp [h1, this])
  refine ⟨key.1, fun j hj => ?_⟩
  have := key.2 j hj
  simpa [initialFillCells, hj] using this

theorem countP_take_succ {α : Type} (p : α → Bool) (l : List α) (k : Nat) (d : α)
    (hk : k < l.length) :
    (l.take (k + 1)).countP p = (l.take k).countP p + (if p (l.getD k d) then 1 else 0) := by
  rw [List.take_succ, List.countP_append, List.getD_eq_getElem?_getD,
    List.getElem?_eq_getElem hk]
  simp [List.countP_cons]

theorem countP_congr_getD {α β : Type} (p : α → Bool) (q : β → Bool) (d : α) (e : β) :
    ∀ (l1 : List α) (l2 : List β), l1.length = l2.length →
    (∀ i, i < l1.length → p (l1.getD i d) = q (l2.getD i e)) → l1.countP p = l2.countP q := by
  intro l1
  induction l1 with
  | nil =>
    intro l2 hl _
    cases l2 with
    | nil => rfl
    | cons b l2 => simp at hl
  | cons a l1 ih =>
    intro l2 hl h
    cases l2 with
    | nil => simp at hl
    | cons b l2 =>
      have h0 := h 0 (by simp)
      simp only [List.getD_cons_zero] at h0
      have hrest := ih l2 (by simpa using hl) (fun i hi => by
        have := h (i + 1) (by simpa using hi)
        simpa using this)
      simp only [List.countP_cons, h0, hrest]

theorem initialFillPillar_pillars (n : Nat) (m : Maze) (u : Nat) :
    (initialFillPillar n m u).pillars = m.pillars.modify (filledPillar n u) u := by
  have hf : ((fun p : Pillar =>
      { p with cells := initialFillCells n u (resizeCells p.cells n) }) ∘
      (fun p : Pillar => { p with current := p.initial })) = filledPillar n u := by
    funext p; rfl
  unfold initialFillPillar
  simp only []
  split <;> simp only [Maze.modifyPillar, List.modify_modify_eq, hf]

theorem initialFillPillar_wanted (n : Nat) (m : Maze) (u : Nat) :
    (initialFillPillar n m u).wantedSolution = m.wantedSolution := by
  unfold initialFillPillar
  simp only []
  split <;> rfl

theorem initialFillPillar_nBad (n : Nat) (m : Maze) (u : Nat) (hu : u < m.pillars.length) :
    (initialFillPillar n m u).nBadPillars
      = if (m.pillar u).initial ≠ (m.pillar u).required
        then addU m.nBadPillars 1 else m.nBadPillars := by
  unfold initialFillPillar
  simp only [Maze.pillar_modifyPillar_self _ _ _ hu]
  split <;> rfl

theorem initialFillPillar_pillar (n : Nat) (m : Maze) (u w : Nat) (hu : u < m.pillars.length) :
    (initialFillPillar n m u).pillar w
      = if w = u then filledPillar n u (m.pillar u) else m.pillar w := by
  simp only [Maze.pillar, initialFillPillar_pillars, list_getD_modify, hu, and_true]

theorem initialFillPillar_length (n : Nat) (m : Maze) (u : Nat) :
    (initialFillPillar n m u).pillars.length = m.pillars.length := by
  rw [initialFillPillar_pillars, List.length_modify]

theorem initialFill_spec (m : Maze) :
    (initialFill m).pillars.length = m.pillars.length ∧
    (initialFill m).wantedSolution = m.wantedSolution ∧
    (initialFill m).nBadPillars
      = (m.pillars.countP (fun p => decide (p.initial ≠ p.required))) % UNSIGNED_MOD ∧
    ∀ w, (initialFill m).pillar w
      = if w < m.pillars.length then filledPillar m.pillars.length w (m.pillar w)
        else m.pillar w := by
  have key := foldl_range_induct
    (fun k (t : Maze) => t.pillars.length = m.pillars.length ∧
      t.wantedSolution = m.wantedSolution ∧
      t.nBadPillars = ((m.pillars.take k).countP
        (fun p => decide (p.initial ≠ p.required))) % UNSIGNED_MOD ∧
      ∀ w, t.pillar w = if w < k then filledPillar m.pillars.length w (m.pillar w)
        else m.pillar w)
    (initialFillPillar m.nPillars) { m with nBadPillars := 0 } m.pillars.length
    ⟨rfl, rfl, by simp [UNSIGNED_MOD], fun w => by simp; rfl⟩
    (by
      intro k hk t ⟨hl, hw, hb, hp⟩
      have hkt : k < t.pillars.length := by rw [hl]; exact hk
      have hpk : t.pillar k = m.pillar k := by rw [hp k]; simp
      refine ⟨by rw [initialFillPillar_length, hl], by rw [initialFillPillar_wanted, hw], ?_, ?_⟩
      · rw [initialFillPillar_nBad _ _ _ hkt, hpk, countP_take_succ _ _ _ default hk, hb]
        by_cases hne : (m.pillar k).initial ≠ (m.pillar k).required
        · have : decide ((m.pillars.getD k default).initial ≠ (m.pillars.getD k default).required)
              = true := by simpa [Maze.pillar] using hne
          simp only [hne, if_true, this, not_false_eq_true, ne_eq, Nat.mod_add_mod, addU]
        · have : decide ((m.pillars.getD k default).initial ≠ (m.pillars.getD k default).required)
              = false := by simpa [Maze.pillar] using hne
          simp only [hne, if_false, this, Nat.add_zero, Bool.false_eq_true]
      · intro w
        rw [initialFillPillar_pillar _ _ _ _ hkt]
        by_cases hwk : w = k
        · subst hwk
          simp only [if_true, Nat.lt_succ_self, hpk]; rfl
        · simp only [hwk, if_false, hp w]
          by_cases h1 : w < k
          · simp [h1, Nat.lt_succ_of_lt h1]
          · have : ¬ w < k + 1 := by omega
            simp [h1, this])
  refine ⟨key.1, key.2.1, ?_, key.2.2.2⟩
  have := key.2.2.1
  rw [List.take_length] at this
  exact this

/-- After the initial fill of a newly built maze: the cell `(u, j)`. -/
theorem initialFill_cell (m : Maze) (hm : Fresh m) (u j : Nat) (hu : u < m.pillars.length)
    (hj : j < m.pillars.length) :
    (initialFill m).cell (u, j) = { source := u, target := j, dist := BIG_DIST } := by
  have h := (initialFill_spec m).2.2.2 u
  simp only [hu, if_true] at h
  simp only [Maze.cell, h, filledPillar, hm.cells_nil u hu]
  rw [(initialFillCells_spec _ u _ (resizeCells_length [] _)).2 j hj, resizeCells_nil_getD]
  rfl

theorem initialFill_cells_length (m : Maze) (u : Nat) (hu : u < m.pillars.length) :
    ((initialFill m).pillar u).cells.length = m.pillars.length := by
  have h := (initialFill_spec m).2.2.2 u
  simp only [hu, if_true] at h
  rw [h]
  exact (initialFillCells_spec _ u _ (resizeCells_length _ _)).1

theorem initialFill_fields (m : Maze) (u : Nat) :
    ((initialFill m).pillar u).index = (m.pillar u).index ∧
    ((initialFill m).pillar u).initial = (m.pillar u).initial ∧
    ((initialFill m).pillar u).required = (m.pillar u).required ∧
    ((initialFill m).pillar u).adjacent = (m.pillar u).adjacent ∧
    (u < m.pillars.length → ((initialFill m).pillar u).current = (m.pillar u).initial) := by
  have h := (initialFill_spec m).2.2.2 u
  rw [h]
  split
  · exact ⟨rfl, rfl, rfl, rfl, fun _ => rfl⟩
  · rename_i hn
    exact ⟨rfl, rfl, rfl, rfl, fun hu => absurd hu hn⟩
theorem SameLayout.reflL (m : Maze) : SameLayout m m :=
  ⟨rfl, rfl, fun _ => rfl, fun _ => rfl, fun _ => rfl, fun _ => rfl, fun _ => rfl,
    fun _ => rfl, fun _ => rfl⟩

theorem SameLayout.transL {m m1 m2 : Maze} (h1 : SameLayout m m1) (h2 : SameLayout m1 m2) :
    SameLayout m m2 :=
  ⟨h2.length.trans h1.length, h2.wanted.trans h1.wanted,
    fun u => (h2.index u).trans (h1.index u), fun u => (h2.initial u).trans (h1.initial u),
    fun u => (h2.required u).trans (h1.required u),
    fun u => (h2.adjacent u).trans (h1.adjacent u),
    fun u => (h2.cells_length u).trans (h1.cells_length u),
    fun q => (h2.source q).trans (h1.source q), fun q => (h2.target q).trans (h1.target q)⟩

theorem SameLayout.symmL {m m1 : Maze} (h : SameLayout m m1) : SameLayout m1 m :=
  ⟨h.length.symm, h.wanted.symm, fun u => (h.index u).symm, fun u => (h.initial u).symm,
    fun u => (h.required u).symm, fun u => (h.adjacent u).symm,
    fun u => (h.cells_length u).symm, fun q => (h.source q).symm, fun q => (h.target q).symm⟩

theorem Keeps.reflK {α : Type} (proj : Cell → α) (m : Maze) : Keeps proj m m := fun _ => rfl

theorem Keeps.transK {α : Type} {proj : Cell → α} {m m1 m2 : Maze} (h1 : Keeps proj m m1)
    (h2 : Keeps proj m1 m2) : Keeps proj m m2 := fun q => (h2 q).trans (h1 q)

theorem KeepsCounts.reflC (m : Maze) : KeepsCounts m m := ⟨rfl, fun _ => rfl⟩

theorem KeepsCounts.transC {m m1 m2 : Maze} (h1 : KeepsCounts m m1) (h2 : KeepsCounts m1 m2) :
    KeepsCounts m m2 := ⟨h2.1.trans h1.1, fun u => (h2.2 u).trans (h1.2 u)⟩

theorem Keeps_modifyCell {α : Type} (proj : Cell → α) (m : Maze) (r : CellRef)
    (f : Cell → Cell) (hf : ∀ c, proj (f c) = proj c) : Keeps proj m (m.modifyCell r f) := by
  intro q
  rw [Maze.cell_modifyCell]
  split
  · rename_i h; rw [hf, h.1]
  · rfl

theorem KeepsCounts_modifyCell (m : Maze) (r : CellRef) (f : Cell → Cell) :
    KeepsCounts m (m.modifyCell r f) := ⟨rfl, fun u => Maze.modifyCell_current m r f u⟩

theorem SameLayout_modifyCell (m : Maze) (r : CellRef) (f : Cell → Cell)
    (hs : ∀ c, (f c).source = c.source) (ht : ∀ c, (f c).target = c.target) :
    SameLayout m (m.modifyCell r f) :=
  ⟨Maze.modifyCell_length m r f, rfl, Maze.modifyCell_index m r f, Maze.modifyCell_initial m r f,
    Maze.modifyCell_required m r f, Maze.modifyCell_adjacent m r f,
    Maze.modifyCell_cells_length m r f, Keeps_modifyCell Cell.source m r f hs,
    Keeps_modifyCell Cell.target m r f ht⟩

/-- A fold whose every step is related by a reflexive and transitive relation. -/
theorem foldl_rel {σ ι : Type} (R : σ → σ → Prop) (hrefl : ∀ s, R s s)
    (htrans : ∀ a b c, R a b → R b c → R a c) (f : σ → ι → σ)
    (hstep : ∀ s i, R s (f s i)) (l : List ι) : ∀ s, R s (l.foldl f s) := by
  induction l with
  | nil => intro s; exact hrefl s
  | cons i l ih => intro s; exact htrans _ _ _ (hstep s i) (ih (f s i))

theorem OnlyDist.reflD (m : Maze) : OnlyDist m m :=
  ⟨SameLayout.reflL m, KeepsCounts.reflC m, Keeps.reflK _ m, Keeps.reflK _ m, Keeps.reflK _ m⟩

theorem OnlyDist.transD {m m1 m2 : Maze} (h1 : OnlyDist m m1) (h2 : OnlyDist m1 m2) :
    OnlyDist m m2 :=
  ⟨h1.layout.transL h2.layout, h1.counts.transC h2.counts, h1.sym.transK h2.sym,
    h1.rev.transK h2.rev, h1.bans.transK h2.bans⟩

theorem OnlyDist_modifyCell (m : Maze) (r : CellRef) (d : Cell → Nat) :
    OnlyDist m (m.modifyCell r (fun c => { c with dist := d c })) :=
  ⟨SameLayout_modifyCell m r _ (fun _ => rfl) (fun _ => rfl), KeepsCounts_modifyCell m r _,
    Keeps_modifyCell Cell.isSymmetrical m r _ (fun _ => rfl),
    Keeps_modifyCell Cell.reverse m r _ (fun _ => rfl),
    Keeps_modifyCell Cell.nBans m r _ (fun _ => rfl)⟩

theorem OnlySym.reflS (m : Maze) : OnlySym m m :=
  ⟨SameLayout.reflL m, KeepsCounts.reflC m, Keeps.reflK _ m, Keeps.reflK _ m, Keeps.reflK _ m⟩

theorem OnlySym.transS {m m1 m2 : Maze} (h1 : OnlySym m m1) (h2 : OnlySym m1 m2) :
    OnlySym m m2 :=
  ⟨h1.layout.transL h2.layout, h1.counts.transC h2.counts, h1.dist.transK h2.dist,
    h1.rev.transK h2.rev, h1.bans.transK h2.bans⟩

theorem OnlySym_modifyCell (m : Maze) (r : CellRef) (b : Bool) :
    OnlySym m (m.modifyCell r (fun c => { c with isSymmetrical := b })) :=
  ⟨SameLayout_modifyCell m r _ (fun _ => rfl) (fun _ => rfl), KeepsCounts_modifyCell m r _,
    Keeps_modifyCell Cell.dist m r _ (fun _ => rfl),
    Keeps_modifyCell Cell.reverse m r _ (fun _ => rfl),
    Keeps_modifyCell Cell.nBans m r _ (fun _ => rfl)⟩

theorem OnlyReverse.reflR (m : Maze) : OnlyReverse m m :=
  ⟨SameLayout.reflL m, KeepsCounts.reflC m, Keeps.reflK _ m, Keeps.reflK _ m, Keeps.reflK _ m⟩

theorem OnlyReverse.transR {m m1 m2 : Maze} (h1 : OnlyReverse m m1) (h2 : OnlyReverse m1 m2) :
    OnlyReverse m m2 :=
  ⟨h1.layout.transL h2.layout, h1.counts.transC h2.counts, h1.dist.transK h2.dist,
    h1.sym.transK h2.sym, h1.bans.transK h2.bans⟩

theorem OnlyReverse_modifyCell (m : Maze) (r : CellRef) (b : Cell → Option CellRef) :
    OnlyReverse m (m.modifyCell r (fun c => { c with reverse := b c })) :=
  ⟨SameLayout_modifyCell m r _ (fun _ => rfl) (fun _ => rfl), KeepsCounts_modifyCell m r _,
    Keeps_modifyCell Cell.dist m r _ (fun _ => rfl),
    Keeps_modifyCell Cell.isSymmetrical m r _ (fun _ => rfl),
    Keeps_modifyCell Cell.nBans m r _ (fun _ => rfl)⟩

/-! ### Floyd-Warshall initialisation -/

theorem floydInit_links (u : Nat) (vs : List Nat) : ∀ m : Maze,
    (∀ v ∈ vs, (m.pillar v).index = v) →
    let m1 := vs.foldl
      (fun m v => m.modifyCell (u, (m.pillar v).index) (fun c => { c with dist := 1 })) m
    OnlyDist m m1 ∧
    ∀ q, (m1.cell q).dist
      = if q.1 = u ∧ q.2 ∈ vs ∧ q.2 < (m.pillar u).cells.length then 1 else (m.cell q).dist := by
  induction vs with
  | nil =>
    intro m _
    exact ⟨OnlyDist.reflD m, fun q => by simp⟩
  | cons v vs ih =>
    intro m hidx
    simp only [List.foldl_cons]
    have hv : (m.pillar v).index = v := hidx v (List.mem_cons_self v vs)
    rw [hv]
    have hl := (OnlyDist_modifyCell m (u, v) (fun _ => 1)).layout
    have := ih (m.modifyCell (u, v) (fun c => { c with dist := 1 }))
      (fun w hw => by rw [hl.index]; exact hidx w (List.mem_cons_of_mem v hw))
    obtain ⟨a, f⟩ := this
    refine ⟨(OnlyDist_modifyCell m (u, v) (fun _ => 1)).transD a, ?_⟩
    intro q
    rw [f q, hl.cells_length, Maze.cell_modifyCell]
    obtain ⟨w, j⟩ := q
    simp only [List.mem_cons, Prod.mk.injEq]
    clear ih a f hl hidx
    by_cases h1 : w = u
    · subst h1
      by_cases h4 : j = v
      · subst h4
        by_cases h2 : j < (m.pillar w).cells.length
        · simp [h2]
        · simp [h2]
      · simp [h4]
    · simp [h1]

theorem floydInitPillar_spec (m : Maze) (u : Nat)
    (hidx : ∀ v, v < m.pillars.length → (m.pillar v).index = v)
    (hadj : ∀ v ∈ (m.pillar u).adjacent, v < m.pillars.length) (hu : u < m.pillars.length) :
    OnlyDist m (floydInitPillar m u) ∧
    ∀ q, ((floydInitPillar m u).cell q).dist
      = if q.1 = u ∧ q.2 < (m.pillar u).cells.length
        then linkDist (m.pillar u).adjacent u q.2 (m.cell q).dist else (m.cell q).dist := by
  obtain ⟨a, f⟩ := floydInit_links u (m.pillar u).adjacent m (fun v hv => hidx v (hadj v hv))
  unfold floydInitPillar
  simp only []
  rw [a.layout.index, hidx u hu]
  refine ⟨a.transD (OnlyDist_modifyCell _ (u, u) (fun _ => 0)), ?_⟩
  intro q
  rw [Maze.cell_modifyCell, a.layout.cells_length]
  obtain ⟨w, j⟩ := q
  simp only [Prod.mk.injEq, linkDist]
  by_cases h1 : w = u
  · subst h1
    by_cases h2 : j = w
    · subst h2
      by_cases h3 : j < (m.pillar j).cells.length
      · simp [h3]
      · simp [h3, f]
    · simp [h2, f]
      split_ifs <;> simp_all
  · simp [h1, f]
theorem floydInit_spec (m : Maze)
    (hidx : ∀ v, v < m.pillars.length → (m.pillar v).index = v)
    (hadj : ∀ u, u < m.pillars.length → ∀ v ∈ (m.pillar u).adjacent, v < m.pillars.length) :
    OnlyDist m (floydInit m) ∧
    ∀ q, ((floydInit m).cell q).dist
      = if q.1 < m.pillars.length ∧ q.2 < (m.pillar q.1).cells.length
        then linkDist (m.pillar q.1).adjacent q.1 q.2 (m.cell q).dist else (m.cell q).dist := by
  have key := foldl_range_induct
    (fun k (t : Maze) => OnlyDist m t ∧ ∀ q, (t.cell q).dist
      = if q.1 < k ∧ q.2 < (m.pillar q.1).cells.length
        then linkDist (m.pillar q.1).adjacent q.1 q.2 (m.cell q).dist else (m.cell q).dist)
    floydInitPillar m m.pillars.length
    ⟨OnlyDist.reflD m, fun q => by simp⟩
    (by
      intro k hk t ⟨ho, hd⟩
      have hl := ho.layout
      obtain ⟨a, f⟩ := floydInitPillar_spec t k
        (fun v hv => by rw [hl.index]; exact hidx v (by rw [← hl.length]; exact hv))
        (fun v hv => by
          rw [hl.adjacent] at hv; rw [hl.length]; exact hadj k hk v hv)
        (by rw [hl.length]; exact hk)
      refine ⟨ho.transD a, ?_⟩
      intro q
      rw [f q, hl.cells_length, hl.adjacent, hd q]
      obtain ⟨w, j⟩ := q
      simp only
      by_cases h1 : w = k
      · subst h1
        by_cases h2 : j < (m.pillar w).cells.length
        · simp [h2]
        · simp [h2]
      · have h3 : (w < k + 1) ↔ w < k := by omega
        simp [h1, h3])
  exact key
theorem Square.of_layout {m m1 : Maze} (h : Square m) (hl : SameLayout m m1) : Square m1 := by
  constructor
  · intro u hu; rw [hl.index]; exact h.index_eq u (by rw [← hl.length]; exact hu)
  · intro u hu; rw [hl.cells_length, hl.length]; exact h.cells_length u (by rw [← hl.length]; exact hu)
  · intro u j hu hj; rw [hl.source]
    exact h.source_eq u j (by rw [← hl.length]; exact hu) (by rw [← hl.length]; exact hj)
  · intro u j hu hj; rw [hl.target]
    exact h.target_eq u j (by rw [← hl.length]; exact hu) (by rw [← hl.length]; exact hj)

theorem floydCell_spec (m : Maze) (hs : Square m) (i u j : Nat) (hi : i < m.pillars.length)
    (hu : u < m.pillars.length) (hj : j < m.pillars.length) :
    OnlyDist m (floydCell i u m j) ∧
    ∀ q : CellRef, (floydCell i u m j).dist q.1 q.2
      = if q = (u, j) then min (m.dist u j) (m.dist u i + m.dist i j) else m.dist q.1 q.2 := by
  unfold floydCell
  simp only []
  rw [hs.index_eq i hi, hs.target_eq u j hu hj, hs.index_eq j hj]
  refine ⟨OnlyDist_modifyCell m (u, j) _, ?_⟩
  intro q
  simp only [Maze.dist, Prod.mk.eta]
  rw [Maze.cell_modifyCell]
  simp only [hs.cells_length u hu, hj, and_true]
  split
  · rfl
  · rfl

theorem floydRow_spec (m : Maze) (hs : Square m) (i u : Nat) (hi : i < m.pillars.length)
    (hu : u < m.pillars.length) (h0 : m.dist i i = 0) :
    OnlyDist m (floydRow i m u) ∧
    ∀ q : CellRef, (floydRow i m u).dist q.1 q.2
      = if q.1 = u ∧ q.2 < m.pillars.length then fwPass m.dist i u q.2 else m.dist q.1 q.2 := by
  have key := foldl_range_induct
    (fun k (t : Maze) => OnlyDist m t ∧ ∀ q : CellRef, t.dist q.1 q.2
      = if q.1 = u ∧ q.2 < k then fwPass m.dist i u q.2 else m.dist q.1 q.2)
    (floydCell i u) m m.pillars.length
    ⟨OnlyDist.reflD m, fun q => by simp⟩
    (by
      intro k hk t ⟨ho, hd⟩
      have hl := ho.layout
      have hst := hs.of_layout hl
      obtain ⟨a, f⟩ := floydCell_spec t hst i u k (by rw [hl.length]; exact hi)
        (by rw [hl.length]; exact hu) (by rw [hl.length]; exact hk)
      refine ⟨ho.transD a, ?_⟩
      intro q
      rw [f q]
      have e1 : t.dist u k = m.dist u k := by
        have := hd (u, k); simpa using this
      have e2 : t.dist u i = m.dist u i := by
        have := hd (u, i)
        simp only [true_and] at this
        rw [this]
        split
        · simp [fwPass, h0]
        · rfl
      have e3 : t.dist i k = m.dist i k := by
        have := hd (i, k); simpa using this
      obtain ⟨w, j⟩ := q
      simp only [Prod.mk.injEq]
      by_cases h1 : w = u
      · subst h1
        by_cases h2 : j = k
        · subst h2
          simp [fwPass, e1, e2, e3]
        · have h3 : (j < k + 1) ↔ j < k := by omega
          have := hd (w, j)
          simp only [true_and] at this
          simp [h2, h3, this]
      · have := hd (w, j)
        simp only [h1, false_and, if_false] at this
        simp [h1, this])
  unfold floydRow
  rw [hs.cells_length u hu]
  exact key

theorem floydPass_spec (m : Maze) (hs : Square m) (i : Nat) (hi : i < m.pillars.length)
    (h0 : m.dist i i = 0) :
    OnlyDist m (floydPass m i) ∧
    ∀ q : CellRef, (floydPass m i).dist q.1 q.2
      = if q.1 < m.pillars.length ∧ q.2 < m.pillars.length then fwPass m.dist i q.1 q.2
        else m.dist q.1 q.2 := by
  have key := foldl_range_induct
    (fun k (t : Maze) => OnlyDist m t ∧ ∀ q : CellRef, t.dist q.1 q.2
      = if q.1 < k ∧ q.2 < m.pillars.length then fwPass m.dist i q.1 q.2 else m.dist q.1 q.2)
    (floydRow i) m m.pillars.length
    ⟨OnlyDist.reflD m, fun q => by simp⟩
    (by
      intro k hk t ⟨ho, hd⟩
      have hl := ho.layout
      have hst := hs.of_layout hl
      have hii : t.dist i i = 0 := by
        have := hd (i, i)
        simp only at this
        rw [this]
        split
        · simp [fwPass, h0]
        · exact h0
      obtain ⟨a, f⟩ := floydRow_spec t hst i k (by rw [hl.length]; exact hi)
        (by rw [hl.length]; exact hk) hii
      refine ⟨ho.transD a, ?_⟩
      intro q
      rw [f q, hl.length]
      obtain ⟨w, j⟩ := q
      simp only
      by_cases h1 : w = k
      · subst h1
        by_cases h2 : j < m.pillars.length
        · have e1 : t.dist w j = m.dist w j := by
            have := hd (w, j); simpa using this
          have e2 : t.dist w i = m.dist w i := by
            have := hd (w, i); simpa using this
          have e3 : t.dist i j = m.dist i j := by
            have := hd (i, j)
            simp only [h2, and_true] at this
            rw [this]
            split
            · simp [fwPass, h0]
            · rfl
          simp [h2, fwPass, e1, e2, e3]
        · have := hd (w, j)
          simp only [h2, and_false, if_false] at this
          simp [h2, this]
      · have h3 : (w < k + 1) ↔ w < k := by omega
        have := hd (w, j)
        simp only at this
        simp [h1, h3, this])
  exact key

theorem fwTable_diag (D : Nat → Nat → Nat) (u : Nat) (h : D u u = 0) :
    ∀ k, fwTable D k u u = 0 := by
  intro k
  induction k with
  | zero => exact h
  | succ k ih => simp [fwTable, fwPass, ih]

theorem floydRun_spec (m : Maze) (hs : Square m)
    (h0 : ∀ u, u < m.pillars.length → m.dist u u = 0) :
    OnlyDist m (floydRun m) ∧
    ∀ u j, u < m.pillars.length → j < m.pillars.length →
      (floydRun m).dist u j = fwTable m.dist m.pillars.length u j := by
  have key := foldl_range_induct
    (fun k (t : Maze) => OnlyDist m t ∧ ∀ u j, u < m.pillars.length → j < m.pillars.length →
      t.dist u j = fwTable m.dist k u j)
    floydPass m m.pillars.length
    ⟨OnlyDist.reflD m, fun u j _ _ => rfl⟩
    (by
      intro k hk t ⟨ho, hd⟩
      have hl := ho.layout
      have hst := hs.of_layout hl
      have hkk : t.dist k k = 0 := by
        rw [hd k k hk hk]; exact fwTable_diag _ k (h0 k hk) k
      obtain ⟨a, f⟩ := floydPass_spec t hst k (by rw [hl.length]; exact hk) hkk
      refine ⟨ho.transD a, ?_⟩
      intro u j hu hj
      have := f (u, j)
      simp only [hl.length, hu, hj, and_self, if_true] at this
      rw [this]
      simp only [fwTable, fwPass, hd u j hu hj, hd u k hu hk, hd k j hk hj])
  exact key
theorem WalkB.mono {m : Maze} {k k1 u v len : Nat} (hk : k ≤ k1) (h : WalkB m k u v len) :
    WalkB m k1 u v len := by
  induction h with
  | single ha => exact WalkB.single ha
  | cons ha hw _ ih => exact WalkB.cons ha (Nat.lt_of_lt_of_le hw hk) ih

theorem WalkB.append {m : Maze} {k u w v l1 l2 : Nat} (h1 : WalkB m k u w l1) (hw : w < k)
    (h2 : WalkB m k w v l2) : WalkB m k u v (l1 + l2) := by
  induction h1 with
  | single ha =>
    rw [Nat.add_comm]; exact WalkB.cons ha hw h2
  | cons ha hx _ ih =>
    have := WalkB.cons ha hx (ih hw h2)
    rw [Nat.add_right_comm]
    exact this

theorem WalkB.pos {m : Maze} {k u v len : Nat} (h : WalkB m k u v len) : 1 ≤ len := by
  cases h <;> omega

/-- The invariant of the Floyd-Warshall run after the passes `0 .. k-1`. -/
theorem fwTable_inv (m : Maze) (k : Nat) :
    (∀ u j, fwTable (linkTable m) k u j ≤ BIG_DIST) ∧
    (∀ u, fwTable (linkTable m) k u u = 0) ∧
    (∀ u j, u ≠ j → fwTable (linkTable m) k u j < BIG_DIST →
      WalkB m k u j (fwTable (linkTable m) k u j)) ∧
    (∀ u j len, WalkB m k u j len → fwTable (linkTable m) k u j ≤ len) := by
  induction k with
  | zero =>
    refine ⟨?_, ?_, ?_, ?_⟩
    · intro u j
      simp only [fwTable, linkTable, linkDist, BIG_DIST]
      split_ifs <;> omega
    · intro u; simp [fwTable, linkTable, linkDist]
    · intro u j hne hlt
      simp only [fwTable, linkTable, linkDist] at hlt ⊢
      have hne2 : ¬ j = u := fun e => hne e.symm
      simp only [hne2, if_false] at hlt ⊢
      split_ifs at hlt ⊢ with h
      · exact WalkB.single h
      · exact absurd hlt (Nat.lt_irrefl _)
    · intro u j len h
      cases h with
      | single ha =>
        simp only [fwTable, linkTable, linkDist]
        split_ifs <;> omega
      | cons _ hw _ => exact absurd hw (Nat.not_lt_zero _)
  | succ k ih =>
    obtain ⟨ha, hb, hc, hd⟩ := ih
    -- the triangle inequality through a pillar below `k`
    have tri : ∀ u w v, w < k → fwTable (linkTable m) k u v
        ≤ fwTable (linkTable m) k u w + fwTable (linkTable m) k w v := by
      intro u w v hw
      by_cases h1 : fwTable (linkTable m) k u w < BIG_DIST
      · by_cases h2 : fwTable (linkTable m) k w v < BIG_DIST
        · by_cases e1 : u = w
          · subst e1; rw [hb]; omega
          · by_cases e2 : w = v
            · subst e2; rw [hb]; omega
            · exact hd u v _ ((hc u w e1 h1).append hw (hc w v e2 h2))
        · have := ha u v; omega
      · have := ha u v; omega
    refine ⟨?_, ?_, ?_, ?_⟩
    · intro u j
      simp only [fwTable, fwPass]
      exact Nat.le_trans (Nat.min_le_left _ _) (ha u j)
    · intro u; simp [fwTable, fwPass, hb]
    · intro u j hne hlt
      simp only [fwTable, fwPass] at hlt ⊢
      by_cases hle : fwTable (linkTable m) k u j
          ≤ fwTable (linkTable m) k u k + fwTable (linkTable m) k k j
      · rw [Nat.min_eq_left hle] at hlt ⊢
        exact (hc u j hne hlt).mono (Nat.le_succ k)
      · have hlt2 : fwTable (linkTable m) k u k + fwTable (linkTable m) k k j
            < fwTable (linkTable m) k u j := Nat.lt_of_not_le hle
        rw [Nat.min_eq_right (Nat.le_of_lt hlt2)] at hlt ⊢
        have e1 : u ≠ k := by
          intro e; subst e; rw [hb] at hlt2; omega
        have e2 : k ≠ j := by
          intro e; subst e; rw [hb] at hlt2; omega
        have w1 := (hc u k e1 (by omega)).mono (Nat.le_succ k)
        have w2 := (hc k j e2 (by omega)).mono (Nat.le_succ k)
        exact w1.append (Nat.lt_succ_self k) w2
    · intro u j len h
      simp only [fwTable, fwPass]
      induction h with
      | @single a b hx =>
        exact Nat.le_trans (Nat.min_le_left _ _) (hd _ _ 1 (WalkB.single hx))
      | @cons a w b l hx hw _ ih2 =>
        have h1 : fwTable (linkTable m) k a w ≤ 1 := hd _ _ 1 (WalkB.single hx)
        by_cases hwk : w < k
        · have t1 := tri a w b hwk
          have t2 := tri a w k hwk
          rcases min_le_iff.mp ih2 with h2 | h2 <;>
            rw [min_le_iff] <;> omega
        · have : w = k := by omega
          subst this
          rw [hb] at ih2
          simp only [Nat.zero_add, min_self] at ih2
          rw [min_le_iff]; omega
theorem Hops.of_walkB {m : Maze} {k u v len : Nat} (h : WalkB m k u v len) :
    Hops m u v len := by
  induction h with
  | single ha => exact Hops.step ha (Hops.here _)
  | cons ha _ _ ih => exact Hops.step ha ih

theorem Hops.to_walkB {m : Maze} {n : Nat}
    (hcl : ∀ u v, v ∈ (m.pillar u).adjacent → v < n) {u v len : Nat} (h : Hops m u v len) :
    1 ≤ len → WalkB m n u v len := by
  induction h with
  | here u => intro h; omega
  | @step a w b l ha hw ih =>
    intro _
    cases hw with
    | here => exact WalkB.single ha
    | step hb hw2 => exact WalkB.cons ha (hcl _ _ ha) (ih (by omega))

theorem Hops.eq_of_zero {m : Maze} {u v : Nat} (h : Hops m u v 0) : u = v := by
  cases h; rfl

theorem Trail.of_hops {m : Maze} {u v len : Nat} (h : Hops m u v len) :
    ∃ p, Trail m u v p ∧ p.length = len + 1 := by
  induction h with
  | here u => exact ⟨[u], Trail.here u, rfl⟩
  | step ha _ ih =>
    obtain ⟨p, hp, hl⟩ := ih
    exact ⟨_ :: p, Trail.step ha hp, by simp [hl]⟩

theorem Trail.to_hops {m : Maze} {u v : Nat} {p : List Nat} (h : Trail m u v p) :
    ∃ len, Hops m u v len ∧ p.length = len + 1 := by
  induction h with
  | here u => exact ⟨0, Hops.here u, rfl⟩
  | step ha _ ih =>
    obtain ⟨len, hp, hl⟩ := ih
    exact ⟨len + 1, Hops.step ha hp, by simp [hl]⟩

theorem Trail.mem_lt {m : Maze} {n : Nat}
    (hcl : ∀ u v, v ∈ (m.pillar u).adjacent → v < n) {u v : Nat} {p : List Nat}
    (h : Trail m u v p) : u < n → ∀ x ∈ p, x < n := by
  induction h with
  | here u =>
    intro hu x hx
    simp only [List.mem_singleton] at hx
    rw [hx]; exact hu
  | step ha _ ih =>
    intro hu x hx
    simp only [List.mem_cons] at hx
    rcases hx with hx | hx
    · rw [hx]; exact hu
    · exact ih (hcl _ _ ha) x hx

/-- From any pillar on a trail, the rest of the trail leads to the same end. -/
theorem Trail.from_mem {m : Maze} {u v : Nat} {p : List Nat} (h : Trail m u v p) :
    ∀ x ∈ p, ∃ q, Trail m x v q ∧ q.length ≤ p.length := by
  induction h with
  | here u =>
    intro x hx
    simp only [List.mem_singleton] at hx
    subst hx
    exact ⟨[x], Trail.here x, Nat.le_refl _⟩
  | @step a w b p ha hw ih =>
    intro x hx
    simp only [List.mem_cons] at hx
    rcases hx with hx | hx
    · subst hx
      exact ⟨x :: p, Trail.step ha hw, Nat.le_refl _⟩
    · obtain ⟨q, hq, hl⟩ := ih x hx
      exact ⟨q, hq, by simp only [List.length_cons]; omega⟩

theorem Trail.exists_nodup {m : Maze} (N : Nat) : ∀ (u v : Nat) (p : List Nat),
    p.length ≤ N → Trail m u v p → ∃ q, Trail m u v q ∧ q.Nodup ∧ q.length ≤ p.length := by
  induction N with
  | zero =>
    intro u v p hl h
    cases h <;> simp at hl
  | succ N ih =>
    intro u v p hl h
    cases h with
    | here => exact ⟨[u], Trail.here u, by simp, Nat.le_refl _⟩
    | @step _ w _ p1 ha hw =>
      simp only [List.length_cons] at hl
      obtain ⟨q, hq, hnd, hql⟩ := ih w v p1 (by omega) hw
      by_cases hmem : u ∈ q
      · obtain ⟨q2, hq2, hl2⟩ := hq.from_mem u hmem
        obtain ⟨q3, hq3, hnd3, hl3⟩ := ih u v q2 (by omega) hq2
        exact ⟨q3, hq3, hnd3, by simp only [List.length_cons]; omega⟩
      · exact ⟨u :: q, Trail.step ha hq, List.nodup_cons.mpr ⟨hmem, hnd⟩,
          by simp only [List.length_cons]; omega⟩

theorem nodup_length_le (n : Nat) (p : List Nat) (hnd : p.Nodup) (h : ∀ x ∈ p, x < n) :
    p.length ≤ n := by
  have h1 : p.toFinset ⊆ Finset.range n := by
    intro x hx
    rw [List.mem_toFinset] at hx
    exact Finset.mem_range.mpr (h x hx)
  have h2 := Finset.card_le_card h1
  rw [List.toFinset_card_of_nodup hnd, Finset.card_range] at h2
  exact h2

/-- A pillar that can be reached at all can be reached in fewer hops than there are
pillars. -/
theorem Hops.exists_short {m : Maze} {n : Nat}
    (hcl : ∀ u v, v ∈ (m.pillar u).adjacent → v < n) {u v len : Nat} (hu : u < n)
    (h : Hops m u v len) : ∃ l, l < n ∧ Hops m u v l := by
  obtain ⟨p, hp, _⟩ := Trail.of_hops h
  obtain ⟨q, hq, hnd, _⟩ := Trail.exists_nodup p.length u v p (Nat.le_refl _) hp
  obtain ⟨l, hl, hlen⟩ := hq.to_hops
  have := nodup_length_le n q hnd (hq.mem_lt hcl hu)
  exact ⟨l, by omega, hl⟩
theorem symmetryPair_spec (m : Maze) (hs : Square m) (u v : Nat) (hu : u < m.pillars.length)
    (hv : v < m.pillars.length) :
    OnlySym m (symmetryPair u m v) ∧
    ∀ q : CellRef, ((symmetryPair u m v).cell q).isSymmetrical = true ↔
      ((m.cell q).isSymmetrical = true ∨
        ((q = (u, v) ∨ q = (v, u)) ∧ m.dist u v = m.dist v u)) := by
  unfold symmetryPair
  simp only []
  rw [hs.index_eq u hu, hs.index_eq v hv]
  split
  · rename_i heq
    refine ⟨(OnlySym_modifyCell m (u, v) true).transS (OnlySym_modifyCell _ (v, u) true), ?_⟩
    intro q
    simp only [Maze.cell_modifyCell, Maze.modifyCell_cells_length, hs.cells_length u hu,
      hs.cells_length v hv, hu, hv, and_true, Maze.dist]
    by_cases h1 : q = (v, u)
    · simp [h1, heq]
    · by_cases h2 : q = (u, v)
      · subst h2
        have h3 : ¬ (u = v ∧ v = u) := fun ⟨e1, e2⟩ => h1 (by rw [e1])
        simp [h3, heq]
      · simp [h1, h2]
  · rename_i hne
    refine ⟨OnlySym.reflS m, ?_⟩
    intro q
    simp only [Maze.dist, hne, and_false, or_false]

theorem symmetryRow_spec (m : Maze) (hs : Square m) (u : Nat) (hu : u < m.pillars.length) :
    OnlySym m ((List.range m.pillars.length).foldl (symmetryPair u) m) ∧
    ∀ q : CellRef,
      (((List.range m.pillars.length).foldl (symmetryPair u) m).cell q).isSymmetrical = true ↔
      ((m.cell q).isSymmetrical = true ∨
        (((q.1 = u ∧ q.2 < m.pillars.length) ∨ (q.2 = u ∧ q.1 < m.pillars.length)) ∧
          m.dist q.1 q.2 = m.dist q.2 q.1)) := by
  have key := foldl_range_induct
    (fun k (t : Maze) => OnlySym m t ∧ ∀ q : CellRef, (t.cell q).isSymmetrical = true ↔
      ((m.cell q).isSymmetrical = true ∨
        (((q.1 = u ∧ q.2 < k) ∨ (q.2 = u ∧ q.1 < k)) ∧ m.dist q.1 q.2 = m.dist q.2 q.1)))
    (symmetryPair u) m m.pillars.length
    ⟨OnlySym.reflS m, fun q => by simp⟩
    (by
      intro k hk t ⟨ho, hd⟩
      have hl := ho.layout
      have hst := hs.of_layout hl
      obtain ⟨hos, f⟩ := symmetryPair_spec t hst u k (by rw [hl.length]; exact hu)
        (by rw [hl.length]; exact hk)
      refine ⟨ho.transS hos, ?_⟩
      intro q
      rw [f q, hd q]
      have e1 : t.dist u k = m.dist u k := ho.dist (u, k)
      have e2 : t.dist k u = m.dist k u := ho.dist (k, u)
      rw [e1, e2]
      obtain ⟨w, j⟩ := q
      simp only [Prod.mk.injEq]
      constructor
      · rintro (h | h)
        · rcases h with h | ⟨h1, h2⟩
          · exact Or.inl h
          · refine Or.inr ⟨?_, h2⟩
            rcases h1 with ⟨a, b⟩ | ⟨a, b⟩
            · exact Or.inl ⟨a, by omega⟩
            · exact Or.inr ⟨a, by omega⟩
        · obtain ⟨h1, h2⟩ := h
          refine Or.inr ⟨?_, ?_⟩
          · rcases h1 with ⟨a, b⟩ | ⟨a, b⟩
            · exact Or.inl ⟨a, by omega⟩
            · exact Or.inr ⟨b, by omega⟩
          · rcases h1 with ⟨a, b⟩ | ⟨a, b⟩
            · rw [a, b]; exact h2
            · rw [a, b]; exact h2.symm
      · rintro (h | ⟨h1, h2⟩)
        · exact Or.inl (Or.inl h)
        · rcases h1 with ⟨a, b⟩ | ⟨a, b⟩
          · by_cases hjk : j = k
            · subst hjk; subst a
              exact Or.inr ⟨Or.inl ⟨rfl, rfl⟩, h2⟩
            · exact Or.inl (Or.inr ⟨Or.inl ⟨a, by omega⟩, h2⟩)
          · by_cases hjk : w = k
            · subst hjk; subst a
              exact Or.inr ⟨Or.inr ⟨rfl, rfl⟩, h2.symm⟩
            · exact Or.inl (Or.inr ⟨Or.inr ⟨a, by omega⟩, h2⟩))
  exact key

theorem symmetryCheck_spec (m : Maze) (hs : Square m) :
    OnlySym m (symmetryCheck m) ∧
    ∀ u j, u < m.pillars.length → j < m.pillars.length →
      (((symmetryCheck m).cell (u, j)).isSymmetrical = true ↔
        ((m.cell (u, j)).isSymmetrical = true ∨ m.dist u j = m.dist j u)) := by
  have key := foldl_range_induct
    (fun k (t : Maze) => OnlySym m t ∧ ∀ q : CellRef, q.1 < m.pillars.length →
      q.2 < m.pillars.length → ((t.cell q).isSymmetrical = true ↔
      ((m.cell q).isSymmetrical = true ∨
        ((q.1 < k ∨ q.2 < k) ∧ m.dist q.1 q.2 = m.dist q.2 q.1))))
    (fun m u => (List.range m.pillars.length).foldl (symmetryPair u) m) m m.pillars.length
    ⟨OnlySym.reflS m, fun q _ _ => by simp⟩
    (by
      intro k hk t ⟨ho, hd⟩
      have hl := ho.layout
      have hst := hs.of_layout hl
      obtain ⟨hos, f⟩ := symmetryRow_spec t hst k (by rw [hl.length]; exact hk)
      refine ⟨ho.transS hos, ?_⟩
      intro q hq1 hq2
      show ((List.foldl (symmetryPair k) t (List.range t.pillars.length)).cell q).isSymmetrical
        = true ↔ _
      rw [f q, hd q hq1 hq2, hl.length]
      have e1 : t.dist q.1 q.2 = m.dist q.1 q.2 := ho.dist (q.1, q.2)
      have e2 : t.dist q.2 q.1 = m.dist q.2 q.1 := ho.dist (q.2, q.1)
      rw [e1, e2]
      constructor
      · rintro (h | h)
        · rcases h with h | ⟨h1, h2⟩
          · exact Or.inl h
          · exact Or.inr ⟨by omega, h2⟩
        · obtain ⟨h1, h2⟩ := h
          exact Or.inr ⟨by omega, h2⟩
      · rintro (h | ⟨h1, h2⟩)
        · exact Or.inl (Or.inl h)
        · by_cases h3 : q.1 = k
          · exact Or.inr ⟨Or.inl ⟨h3, hq2⟩, h2⟩
          · by_cases h4 : q.2 = k
            · exact Or.inr ⟨Or.inr ⟨h4, hq1⟩, h2⟩
            · exact Or.inl (Or.inr ⟨by omega, h2⟩))
  refine ⟨key.1, fun u j hu hj => ?_⟩
  have := key.2 (u, j) hu hj
  simp only [hu, true_or, true_and] at this
  exact this
theorem cutMatrix_spec (m : Maze) :
    (cutMatrix m).pillars.length = m.pillars.length ∧
    (cutMatrix m).nBadPillars = m.nBadPillars ∧
    (cutMatrix m).wantedSolution = m.wantedSolution ∧
    ∀ w, (cutMatrix m).pillar w
      = { m.pillar w with cells := (m.pillar w).cells.filter keepCell } := by
  have key := foldl_range_induct
    (fun k (t : Maze) => t.pillars.length = m.pillars.length ∧
      t.nBadPillars = m.nBadPillars ∧ t.wantedSolution = m.wantedSolution ∧
      ∀ w, t.pillar w = if w < k then
        { m.pillar w with cells := (m.pillar w).cells.filter keepCell } else m.pillar w)
    (fun m u => m.modifyPillar u (fun p => { p with cells := p.cells.filter keepCell }))
    m m.pillars.length
    ⟨rfl, rfl, rfl, fun w => by simp⟩
    (by
      intro k hk t ⟨hl, hb, hw, hp⟩
      refine ⟨by simp [hl], by simp [hb], by simp [hw], ?_⟩
      intro w
      simp only []
      rw [Maze.pillar_modifyPillar]
      by_cases h1 : w = k
      · subst h1
        have := hp w
        simp only [Nat.lt_irrefl, if_false] at this
        simp [hl, hk, this]
      · have h3 : (w < k + 1) ↔ w < k := by omega
        simp [h1, h3, hp w])
  refine ⟨key.1, key.2.1, key.2.2.1, fun w => ?_⟩
  have := key.2.2.2 w
  refine this.trans ?_
  split
  · rfl
  · rename_i h
    rw [Maze.pillar_of_le m w (by omega)]
    rfl
theorem list_eq_map_range {α : Type} (l : List α) (n : Nat) (d : α) (f : Nat → α)
    (hl : l.length = n) (h : ∀ j, j < n → l.getD j d = f j) : l = (List.range n).map f := by
  apply list_ext_getD l _ d (by simp [hl])
  intro i hi
  rw [h i (by omega)]
  simp only [List.getD_eq_getElem?_getD]
  rw [List.getElem?_eq_getElem (by simp; omega)]
  simp

theorem fwTable_congr (D D1 : Nat → Nat → Nat) (n : Nat)
    (h : ∀ u j, u < n → j < n → D u j = D1 u j) :
    ∀ k, k ≤ n → ∀ u j, u < n → j < n → fwTable D k u j = fwTable D1 k u j := by
  intro k
  induction k with
  | zero => intro _ u j hu hj; exact h u j hu hj
  | succ k ih =>
    intro hk u j hu hj
    simp only [fwTable, fwPass]
    rw [ih (by omega) u j hu hj, ih (by omega) u k hu (by omega), ih (by omega) k j (by omega) hj]

theorem initialFill_square (m : Maze) (hm : Fresh m) : Square (initialFill m) := by
  have hl := (initialFill_spec m).1
  constructor
  · intro u hu
    rw [hl] at hu
    rw [(initialFill_fields m u).1]; exact hm.index_eq u hu
  · intro u hu
    rw [hl] at hu ⊢
    exact initialFill_cells_length m u hu
  · intro u j hu hj
    rw [hl] at hu hj
    rw [initialFill_cell m hm u j hu hj]
  · intro u j hu hj
    rw [hl] at hu hj
    rw [initialFill_cell m hm u j hu hj]

/-- The matrix before the cut, for a newly built maze. -/
theorem beforeCut_spec (m : Maze) (hm : Fresh m) :
    let m4 := symmetryCheck (floydRun (floydInit (initialFill m)))
    m4.pillars.length = m.pillars.length ∧
    m4.wantedSolution = m.wantedSolution ∧
    m4.nBadPillars
      = (m.pillars.countP (fun p => decide (p.initial ≠ p.required))) % UNSIGNED_MOD ∧
    (∀ u, (m4.pillar u).index = (m.pillar u).index ∧
      (m4.pillar u).initial = (m.pillar u).initial ∧
      (m4.pillar u).required = (m.pillar u).required ∧
      (m4.pillar u).adjacent = (m.pillar u).adjacent) ∧
    (∀ u, u < m.pillars.length → (m4.pillar u).current = (m.pillar u).initial) ∧
    (∀ u, u < m.pillars.length →
      (m4.pillar u).cells = (List.range m.pillars.length).map (fullCell m.table u)) := by
  intro m4
  have h1 := initialFill_spec m
  have hl1 := h1.1
  have hsq1 := initialFill_square m hm
  have hf1 := initialFill_fields m
  obtain ⟨o2, d2⟩ := floydInit_spec (initialFill m) hsq1.index_eq (by
    intro u hu v hv
    rw [(hf1 u).2.2.2.1] at hv
    rw [hl1] at hu ⊢
    exact hm.adjacent_lt u hu v hv)
  have hsq2 := hsq1.of_layout o2.layout
  have hl2 := o2.layout.length
  have hd2 : ∀ u j, u < m.pillars.length → j < m.pillars.length →
      (floydInit (initialFill m)).dist u j = linkTable m u j := by
    intro u j hu hj
    have := d2 (u, j)
    simp only [hl1, hu, initialFill_cells_length m u hu, hj, and_self, if_true] at this
    rw [(hf1 u).2.2.2.1, initialFill_cell m hm u j hu hj] at this
    exact this
  obtain ⟨o3, d3⟩ := floydRun_spec (floydInit (initialFill m)) hsq2 (by
    intro u hu
    rw [hl2, hl1] at hu
    rw [hd2 u u hu hu]
    simp [linkTable, linkDist])
  have hsq3 := hsq2.of_layout o3.layout
  have hl3 := o3.layout.length
  have hd3 : ∀ u j, u < m.pillars.length → j < m.pillars.length →
      (floydRun (floydInit (initialFill m))).dist u j = m.table u j := by
    intro u j hu hj
    rw [d3 u j (by rw [hl2, hl1]; exact hu) (by rw [hl2, hl1]; exact hj), hl2, hl1]
    exact fwTable_congr _ _ m.pillars.length hd2 _ (Nat.le_refl _) u j hu hj
  obtain ⟨o4, d4⟩ := symmetryCheck_spec (floydRun (floydInit (initialFill m))) hsq3
  have hl4 : m4.pillars.length = m.pillars.length := by
    rw [o4.layout.length, hl3, hl2, hl1]
  refine ⟨hl4, ?_, ?_, ?_, ?_, ?_⟩
  · rw [o4.layout.wanted, o3.layout.wanted, o2.layout.wanted, h1.2.1]
  · rw [o4.counts.1, o3.counts.1, o2.counts.1, h1.2.2.1]
  · intro u
    refine ⟨?_, ?_, ?_, ?_⟩
    · rw [o4.layout.index, o3.layout.index, o2.layout.index, (hf1 u).1]
    · rw [o4.layout.initial, o3.layout.initial, o2.layout.initial, (hf1 u).2.1]
    · rw [o4.layout.required, o3.layout.required, o2.layout.required, (hf1 u).2.2.1]
    · rw [o4.layout.adjacent, o3.layout.adjacent, o2.layout.adjacent, (hf1 u).2.2.2.1]
  · intro u hu
    rw [o4.counts.2, o3.counts.2, o2.counts.2, (hf1 u).2.2.2.2 hu]
  · intro u hu
    apply list_eq_map_range _ _ default
    · rw [o4.layout.cells_length, o3.layout.cells_length, o2.layout.cells_length]
      exact initialFill_cells_length m u hu
    · intro j hj
      have hu3 : u < (floydRun (floydInit (initialFill m))).pillars.length := by
        rw [hl3, hl2, hl1]; exact hu
      have hj3 : j < (floydRun (floydInit (initialFill m))).pillars.length := by
        rw [hl3, hl2, hl1]; exact hj
      have e0 := initialFill_cell m hm u j hu hj
      have es : (m4.cell (u, j)).source = u := by
        rw [o4.layout.source, o3.layout.source, o2.layout.source, e0]
      have et : (m4.cell (u, j)).target = j := by
        rw [o4.layout.target, o3.layout.target, o2.layout.target, e0]
      have er : (m4.cell (u, j)).reverse = none := by
        have a := o4.rev (u, j); have b := o3.rev (u, j); have c := o2.rev (u, j)
        rw [a, b, c, e0]
      have eb : (m4.cell (u, j)).nBans = 0 := by
        have a := o4.bans (u, j); have b := o3.bans (u, j); have c := o2.bans (u, j)
        rw [a, b, c, e0]
      have ed : (m4.cell (u, j)).dist = m.table u j := by
        have a := o4.dist (u, j)
        rw [a]; exact hd3 u j hu hj
      have ey : (m4.cell (u, j)).isSymmetrical = decide (m.table u j = m.table j u) := by
        have a := d4 u j hu3 hj3
        have b := o3.sym (u, j); have c := o2.sym (u, j)
        rw [b, c, e0, hd3 u j hu hj, hd3 j u hj hu] at a
        simp only [Bool.false_eq_true, false_or] at a
        by_cases hT : m.table u j = m.table j u
        · rw [a.mpr hT]; simp [hT]
        · simp only [hT, decide_False]
          cases hb : (m4.cell (u, j)).isSymmetrical
          · rfl
          · exact absurd (a.mp hb) hT
      show m4.cell (u, j) = fullCell m.table u j
      cases hc : m4.cell (u, j) with
      | mk s t r d y b =>
        rw [hc] at es et er eb ed ey
        simp only at es et er eb ed ey
        simp only [fullCell, es, et, er, eb, ed, ey]
theorem findTarget_congr (u : Nat) : ∀ (cs cs1 : List Cell) (k : Nat),
    cs.map Cell.target = cs1.map Cell.target → findTarget u cs k = findTarget u cs1 k := by
  intro cs
  induction cs with
  | nil =>
    intro cs1 k h
    cases cs1 with
    | nil => rfl
    | cons c cs1 => simp at h
  | cons c cs ih =>
    intro cs1 k h
    cases cs1 with
    | nil => simp at h
    | cons c1 cs1 =>
      simp only [List.map_cons, List.cons.injEq] at h
      simp only [findTarget, h.1, ih cs1 (k + 1) h.2]

theorem layout_targets {m m1 : Maze} (hl : SameLayout m m1) (v : Nat) :
    (m1.pillar v).cells.map Cell.target = (m.pillar v).cells.map Cell.target := by
  apply list_ext_getD _ _ 0 (by simp [hl.cells_length])
  intro i hi
  simp only [List.length_map] at hi
  have h1 : i < (m.pillar v).cells.length := by rw [← hl.cells_length]; exact hi
  have := hl.target (v, i)
  simp only [Maze.cell, List.getD_eq_getElem?_getD, List.getElem?_eq_getElem hi,
    List.getElem?_eq_getElem h1, Option.getD_some] at this
  simp only [List.getD_eq_getElem?_getD, List.getElem?_map, List.getElem?_eq_getElem hi,
    List.getElem?_eq_getElem h1, Option.map_some', Option.getD_some]
  exact this

theorem reverseOf_congr {m m1 : Maze} (h : OnlyReverse m m1) (u : Nat) (q : CellRef) :
    reverseOf (fun v => (m1.pillar v).cells) u (m1.cell q)
      = reverseOf (fun v => (m.pillar v).cells) u (m.cell q) := by
  have a := h.sym q
  have b := h.layout.target q
  simp only [reverseOf]
  rw [a, b, findTarget_congr u _ _ 0 (layout_targets h.layout (m.cell q).target)]

theorem reverseCells_spec (u : Nat) (js : List Nat) : ∀ m : Maze,
    (∀ j ∈ js, j < (m.pillar u).cells.length) →
    (∀ j ∈ js, (m.cell (u, j)).isSymmetrical = true →
      ∃ k, findTarget u (m.pillar (m.cell (u, j)).target).cells 0 = some k) →
    (reverseCells u js m).2 = none ∧ OnlyReverse m (reverseCells u js m).1 ∧
    ∀ q : CellRef, ((reverseCells u js m).1.cell q).reverse
      = if q.1 = u ∧ q.2 ∈ js then reverseOf (fun v => (m.pillar v).cells) u (m.cell q)
        else (m.cell q).reverse := by
  induction js with
  | nil =>
    intro m _ _
    exact ⟨rfl, OnlyReverse.reflR m, fun q => by simp [reverseCells]⟩
  | cons j js ih =>
    intro m hjs hfind
    have hj : j < (m.pillar u).cells.length := hjs j (List.mem_cons_self j js)
    have o1 := OnlyReverse_modifyCell m (u, j) (fun _ => none)
    have c1 : (m.modifyCell (u, j) (fun c => { c with reverse := none })).cell (u, j)
        = { m.cell (u, j) with reverse := none } := Maze.cell_modifyCell_self m (u, j) _ hj
    simp only [reverseCells, c1]
    by_cases hsym : (m.cell (u, j)).isSymmetrical = true
    · obtain ⟨k, hk⟩ := hfind j (List.mem_cons_self j js) hsym
      have hk1 : findTarget u
          ((m.modifyCell (u, j) (fun c => { c with reverse := none })).pillar
            (m.cell (u, j)).target).cells 0 = some k := by
        rw [findTarget_congr u _ _ 0 (layout_targets o1.layout _)]; exact hk
      simp only [hsym, if_true, hk1]
      have o2 := OnlyReverse_modifyCell (m.modifyCell (u, j) (fun c => { c with reverse := none }))
        (u, j) (fun c => some (c.target, k))
      have o12 := o1.transR o2
      obtain ⟨e, o, f⟩ := ih _ (fun i hi => by
          rw [o12.layout.cells_length]; exact hjs i (List.mem_cons_of_mem j hi))
        (fun i hi hs => by
          rw [o12.sym (u, i)] at hs
          obtain ⟨k2, hk2⟩ := hfind i (List.mem_cons_of_mem j hi) hs
          refine ⟨k2, ?_⟩
          rw [o12.layout.target (u, i), findTarget_congr u _ _ 0 (layout_targets o12.layout _)]
          exact hk2)
      refine ⟨e, o12.transR o, ?_⟩
      intro q
      rw [f q, reverseOf_congr o12 u q]
      by_cases hq : q.1 = u ∧ q.2 ∈ js
      · simp [hq]
      · simp only [hq, if_false, List.mem_cons]
        rw [Maze.cell_modifyCell, Maze.modifyCell_cells_length]
        by_cases hq2 : q = (u, j)
        · subst hq2
          simp only [hj, and_self, if_true, true_or, c1, reverseOf, hsym, hk]
          rfl
        · have hq3 : ¬ (q.1 = u ∧ (q.2 = j ∨ q.2 ∈ js)) := by
            rintro ⟨a, b | b⟩
            · exact hq2 (Prod.ext a b)
            · exact hq ⟨a, b⟩
          simp only [hq2, false_and, if_false, hq3]
          exact Maze.cell_modifyCell_ne m (u, j) _ q hq2 ▸ rfl
    · simp only [hsym, if_false, Bool.false_eq_true]
      obtain ⟨e, o, f⟩ := ih _ (fun i hi => by
          rw [o1.layout.cells_length]; exact hjs i (List.mem_cons_of_mem j hi))
        (fun i hi hs => by
          rw [o1.sym (u, i)] at hs
          obtain ⟨k2, hk2⟩ := hfind i (List.mem_cons_of_mem j hi) hs
          refine ⟨k2, ?_⟩
          rw [o1.layout.target (u, i), findTarget_congr u _ _ 0 (layout_targets o1.layout _)]
          exact hk2)
      refine ⟨e, o1.transR o, ?_⟩
      intro q
      rw [f q, reverseOf_congr o1 u q]
      by_cases hq : q.1 = u ∧ q.2 ∈ js
      · simp [hq]
      · simp only [hq, if_false, List.mem_cons]
        by_cases hq2 : q = (u, j)
        · subst hq2
          simp only [true_or, and_self, if_true, c1, reverseOf, hsym, Bool.false_eq_true,
            if_false]
        · have hq3 : ¬ (q.1 = u ∧ (q.2 = j ∨ q.2 ∈ js)) := by
            rintro ⟨a, b | b⟩
            · exact hq2 (Prod.ext a b)
            · exact hq ⟨a, b⟩
          simp only [hq3, if_false]
          rw [Maze.cell_modifyCell_ne m (u, j) _ q hq2]
theorem reversePillars_spec (us : List Nat) : ∀ m : Maze,
    (∀ u ∈ us, ∀ j, j < (m.pillar u).cells.length → (m.cell (u, j)).isSymmetrical = true →
      ∃ k, findTarget u (m.pillar (m.cell (u, j)).target).cells 0 = some k) →
    (reversePillars us m).2 = none ∧ OnlyReverse m (reversePillars us m).1 ∧
    ∀ q : CellRef, ((reversePillars us m).1.cell q).reverse
      = if q.1 ∈ us ∧ q.2 < (m.pillar q.1).cells.length
        then reverseOf (fun v => (m.pillar v).cells) q.1 (m.cell q)
        else (m.cell q).reverse := by
  induction us with
  | nil =>
    intro m _
    exact ⟨rfl, OnlyReverse.reflR m, fun q => by simp [reversePillars]⟩
  | cons u us ih =>
    intro m hfind
    obtain ⟨e1, o1, f1⟩ := reverseCells_spec u (List.range (m.pillar u).cells.length) m
      (fun j hj => List.mem_range.mp hj)
      (fun j hj hs => hfind u (List.mem_cons_self u us) j (List.mem_range.mp hj) hs)
    have hrc : reverseCells u (List.range (m.pillar u).cells.length) m
        = ((reverseCells u (List.range (m.pillar u).cells.length) m).1, none) := by
      rw [← e1]
    obtain ⟨e2, o2, f2⟩ := ih (reverseCells u (List.range (m.pillar u).cells.length) m).1
      (fun w hw j hj hs => by
        rw [o1.layout.cells_length] at hj
        rw [o1.sym (w, j)] at hs
        obtain ⟨k, hk⟩ := hfind w (List.mem_cons_of_mem u hw) j hj hs
        refine ⟨k, ?_⟩
        rw [o1.layout.target (w, j), findTarget_congr w _ _ 0 (layout_targets o1.layout _)]
        exact hk)
    have hred : reversePillars (u :: us) m
        = reversePillars us (reverseCells u (List.range (m.pillar u).cells.length) m).1 := by
      rw [reversePillars, hrc]
    rw [hred]
    refine ⟨e2, o1.transR o2, ?_⟩
    intro q
    rw [f2 q, reverseOf_congr o1 q.1 q, o1.layout.cells_length, f1 q]
    simp only [List.mem_cons, List.mem_range]
    by_cases h1 : q.1 ∈ us ∧ q.2 < (m.pillar q.1).cells.length
    · have h2 : (q.1 = u ∨ q.1 ∈ us) ∧ q.2 < (m.pillar q.1).cells.length :=
        ⟨Or.inr h1.1, h1.2⟩
      simp [h1, h2]
    · simp only [h1, if_false]
      by_cases h3 : q.1 = u
      · by_cases h4 : q.2 < (m.pillar q.1).cells.length
        · have h5 : q.2 < (m.pillar u).cells.length := h3 ▸ h4
          simp [h3, h4, h5]
        · have h5 : ¬ q.2 < (m.pillar u).cells.length := h3 ▸ h4
          simp [h3, h4, h5]
      · have h6 : ¬ ((q.1 = u ∨ q.1 ∈ us) ∧ q.2 < (m.pillar q.1).cells.length) := by
          rintro ⟨a | a, b⟩
          · exact h3 a
          · exact h1 ⟨a, b⟩
        rw [if_neg (fun h => h3 h.1), if_neg h6]

theorem findTarget_of_mem (u : Nat) : ∀ (cs : List Cell) (k0 : Nat),
    (∃ c ∈ cs, c.target = u) → ∃ k, findTarget u cs k0 = some k := by
  intro cs
  induction cs with
  | nil => intro k0 ⟨c, hc, _⟩; exact absurd hc (List.not_mem_nil c)
  | cons c cs ih =>
    intro k0 ⟨c1, hc1, ht⟩
    simp only [findTarget]
    by_cases h : c.target = u
    · exact ⟨k0, by simp [h]⟩
    · simp only [h, if_false]
      simp only [List.mem_cons] at hc1
      rcases hc1 with e | e
      · exact absurd (e ▸ ht) h
      · exact ih (k0 + 1) ⟨c1, e, ht⟩

theorem mem_keptCells (T : Nat → Nat → Nat) (n u : Nat) (c : Cell) :
    c ∈ keptCells T n u ↔ ∃ v, v < n ∧ c = fullCell T u v ∧ T u v ≠ 0 ∧ T u v ≠ BIG_DIST := by
  simp only [keptCells, List.mem_filter, List.mem_map, List.mem_range, keepCell]
  constructor
  · rintro ⟨⟨v, hv, rfl⟩, hk⟩
    simp only [fullCell, Bool.not_eq_true', Bool.or_eq_false_iff, beq_eq_false_iff_ne] at hk
    exact ⟨v, hv, rfl, hk.1, hk.2⟩
  · rintro ⟨v, hv, rfl, h1, h2⟩
    refine ⟨⟨v, hv, rfl⟩, ?_⟩
    simp only [fullCell, Bool.not_eq_true', Bool.or_eq_false_iff, beq_eq_false_iff_ne]
    exact ⟨h1, h2⟩
theorem getD_mem {α : Type} (l : List α) (j : Nat) (d : α) (h : j < l.length) :
    l.getD j d ∈ l := by
  rw [List.getD_eq_getElem?_getD, List.getElem?_eq_getElem h]
  exact List.getElem_mem h

theorem getD_map {α β : Type} (l : List α) (g : α → β) (j : Nat) (d : α) (e : β)
    (h : j < l.length) : (l.map g).getD j e = g (l.getD j d) := by
  simp only [List.getD_eq_getElem?_getD, List.getElem?_map, List.getElem?_eq_getElem h,
    Option.map_some', Option.getD_some]

/-- What `preprocess` leaves for a newly built maze, in closed form; it throws nothing. -/
theorem preprocess_spec (m : Maze) (hm : Fresh m) :
    m.preprocess.2 = none ∧
    m.preprocess.1.pillars.length = m.pillars.length ∧
    m.preprocess.1.wantedSolution = m.wantedSolution ∧
    m.preprocess.1.nBadPillars
      = (m.pillars.countP (fun p => decide (p.initial ≠ p.required))) % UNSIGNED_MOD ∧
    (∀ u, (m.preprocess.1.pillar u).index = (m.pillar u).index ∧
      (m.preprocess.1.pillar u).initial = (m.pillar u).initial ∧
      (m.preprocess.1.pillar u).required = (m.pillar u).required ∧
      (m.preprocess.1.pillar u).adjacent = (m.pillar u).adjacent) ∧
    (∀ u, u < m.pillars.length → (m.preprocess.1.pillar u).current = (m.pillar u).initial) ∧
    (∀ u, u < m.pillars.length → (m.preprocess.1.pillar u).cells = preparedCells m u) := by
  obtain ⟨l4, w4, b4, f4, c4, k4⟩ := beforeCut_spec m hm
  obtain ⟨l5, b5, w5, p5⟩ := cutMatrix_spec (symmetryCheck (floydRun (floydInit (initialFill m))))
  generalize hm4 : symmetryCheck (floydRun (floydInit (initialFill m))) = m4 at *
  generalize hm5 : cutMatrix m4 = m5 at *
  have hpre : m.preprocess = reversePillars (List.range m5.pillars.length) m5 := by
    simp only [Maze.preprocess, hm4, hm5]
  have hl5 : m5.pillars.length = m.pillars.length := l5.trans l4
  have hcells5 : ∀ u, u < m.pillars.length →
      (m5.pillar u).cells = keptCells m.table m.pillars.length u := by
    intro u hu
    rw [p5 u]
    simp only [k4 u hu, keptCells]
  have hcell5 : ∀ u j, u < m.pillars.length → j < (m5.pillar u).cells.length →
      m5.cell (u, j) ∈ keptCells m.table m.pillars.length u := by
    intro u j hu hj
    simp only [Maze.cell]
    rw [hcells5 u hu] at hj ⊢
    exact getD_mem _ _ _ hj
  have hfind : ∀ u ∈ List.range m5.pillars.length, ∀ j, j < (m5.pillar u).cells.length →
      (m5.cell (u, j)).isSymmetrical = true →
      ∃ k, findTarget u (m5.pillar (m5.cell (u, j)).target).cells 0 = some k := by
    intro u hu j hj hs
    have hu1 : u < m.pillars.length := by rw [← hl5]; exact List.mem_range.mp hu
    obtain ⟨v, hv, hc, h0, hB⟩ := (mem_keptCells _ _ _ _).mp (hcell5 u j hu1 hj)
    rw [hc] at hs ⊢
    simp only [fullCell, decide_eq_true_eq] at hs ⊢
    rw [hcells5 v hv]
    apply findTarget_of_mem
    refine ⟨fullCell m.table v u, (mem_keptCells _ _ _ _).mpr ⟨u, hu1, rfl, ?_, ?_⟩, rfl⟩
    · rw [← hs]; exact h0
    · rw [← hs]; exact hB
  obtain ⟨e6, o6, f6⟩ := reversePillars_spec (List.range m5.pillars.length) m5 hfind
  rw [hpre]
  refine ⟨e6, by rw [o6.layout.length, hl5], by rw [o6.layout.wanted, w5, w4],
    by rw [o6.counts.1, b5, b4], ?_, ?_, ?_⟩
  · intro u
    rw [o6.layout.index, o6.layout.initial, o6.layout.required, o6.layout.adjacent, p5 u]
    exact f4 u
  · intro u hu
    rw [o6.counts.2, p5 u]
    exact c4 u hu
  · intro u hu
    have hlen : ((reversePillars (List.range m5.pillars.length) m5).1.pillar u).cells.length
        = (keptCells m.table m.pillars.length u).length := by
      rw [o6.layout.cells_length, hcells5 u hu]
    apply list_ext_getD _ _ default (by rw [hlen]; simp [preparedCells])
    intro j hj
    rw [hlen] at hj
    have hj5 : j < (m5.pillar u).cells.length := by rw [hcells5 u hu]; exact hj
    simp only [preparedCells]
    rw [getD_map _ _ j default default hj]
    have hc5 : (keptCells m.table m.pillars.length u).getD j default = m5.cell (u, j) := by
      simp only [Maze.cell, hcells5 u hu]
    rw [hc5]
    show (reversePillars (List.range m5.pillars.length) m5).1.cell (u, j) = _
    have es := o6.layout.source (u, j)
    have et := o6.layout.target (u, j)
    have ed := o6.dist (u, j)
    have ey := o6.sym (u, j)
    have eb := o6.bans (u, j)
    have er := f6 (u, j)
    have hu5 : u ∈ List.range m5.pillars.length := by
      rw [List.mem_range, hl5]; exact hu
    simp only [hu5, hj5, and_self, if_true] at er
    have er2 : reverseOf (fun v => (m5.pillar v).cells) u (m5.cell (u, j))
        = reverseOf (keptCells m.table m.pillars.length) u (m5.cell (u, j)) := by
      obtain ⟨v, hv, hc, _, _⟩ := (mem_keptCells _ _ _ _).mp (hcell5 u j hu hj5)
      simp only [reverseOf]
      split
      · have : (m5.cell (u, j)).target = v := by rw [hc]; rfl
        rw [this, hcells5 v hv]
      · rfl
    rw [er2] at er
    cases hc : (reversePillars (List.range m5.pillars.length) m5).1.cell (u, j) with
    | mk s t r d y b =>
      rw [hc] at es et ed ey eb er
      simp only at es et ed ey eb er
      rw [es, et, ed, ey, eb, er]
theorem fresh_closed (m : Maze) (hm : Fresh m) :
    ∀ u v, v ∈ (m.pillar u).adjacent → v < m.pillars.length := by
  intro u v hv
  by_cases hu : u < m.pillars.length
  · exact hm.adjacent_lt u hu v hv
  · rw [Maze.pillar_of_le m u (by omega)] at hv
    exact absurd hv (List.not_mem_nil v)

theorem table_le (m : Maze) (u v : Nat) : m.table u v ≤ BIG_DIST :=
  (fwTable_inv m m.pillars.length).1 u v

theorem table_self (m : Maze) (u : Nat) : m.table u u = 0 :=
  (fwTable_inv m m.pillars.length).2.1 u

theorem table_hops (m : Maze) (u v : Nat) (hne : u ≠ v) (h : m.table u v < BIG_DIST) :
    Hops m u v (m.table u v) :=
  Hops.of_walkB ((fwTable_inv m m.pillars.length).2.2.1 u v hne h)

theorem table_le_hops (m : Maze) (hm : Fresh m) (u v len : Nat) (h : Hops m u v len) :
    m.table u v ≤ len := by
  by_cases h0 : len = 0
  · subst h0
    rw [h.eq_of_zero, table_self]
  · exact (fwTable_inv m m.pillars.length).2.2.2 u v len
      (h.to_walkB (fresh_closed m hm) (by omega))

theorem table_pos (m : Maze) (u v : Nat) (hne : u ≠ v) : m.table u v ≠ 0 := by
  intro h0
  have h := table_hops m u v hne (by rw [h0]; decide)
  rw [h0] at h
  exact hne h.eq_of_zero

theorem table_minHops (m : Maze) (hm : Fresh m) (u v : Nat) (hne : u ≠ v)
    (h : m.table u v < BIG_DIST) : MinHops m u v (m.table u v) :=
  ⟨table_hops m u v hne h, fun len hl => table_le_hops m hm u v len hl⟩

theorem table_lt_of_reachable (m : Maze) (hm : Fresh m) (hn : m.pillars.length ≤ 10000)
    (u v : Nat) (hu : u < m.pillars.length) (h : Reachable m u v) :
    m.table u v < BIG_DIST := by
  obtain ⟨len, hl⟩ := h
  obtain ⟨l, hlt, hl2⟩ := hl.exists_short (fresh_closed m hm) hu
  have := table_le_hops m hm u v l hl2
  simp only [BIG_DIST]
  omega

theorem minHops_unique {m : Maze} {u v d d1 : Nat} (h : MinHops m u v d)
    (h1 : MinHops m u v d1) : d = d1 :=
  Nat.le_antisymm (h.2 d1 h1.1) (h1.2 d h.1)

/-- The cut keeps the cell `(u, v)` exactly when `v` is another pillar that can be reached
from `u`. -/
theorem kept_iff_reachable (m : Maze) (hm : Fresh m) (hn : m.pillars.length ≤ 10000)
    (u v : Nat) (hu : u < m.pillars.length) :
    (m.table u v ≠ 0 ∧ m.table u v ≠ BIG_DIST) ↔ (v ≠ u ∧ Reachable m u v) := by
  constructor
  · rintro ⟨h0, hB⟩
    have hne : u ≠ v := by
      intro e; subst e; exact h0 (table_self m u)
    have hlt : m.table u v < BIG_DIST := Nat.lt_of_le_of_ne (table_le m u v) hB
    exact ⟨fun e => hne e.symm, ⟨_, table_hops m u v hne hlt⟩⟩
  · rintro ⟨hne, hr⟩
    exact ⟨table_pos m u v (fun e => hne e.symm),
      Nat.ne_of_lt (table_lt_of_reachable m hm hn u v hu hr)⟩

theorem keptCells_targets (T : Nat → Nat → Nat) (n u : Nat) :
    (keptCells T n u).map Cell.target
      = (List.range n).filter (fun v => keepCell (fullCell T u v)) := by
  simp only [keptCells, List.filter_map, List.map_map]
  have : (Cell.target ∘ fullCell T u) = id := by funext v; rfl
  rw [this, List.map_id]
  rfl

theorem preparedCells_targets (m : Maze) (u : Nat) :
    (preparedCells m u).map Cell.target
      = (List.range m.pillars.length).filter (fun v => keepCell (fullCell m.table u v)) := by
  rw [← keptCells_targets]
  simp only [preparedCells, List.map_map]
  rfl

theorem preparedCells_sorted (m : Maze) (u : Nat) :
    ((preparedCells m u).map Cell.target).Pairwise (· < ·) := by
  rw [preparedCells_targets]
  exact List.Pairwise.sublist (List.filter_sublist _) (List.pairwise_lt_range _)

theorem mem_preparedCells (m : Maze) (u : Nat) (c : Cell) :
    c ∈ preparedCells m u ↔ ∃ v, v < m.pillars.length ∧
      m.table u v ≠ 0 ∧ m.table u v ≠ BIG_DIST ∧
      c = { fullCell m.table u v with
        reverse := reverseOf (keptCells m.table m.pillars.length) u (fullCell m.table u v) } := by
  simp only [preparedCells, List.mem_map, mem_keptCells]
  constructor
  · rintro ⟨c0, ⟨v, hv, rfl, h0, hB⟩, rfl⟩
    exact ⟨v, hv, h0, hB, rfl⟩
  · rintro ⟨v, hv, h0, hB, rfl⟩
    exact ⟨fullCell m.table u v, ⟨v, hv, rfl, h0, hB⟩, rfl⟩
theorem demo_build : build demoOps = some demoMaze := by decide

theorem countP_target_eq_one (cs : List Cell) (v : Nat)
    (hs : (cs.map Cell.target).Pairwise (· < ·)) (hv : v ∈ cs.map Cell.target) :
    cs.countP (fun c => decide (c.target = v)) = 1 := by
  have hnd : (cs.map Cell.target).Nodup := hs.imp (fun h => Nat.ne_of_lt h)
  have h1 := List.count_eq_one_of_mem hnd hv
  rw [List.count, List.countP_map] at h1
  rw [← h1]
  apply List.countP_congr
  intro c _
  simp

/-- C4. Exact shortest distances and pruned candidate lists.  For a newly built maze with
all pillars added before the first link and at most 10000 pillars, `preprocess` throws nothing, and afterwards the candidate list of every
pillar `u` is in strictly increasing order of target, holds exactly one cell for every other
pillar `v` that can be reached from `u` along directed links, and every cell in it has source
`u`, a target that is another, reachable pillar, and `dist` equal to the minimum number of
directed hops from `u` to the target, with `1 ≤ dist < 10000`. -/
theorem preprocess_candidate_lists (ops : List BuildOp) (m : Maze)
    (_hpf : PillarsFirst ops) (hb : build ops = some m)
    (hn : m.pillars.length ≤ 10000) (u : Nat) (hu : u < m.pillars.length) :
    m.preprocess.2 = none ∧
    (((m.preprocess.1.pillar u).cells.map Cell.target).Pairwise (· < ·)) ∧
    (∀ v, v < m.pillars.length → v ≠ u → Reachable m u v →
      (m.preprocess.1.pillar u).cells.countP (fun c => decide (c.target = v)) = 1) ∧
    (∀ c ∈ (m.preprocess.1.pillar u).cells,
      c.source = u ∧ c.target < m.pillars.length ∧ c.target ≠ u ∧ Reachable m u c.target ∧
      MinHops m u c.target c.dist ∧ 1 ≤ c.dist ∧ c.dist < 10000) := by
  have hm := fresh_build ops m hb
  obtain ⟨e, _, _, _, _, _, hc⟩ := preprocess_spec m hm
  rw [hc u hu]
  refine ⟨e, preparedCells_sorted m u, ?_, ?_⟩
  · intro v hv hne hr
    apply countP_target_eq_one _ _ (preparedCells_sorted m u)
    have hk := (kept_iff_reachable m hm hn u v hu).mpr ⟨hne, hr⟩
    exact List.mem_map.mpr ⟨_, (mem_preparedCells m u _).mpr ⟨v, hv, hk.1, hk.2, rfl⟩, rfl⟩
  · intro c hcm
    obtain ⟨v, hv, h0, hB, rfl⟩ := (mem_preparedCells m u _).mp hcm
    have hk := (kept_iff_reachable m hm hn u v hu).mp ⟨h0, hB⟩
    have hlt : m.table u v < BIG_DIST := Nat.lt_of_le_of_ne (table_le m u v) hB
    refine ⟨rfl, hv, hk.1, hk.2, table_minHops m hm u v (fun e => hk.1 e.symm) hlt, ?_, hlt⟩
    exact Nat.one_le_iff_ne_zero.mpr h0

/-- C4 at the three-pillar maze `demoMaze`, for its pillar 0. -/
theorem preprocess_candidate_lists_witness :
    PillarsFirst demoOps ∧ build demoOps = some demoMaze ∧
    demoMaze.pillars.length ≤ 10000 ∧
    0 < demoMaze.pillars.length ∧
    (∀ c ∈ (demoMaze.preprocess.1.pillar 0).cells,
      c.source = 0 ∧ c.target < demoMaze.pillars.length ∧ c.target ≠ 0 ∧
      Reachable demoMaze 0 c.target ∧ MinHops demoMaze 0 c.target c.dist ∧ 1 ≤ c.dist ∧
      c.dist < 10000) :=
  ⟨by decide, demo_build, by decide, by decide,
    (preprocess_candidate_lists demoOps demoMaze (by decide) demo_build (by decide) 0
      (by decide)).2.2.2⟩
theorem findTarget_some (u : Nat) : ∀ (cs : List Cell) (k0 k : Nat),
    findTarget u cs k0 = some k →
    k0 ≤ k ∧ k - k0 < cs.length ∧ (cs.getD (k - k0) default).target = u := by
  intro cs
  induction cs with
  | nil => intro k0 k h; simp [findTarget] at h
  | cons c cs ih =>
    intro k0 k h
    simp only [findTarget] at h
    by_cases hc : c.target = u
    · simp only [hc, if_true, Option.some.injEq] at h
      subst h
      simp [hc]
    · simp only [hc, if_false] at h
      obtain ⟨h1, h2, h3⟩ := ih (k0 + 1) k h
      refine ⟨by omega, by simp only [List.length_cons]; omega, ?_⟩
      have : k - k0 = (k - (k0 + 1)) + 1 := by omega
      rw [this, List.getD_cons_succ]
      exact h3

theorem findTarget_unique (u : Nat) : ∀ (cs : List Cell) (k0 j : Nat),
    (cs.map Cell.target).Nodup → j < cs.length → (cs.getD j default).target = u →
    findTarget u cs k0 = some (k0 + j) := by
  intro cs
  induction cs with
  | nil => intro k0 j _ hj _; simp at hj
  | cons c cs ih =>
    intro k0 j hnd hj ht
    simp only [List.map_cons, List.nodup_cons] at hnd
    simp only [findTarget]
    cases j with
    | zero =>
      simp only [List.getD_cons_zero] at ht
      simp [ht]
    | succ j =>
      simp only [List.getD_cons_succ] at ht
      simp only [List.length_cons] at hj
      have hj2 : j < cs.length := by omega
      have hne : ¬ c.target = u := by
        intro e
        apply hnd.1
        rw [e, ← ht]
        exact List.mem_map.mpr ⟨_, getD_mem cs j default hj2, rfl⟩
      simp only [hne, if_false]
      rw [ih (k0 + 1) j hnd.2 hj2 ht]
      congr 1
      omega

theorem keptCells_nodup (T : Nat → Nat → Nat) (n u : Nat) :
    ((keptCells T n u).map Cell.target).Nodup := by
  rw [keptCells_targets]
  exact (List.Pairwise.sublist (List.filter_sublist _) (List.pairwise_lt_range _)).imp
    (fun h => Nat.ne_of_lt h)

/-- The position of the cell with target `v` in the kept cells of `u`, when it is kept. -/
theorem keptCells_position (T : Nat → Nat → Nat) (n u v : Nat) (hv : v < n)
    (h0 : T u v ≠ 0) (hB : T u v ≠ BIG_DIST) :
    ∃ j, j < (keptCells T n u).length ∧ (keptCells T n u).getD j default = fullCell T u v ∧
      findTarget v (keptCells T n u) 0 = some j := by
  have hmem : fullCell T u v ∈ keptCells T n u :=
    (mem_keptCells T n u _).mpr ⟨v, hv, rfl, h0, hB⟩
  obtain ⟨j, hj, hget⟩ := List.getElem_of_mem hmem
  have hD : (keptCells T n u).getD j default = fullCell T u v := by
    rw [List.getD_eq_getElem?_getD, List.getElem?_eq_getElem hj, Option.getD_some, hget]
  refine ⟨j, hj, hD, ?_⟩
  have := findTarget_unique v (keptCells T n u) 0 j (keptCells_nodup T n u) hj
    (by rw [hD]; rfl)
  simpa using this

/-- The cell at a valid position of a candidate list after `preprocess`. -/
theorem prepared_cell (m : Maze) (hm : Fresh m) (u j : Nat) (hu : u < m.pillars.length)
    (hj : j < (m.preprocess.1.pillar u).cells.length) :
    ∃ v, v < m.pillars.length ∧ m.table u v ≠ 0 ∧ m.table u v ≠ BIG_DIST ∧
      (keptCells m.table m.pillars.length u).getD j default = fullCell m.table u v ∧
      j < (keptCells m.table m.pillars.length u).length ∧
      m.preprocess.1.cell (u, j) = { fullCell m.table u v with
        reverse := reverseOf (keptCells m.table m.pillars.length) u (fullCell m.table u v) } := by
  obtain ⟨_, _, _, _, _, _, hc⟩ := preprocess_spec m hm
  have hcu := hc u hu
  rw [hcu] at hj
  have hj2 : j < (keptCells m.table m.pillars.length u).length := by
    simpa [preparedCells] using hj
  obtain ⟨v, hv, hcv, h0, hB⟩ := (mem_keptCells _ _ _ _).mp (getD_mem _ j default hj2)
  refine ⟨v, hv, h0, hB, hcv, hj2, ?_⟩
  simp only [Maze.cell, hcu, preparedCells]
  rw [getD_map _ _ j default default hj2, hcv]

/-- C10. Reverse references are mutual.  After `preprocess` of a newly built maze (all
pillars added before the first link, fewer than 2^32 of them), a cell `c` at position `j` of the candidate list of pillar `u` that is marked symmetrical has a reverse
reference; it points into the candidate list of the target of `c`, to a cell whose source is
that target, whose target is `u`, whose `dist` is that of `c` and whose own reverse reference
points back to position `j` of pillar `u`.  A cell that is not marked symmetrical has a null
reverse reference. -/
theorem preprocess_reverse_mutual (ops : List BuildOp) (m : Maze)
    (_hpf : PillarsFirst ops) (hb : build ops = some m)
    (_hn : m.pillars.length < UNSIGNED_MOD) (u j : Nat) (hu : u < m.pillars.length)
    (hj : j < (m.preprocess.1.pillar u).cells.length) :
    ((m.preprocess.1.cell (u, j)).isSymmetrical = true →
      ∃ k, (m.preprocess.1.cell (u, j)).reverse = some ((m.preprocess.1.cell (u, j)).target, k) ∧
        k < (m.preprocess.1.pillar (m.preprocess.1.cell (u, j)).target).cells.length ∧
        (m.preprocess.1.cell ((m.preprocess.1.cell (u, j)).target, k)).source
          = (m.preprocess.1.cell (u, j)).target ∧
        (m.preprocess.1.cell ((m.preprocess.1.cell (u, j)).target, k)).target = u ∧
        (m.preprocess.1.cell ((m.preprocess.1.cell (u, j)).target, k)).dist
          = (m.preprocess.1.cell (u, j)).dist ∧
        (m.preprocess.1.cell ((m.preprocess.1.cell (u, j)).target, k)).reverse
          = some (u, j)) ∧
    ((m.preprocess.1.cell (u, j)).isSymmetrical = false →
      (m.preprocess.1.cell (u, j)).reverse = none) := by
  have hm := fresh_build ops m hb
  obtain ⟨_, _, _, _, _, _, hc⟩ := preprocess_spec m hm
  obtain ⟨v, hv, h0, hB, hget, hj2, hcell⟩ := prepared_cell m hm u j hu hj
  rw [hcell]
  constructor
  · intro hs
    simp only [fullCell, decide_eq_true_eq] at hs
    obtain ⟨k, hk, hkget, hkfind⟩ := keptCells_position m.table m.pillars.length v u hu
      (by rw [← hs]; exact h0) (by rw [← hs]; exact hB)
    have hkv : k < (m.preprocess.1.pillar v).cells.length := by
      rw [hc v hv]; simpa [preparedCells] using hk
    obtain ⟨w, hw, _, _, hget2, _, hcell2⟩ := prepared_cell m hm v k hv hkv
    have hwu : w = u := by
      have := hget2.symm.trans hkget
      simpa [fullCell] using congrArg Cell.target this
    subst hwu
    have hjfind : findTarget v (keptCells m.table m.pillars.length w) 0 = some j := by
      have := findTarget_unique v (keptCells m.table m.pillars.length w) 0 j
        (keptCells_nodup _ _ _) hj2 (by rw [hget]; rfl)
      simpa using this
    refine ⟨k, ?_, hkv, ?_, ?_, ?_, ?_⟩
    · simp only [reverseOf, fullCell, hs, decide_True, if_true, hkfind, Option.map_some']
    · show (m.preprocess.1.cell (v, k)).source = v
      rw [hcell2]; rfl
    · show (m.preprocess.1.cell (v, k)).target = w
      rw [hcell2]; rfl
    · show (m.preprocess.1.cell (v, k)).dist = m.table w v
      rw [hcell2]; exact hs.symm
    · show (m.preprocess.1.cell (v, k)).reverse = some (w, j)
      rw [hcell2]
      simp only [reverseOf, fullCell, hs, decide_True, if_true, hjfind, Option.map_some']
  · intro hs
    simp only [fullCell, decide_eq_false_iff_not] at hs
    simp only [reverseOf, fullCell, hs, decide_False, Bool.false_eq_true, if_false]

/-- C10 at the maze `demoMaze`, for the first candidate cell of pillar 0 (the move from 0
to 1, which is symmetrical). -/
theorem preprocess_reverse_mutual_witness :
    PillarsFirst demoOps ∧ build demoOps = some demoMaze ∧
    demoMaze.pillars.length < UNSIGNED_MOD ∧ 0 < demoMaze.pillars.length ∧
    0 < (demoMaze.preprocess.1.pillar 0).cells.length ∧
    ((demoMaze.preprocess.1.cell (0, 0)).isSymmetrical = true →
      ∃ k, (demoMaze.preprocess.1.cell (0, 0)).reverse
          = some ((demoMaze.preprocess.1.cell (0, 0)).target, k) ∧
        k < (demoMaze.preprocess.1.pillar (demoMaze.preprocess.1.cell (0, 0)).target).cells.length ∧
        (demoMaze.preprocess.1.cell ((demoMaze.preprocess.1.cell (0, 0)).target, k)).source
          = (demoMaze.preprocess.1.cell (0, 0)).target ∧
        (demoMaze.preprocess.1.cell ((demoMaze.preprocess.1.cell (0, 0)).target, k)).target = 0 ∧
        (demoMaze.preprocess.1.cell ((demoMaze.preprocess.1.cell (0, 0)).target, k)).dist
          = (demoMaze.preprocess.1.cell (0, 0)).dist ∧
        (demoMaze.preprocess.1.cell ((demoMaze.preprocess.1.cell (0, 0)).target, k)).reverse
          = some (0, 0)) :=
  ⟨by decide, demo_build, by decide, by decide, by decide,
    (preprocess_reverse_mutual demoOps demoMaze (by decide) demo_build (by decide) 0 0
      (by decide) (by decide)).1⟩
/-- C9. Symmetry flag.  After `preprocess` of a newly built maze with all pillars added
before the first link and at most 10000 pillars, a cell `c` of the candidate list of pillar `u` is marked symmetrical if and only if the
candidate list of its target holds a cell with target `u` and the same `dist`; and, what is
the same, if and only if the minimum number of hops from the target back to `u` is the
`dist` of `c` (which is the minimum number of hops from `u` to the target). -/
theorem preprocess_symmetry_flag (ops : List BuildOp) (m : Maze)
    (_hpf : PillarsFirst ops) (hb : build ops = some m)
    (hn : m.pillars.length ≤ 10000) (u : Nat) (hu : u < m.pillars.length) (c : Cell)
    (hc : c ∈ (m.preprocess.1.pillar u).cells) :
    (c.isSymmetrical = true ↔
      ∃ c2 ∈ (m.preprocess.1.pillar c.target).cells, c2.target = u ∧ c2.dist = c.dist) ∧
    (c.isSymmetrical = true ↔ MinHops m c.target u c.dist) ∧
    MinHops m u c.target c.dist := by
  have hm := fresh_build ops m hb
  obtain ⟨_, _, _, _, _, _, hcells⟩ := preprocess_spec m hm
  rw [hcells u hu] at hc
  obtain ⟨v, hv, h0, hB, rfl⟩ := (mem_preparedCells m u _).mp hc
  have hne : u ≠ v := by
    intro e; subst e; exact h0 (table_self m u)
  have hlt : m.table u v < BIG_DIST := Nat.lt_of_le_of_ne (table_le m u v) hB
  simp only [fullCell, decide_eq_true_eq]
  rw [hcells v hv]
  refine ⟨⟨?_, ?_⟩, ⟨?_, ?_⟩, table_minHops m hm u v hne hlt⟩
  · intro hs
    refine ⟨_, (mem_preparedCells m v _).mpr ⟨u, hu, ?_, ?_, rfl⟩, rfl, hs.symm⟩
    · rw [← hs]; exact h0
    · rw [← hs]; exact hB
  · rintro ⟨c2, hc2, ht, hd⟩
    obtain ⟨w, _, _, _, rfl⟩ := (mem_preparedCells m v _).mp hc2
    simp only [fullCell] at ht hd
    subst ht
    exact hd.symm
  · intro hs
    rw [hs]
    exact table_minHops m hm v u (fun e => hne e.symm) (by rw [← hs]; exact hlt)
  · intro hmin
    have hlt2 : m.table v u < BIG_DIST :=
      table_lt_of_reachable m hm hn v u hv ⟨_, hmin.1⟩
    exact minHops_unique hmin (table_minHops m hm v u (fun e => hne e.symm) hlt2)

/-- C9 at the maze `demoMaze`, for the cell from pillar 0 to pillar 1. -/
theorem preprocess_symmetry_flag_witness :
    PillarsFirst demoOps ∧ build demoOps = some demoMaze ∧
    demoMaze.pillars.length ≤ 10000 ∧
    0 < demoMaze.pillars.length ∧
    demoMaze.preprocess.1.cell (0, 0) ∈ (demoMaze.preprocess.1.pillar 0).cells ∧
    ((demoMaze.preprocess.1.cell (0, 0)).isSymmetrical = true ↔
      ∃ c2 ∈ (demoMaze.preprocess.1.pillar (demoMaze.preprocess.1.cell (0, 0)).target).cells,
        c2.target = 0 ∧ c2.dist = (demoMaze.preprocess.1.cell (0, 0)).dist) :=
  ⟨by decide, demo_build, by decide, by decide, by decide,
    (preprocess_symmetry_flag demoOps demoMaze (by decide) demo_build (by decide) 0 (by decide)
      (demoMaze.preprocess.1.cell (0, 0)) (by decide)).1⟩
theorem Maze.doMove_eq (m : Maze) (r : CellRef) :
    m.doMove r = if (m.cell r).nBans ≠ 0 then (m, false)
      else if (m.pillar (m.cell r).source).current < (m.cell r).dist then (m, false)
      else ((m.moveStep (m.cell r)).banStep (m.cell r).reverse incU, true) := by
  unfold Maze.doMove Maze.moveStep Maze.banStep incU
  simp only []
  split
  · rfl
  · split
    · rfl
    · cases (m.cell r).reverse <;> rfl

theorem Maze.undoMove_eq (m : Maze) (r : CellRef) :
    m.undoMove r = (m.unmoveStep (m.cell r)).banStep (m.cell r).reverse decU := by
  unfold Maze.undoMove Maze.unmoveStep Maze.banStep decU
  simp only []

@[simp] theorem Maze.incBad_pillars (m : Maze) : m.incBad.pillars = m.pillars := by
  simp only [Maze.incBad]
@[simp] theorem Maze.decBad_pillars (m : Maze) : m.decBad.pillars = m.pillars := by
  simp only [Maze.decBad]
@[simp] theorem Maze.incBad_wanted (m : Maze) : m.incBad.wantedSolution = m.wantedSolution := by
  simp only [Maze.incBad]
@[simp] theorem Maze.decBad_wanted (m : Maze) : m.decBad.wantedSolution = m.wantedSolution := by
  simp only [Maze.decBad]
@[simp] theorem Maze.incBad_nBad (m : Maze) : m.incBad.nBadPillars = incU m.nBadPillars := by
  simp only [Maze.incBad, incU]
@[simp] theorem Maze.decBad_nBad (m : Maze) : m.decBad.nBadPillars = decU m.nBadPillars := by
  simp only [Maze.decBad, decU]

@[simp] theorem Maze.bumpInc_pillars (m : Maze) (u : Nat) :
    (m.bumpIfGood u Maze.incBad).pillars = m.pillars := by
  unfold Maze.bumpIfGood; split <;> simp

@[simp] theorem Maze.bumpDec_pillars (m : Maze) (u : Nat) :
    (m.bumpIfGood u Maze.decBad).pillars = m.pillars := by
  unfold Maze.bumpIfGood; split <;> simp

@[simp] theorem Maze.bumpInc_wanted (m : Maze) (u : Nat) :
    (m.bumpIfGood u Maze.incBad).wantedSolution = m.wantedSolution := by
  unfold Maze.bumpIfGood; split <;> simp

@[simp] theorem Maze.bumpDec_wanted (m : Maze) (u : Nat) :
    (m.bumpIfGood u Maze.decBad).wantedSolution = m.wantedSolution := by
  unfold Maze.bumpIfGood; split <;> simp

@[simp] theorem Maze.bumpInc_pillar (m : Maze) (u w : Nat) :
    (m.bumpIfGood u Maze.incBad).pillar w = m.pillar w := by
  simp only [Maze.pillar, Maze.bumpInc_pillars]

@[simp] theorem Maze.bumpDec_pillar (m : Maze) (u w : Nat) :
    (m.bumpIfGood u Maze.decBad).pillar w = m.pillar w := by
  simp only [Maze.pillar, Maze.bumpDec_pillars]

theorem Maze.bumpInc_nBad (m : Maze) (u : Nat) :
    (m.bumpIfGood u Maze.incBad).nBadPillars
      = if (m.pillar u).current = (m.pillar u).required then incU m.nBadPillars
        else m.nBadPillars := by
  unfold Maze.bumpIfGood; split <;> simp

theorem Maze.bumpDec_nBad (m : Maze) (u : Nat) :
    (m.bumpIfGood u Maze.decBad).nBadPillars
      = if (m.pillar u).current = (m.pillar u).required then decU m.nBadPillars
        else m.nBadPillars := by
  unfold Maze.bumpIfGood; split <;> simp

theorem Maze.pillar_setCurrent (m : Maze) (u c w : Nat) :
    (m.setCurrent u c).pillar w
      = if w = u ∧ u < m.pillars.length then { m.pillar u with current := c }
        else m.pillar w := by
  unfold Maze.setCurrent
  rw [Maze.pillar_modifyPillar]

@[simp] theorem Maze.setCurrent_length (m : Maze) (u c : Nat) :
    (m.setCurrent u c).pillars.length = m.pillars.length := by
  simp [Maze.setCurrent]

@[simp] theorem Maze.setCurrent_nBad (m : Maze) (u c : Nat) :
    (m.setCurrent u c).nBadPillars = m.nBadPillars := rfl

@[simp] theorem Maze.setCurrent_wanted (m : Maze) (u c : Nat) :
    (m.setCurrent u c).wantedSolution = m.wantedSolution := rfl

/-- The pillars after the token part of `doMove`, for a cell between two different existing
pillars. -/
theorem Maze.moveStep_pillar (m : Maze) (x : Cell) (hs : x.source < m.pillars.length)
    (ht : x.target < m.pillars.length) (hne : x.target ≠ x.source) (w : Nat) :
    (m.moveStep x).pillar w
      = if w = x.source then
          { m.pillar w with current := (m.pillar w).current - x.dist }
        else if w = x.target then
          { m.pillar w with current := addU (m.pillar w).current x.dist }
        else m.pillar w := by
  simp only [Maze.moveStep, Maze.bumpInc_pillar, Maze.bumpDec_pillar, Maze.pillar_setCurrent,
    Maze.bumpInc_pillars, Maze.bumpDec_pillars, Maze.setCurrent_length, hs, ht, and_true, hne,
    if_false]
  by_cases h1 : w = x.source
  · subst h1
    have : ¬ x.source = x.target := fun e => hne e.symm
    simp [this]
  · by_cases h2 : w = x.target
    · subst h2; simp [h1]
    · simp [h1, h2]

theorem Maze.unmoveStep_pillar (m : Maze) (x : Cell) (hs : x.source < m.pillars.length)
    (ht : x.target < m.pillars.length) (hne : x.target ≠ x.source) (w : Nat) :
    (m.unmoveStep x).pillar w
      = if w = x.source then
          { m.pillar w with current := addU (m.pillar w).current x.dist }
        else if w = x.target then
          { m.pillar w with current := subU (m.pillar w).current x.dist }
        else m.pillar w := by
  simp only [Maze.unmoveStep, Maze.bumpInc_pillar, Maze.bumpDec_pillar, Maze.pillar_setCurrent,
    Maze.bumpInc_pillars, Maze.bumpDec_pillars, Maze.setCurrent_length, hs, ht, and_true, hne,
    if_false]
  by_cases h1 : w = x.source
  · subst h1
    have : ¬ x.source = x.target := fun e => hne e.symm
    simp [this]
  · by_cases h2 : w = x.target
    · subst h2; simp [h1]
    · simp [h1, h2]

theorem Maze.moveStep_length (m : Maze) (x : Cell) :
    (m.moveStep x).pillars.length = m.pillars.length := by
  simp [Maze.moveStep]

theorem Maze.unmoveStep_length (m : Maze) (x : Cell) :
    (m.unmoveStep x).pillars.length = m.pillars.length := by
  simp [Maze.unmoveStep]

theorem Maze.moveStep_wanted (m : Maze) (x : Cell) :
    (m.moveStep x).wantedSolution = m.wantedSolution := by
  simp [Maze.moveStep]

theorem Maze.unmoveStep_wanted (m : Maze) (x : Cell) :
    (m.unmoveStep x).wantedSolution = m.wantedSolution := by
  simp [Maze.unmoveStep]
theorem countP_update {α : Type} (p : α → Bool) (d : α) : ∀ (l l1 : List α) (u : Nat),
    l1.length = l.length → u < l.length →
    (∀ i, i ≠ u → l1.getD i d = l.getD i d) →
    l1.countP p + (if p (l.getD u d) then 1 else 0)
      = l.countP p + (if p (l1.getD u d) then 1 else 0) := by
  intro l
  induction l with
  | nil => intro l1 u _ hu _; simp at hu
  | cons a l ih =>
    intro l1 u hlen hu hsame
    cases l1 with
    | nil => simp at hlen
    | cons b l1 =>
      simp only [List.length_cons, Nat.add_right_cancel_iff] at hlen
      cases u with
      | zero =>
        have hrest : l1 = l := by
          apply list_ext_getD _ _ d hlen
          intro i _
          have := hsame (i + 1) (by omega)
          simpa using this
        subst hrest
        simp only [List.countP_cons, List.getD_cons_zero]
        omega
      | succ u =>
        have h0 : b = a := by
          have := hsame 0 (by omega)
          simpa using this
        subst h0
        have := ih l1 u hlen (by simpa using hu) (fun i hi => by
          have := hsame (i + 1) (by omega)
          simpa using this)
        simp only [List.countP_cons, List.getD_cons_succ]
        omega

theorem addU_lt (a b : Nat) : addU a b < UNSIGNED_MOD :=
  Nat.mod_lt _ (by decide)

theorem subU_lt (a b : Nat) : subU a b < UNSIGNED_MOD := by
  unfold subU
  split <;> exact Nat.mod_lt _ (by decide)

theorem Maze.badCount_le (m : Maze) : m.badCount ≤ m.pillars.length :=
  List.countP_le_length _

theorem Maze.retarget_pillar (m : Maze) (u c w : Nat) :
    (m.retarget u c).pillar w
      = if w = u ∧ u < m.pillars.length then { m.pillar u with current := c }
        else m.pillar w := by
  simp only [Maze.retarget, Maze.bumpDec_pillar, Maze.pillar_setCurrent, Maze.bumpInc_pillar,
    Maze.bumpInc_pillars]

theorem Maze.retarget_length (m : Maze) (u c : Nat) :
    (m.retarget u c).pillars.length = m.pillars.length := by
  simp [Maze.retarget]

theorem Maze.retarget_wanted (m : Maze) (u c : Nat) :
    (m.retarget u c).wantedSolution = m.wantedSolution := by
  simp [Maze.retarget]

theorem Maze.retarget_nBad (m : Maze) (u c : Nat) (hu : u < m.pillars.length) :
    (m.retarget u c).nBadPillars
      = (if c = (m.pillar u).required then decU else id)
          ((if (m.pillar u).current = (m.pillar u).required then incU else id)
            m.nBadPillars) := by
  simp only [Maze.retarget, Maze.bumpDec_nBad, Maze.pillar_setCurrent, Maze.bumpInc_pillar,
    Maze.bumpInc_pillars, hu, and_self, if_true, Maze.setCurrent_nBad, Maze.bumpInc_nBad]
  split <;> split <;> rfl

/-- Giving a pillar a new count keeps `nBadPillars` equal to the number of deficient
pillars. -/
theorem Maze.retarget_badCount (m : Maze) (u c : Nat) (hu : u < m.pillars.length)
    (hn : m.pillars.length < UNSIGNED_MOD) (hb : m.nBadPillars = m.badCount) :
    (m.retarget u c).nBadPillars = (m.retarget u c).badCount := by
  have hupd := countP_update (fun p : Pillar => decide (p.current ≠ p.required)) default
    m.pillars (m.retarget u c).pillars u (Maze.retarget_length m u c) hu (fun i hi => by
      have := Maze.retarget_pillar m u c i
      simp only [hi, false_and, if_false] at this
      exact this)
  have hself := Maze.retarget_pillar m u c u
  simp only [hu, and_self, if_true] at hself
  have e1 : (m.retarget u c).pillars.getD u default = (m.retarget u c).pillar u := rfl
  have e2 : m.pillars.getD u default = m.pillar u := rfl
  rw [e1, e2, hself] at hupd
  simp only [decide_not, Bool.not_eq_true', decide_eq_false_iff_not, ite_not] at hupd
  have hle := Maze.badCount_le (m.retarget u c)
  rw [Maze.retarget_length] at hle
  have hle0 := Maze.badCount_le m
  rw [Maze.retarget_nBad m u c hu, hb]
  unfold Maze.badCount at *
  simp only [decide_not] at *
  by_cases h1 : (m.pillar u).current = (m.pillar u).required <;>
    by_cases h2 : c = (m.pillar u).required <;>
    simp only [h1, h2, if_true, if_false, id, incU, decU, addU, subU, UNSIGNED_MOD] at hupd hn ⊢ <;>
    (try split) <;> omega
theorem Maze.moveStep_eq (m : Maze) (x : Cell) :
    m.moveStep x
      = (m.retarget x.source ((m.pillar x.source).current - x.dist)).retarget x.target
          (addU ((m.retarget x.source ((m.pillar x.source).current - x.dist)).pillar
            x.target).current x.dist) := by
  simp only [Maze.moveStep, Maze.retarget, Maze.bumpInc_pillar]

theorem Maze.unmoveStep_eq (m : Maze) (x : Cell) :
    m.unmoveStep x
      = (m.retarget x.source (addU (m.pillar x.source).current x.dist)).retarget x.target
          (subU ((m.retarget x.source (addU (m.pillar x.source).current x.dist)).pillar
            x.target).current x.dist) := by
  simp only [Maze.unmoveStep, Maze.retarget, Maze.bumpInc_pillar]

theorem Maze.moveStep_badCount (m : Maze) (x : Cell) (hs : x.source < m.pillars.length)
    (ht : x.target < m.pillars.length) (hn : m.pillars.length < UNSIGNED_MOD)
    (hb : m.nBadPillars = m.badCount) :
    (m.moveStep x).nBadPillars = (m.moveStep x).badCount := by
  rw [Maze.moveStep_eq]
  apply Maze.retarget_badCount
  · rw [Maze.retarget_length]; exact ht
  · rw [Maze.retarget_length]; exact hn
  · exact Maze.retarget_badCount m _ _ hs hn hb

theorem Maze.unmoveStep_badCount (m : Maze) (x : Cell) (hs : x.source < m.pillars.length)
    (ht : x.target < m.pillars.length) (hn : m.pillars.length < UNSIGNED_MOD)
    (hb : m.nBadPillars = m.badCount) :
    (m.unmoveStep x).nBadPillars = (m.unmoveStep x).badCount := by
  rw [Maze.unmoveStep_eq]
  apply Maze.retarget_badCount
  · rw [Maze.retarget_length]; exact ht
  · rw [Maze.retarget_length]; exact hn
  · exact Maze.retarget_badCount m _ _ hs hn hb

theorem Maze.banStep_length (m : Maze) (rev : Option CellRef) (f : Nat → Nat) :
    (m.banStep rev f).pillars.length = m.pillars.length := by
  cases rev <;> simp [Maze.banStep]

theorem Maze.banStep_nBad (m : Maze) (rev : Option CellRef) (f : Nat → Nat) :
    (m.banStep rev f).nBadPillars = m.nBadPillars := by
  cases rev <;> simp [Maze.banStep]

theorem Maze.banStep_wanted (m : Maze) (rev : Option CellRef) (f : Nat → Nat) :
    (m.banStep rev f).wantedSolution = m.wantedSolution := by
  cases rev <;> simp [Maze.banStep]

theorem Maze.banStep_pillar (m : Maze) (rev : Option CellRef) (f : Nat → Nat) (w : Nat) :
    (m.banStep rev f).pillar w
      = { m.pillar w with cells :=
          match rev with
          | some rr => if w = rr.1 then
              (m.pillar w).cells.modify (fun c => { c with nBans := f c.nBans }) rr.2
            else (m.pillar w).cells
          | none => (m.pillar w).cells } := by
  cases rev with
  | none => rfl
  | some rr =>
    simp only [Maze.banStep, Maze.pillar_modifyCell]
    split <;> rfl

theorem Maze.banStep_badCount (m : Maze) (rev : Option CellRef) (f : Nat → Nat) :
    (m.banStep rev f).badCount = m.badCount := by
  unfold Maze.badCount
  apply countP_congr_getD _ _ default default _ _ (Maze.banStep_length m rev f)
  intro i _
  have := Maze.banStep_pillar m rev f i
  simp only [Maze.pillar] at this
  rw [this]

theorem Maze.retarget_fields (m : Maze) (u c w : Nat) :
    ((m.retarget u c).pillar w).cells = (m.pillar w).cells ∧
    ((m.retarget u c).pillar w).index = (m.pillar w).index ∧
    ((m.retarget u c).pillar w).initial = (m.pillar w).initial ∧
    ((m.retarget u c).pillar w).required = (m.pillar w).required ∧
    ((m.retarget u c).pillar w).adjacent = (m.pillar w).adjacent := by
  rw [Maze.retarget_pillar]
  split
  · rename_i h
    rw [h.1]
    exact ⟨rfl, rfl, rfl, rfl, rfl⟩
  · exact ⟨rfl, rfl, rfl, rfl, rfl⟩

theorem Maze.moveStep_fields (m : Maze) (x : Cell) (w : Nat) :
    ((m.moveStep x).pillar w).cells = (m.pillar w).cells ∧
    ((m.moveStep x).pillar w).index = (m.pillar w).index ∧
    ((m.moveStep x).pillar w).initial = (m.pillar w).initial ∧
    ((m.moveStep x).pillar w).required = (m.pillar w).required ∧
    ((m.moveStep x).pillar w).adjacent = (m.pillar w).adjacent := by
  rw [Maze.moveStep_eq]
  have a := Maze.retarget_fields m x.source ((m.pillar x.source).current - x.dist) w
  have b := Maze.retarget_fields (m.retarget x.source ((m.pillar x.source).current - x.dist))
    x.target (addU ((m.retarget x.source ((m.pillar x.source).current - x.dist)).pillar
      x.target).current x.dist) w
  exact ⟨b.1.trans a.1, b.2.1.trans a.2.1, b.2.2.1.trans a.2.2.1, b.2.2.2.1.trans a.2.2.2.1,
    b.2.2.2.2.trans a.2.2.2.2⟩

theorem Maze.unmoveStep_fields (m : Maze) (x : Cell) (w : Nat) :
    ((m.unmoveStep x).pillar w).cells = (m.pillar w).cells ∧
    ((m.unmoveStep x).pillar w).index = (m.pillar w).index ∧
    ((m.unmoveStep x).pillar w).initial = (m.pillar w).initial ∧
    ((m.unmoveStep x).pillar w).required = (m.pillar w).required ∧
    ((m.unmoveStep x).pillar w).adjacent = (m.pillar w).adjacent := by
  rw [Maze.unmoveStep_eq]
  have a := Maze.retarget_fields m x.source (addU (m.pillar x.source).current x.dist) w
  have b := Maze.retarget_fields (m.retarget x.source (addU (m.pillar x.source).current x.dist))
    x.target (subU ((m.retarget x.source (addU (m.pillar x.source).current x.dist)).pillar
      x.target).current x.dist) w
  exact ⟨b.1.trans a.1, b.2.1.trans a.2.1, b.2.2.1.trans a.2.2.1, b.2.2.2.1.trans a.2.2.2.1,
    b.2.2.2.2.trans a.2.2.2.2⟩

theorem Maze.moveStep_cell (m : Maze) (x : Cell) (q : CellRef) :
    (m.moveStep x).cell q = m.cell q := by
  simp only [Maze.cell, (Maze.moveStep_fields m x q.1).1]

theorem Maze.unmoveStep_cell (m : Maze) (x : Cell) (q : CellRef) :
    (m.unmoveStep x).cell q = m.cell q := by
  simp only [Maze.cell, (Maze.unmoveStep_fields m x q.1).1]

theorem list_modify_eq_self {α : Type} (l : List α) (f : α → α) (k : Nat) (d : α)
    (h : k < l.length → f (l.getD k d) = l.getD k d) : l.modify f k = l := by
  apply list_ext_getD _ _ d (by simp)
  intro i _
  rw [list_getD_modify]
  split
  · rename_i hc
    rw [hc.1]; exact h hc.2
  · rfl

theorem subU_addU (a b : Nat) (ha : a < UNSIGNED_MOD) (hb : b < UNSIGNED_MOD) :
    subU (addU a b) b = a := by
  unfold subU addU UNSIGNED_MOD at *
  split <;> omega

theorem addU_sub (a b : Nat) (ha : a < UNSIGNED_MOD) (hb : b ≤ a) : addU (a - b) b = a := by
  unfold addU UNSIGNED_MOD at *
  omega
theorem list_getD_set {α : Type} (l : List α) (u w : Nat) (a d : α) :
    (l.set u a).getD w d = if w = u ∧ u < l.length then a else l.getD w d := by
  simp only [List.getD_eq_getElem?_getD, List.getElem?_set]
  by_cases h : u = w
  · subst h
    by_cases hu : u < l.length
    · simp [hu]
    · simp [hu, List.getElem?_eq_none (Nat.le_of_not_lt hu)]
  · have h2 : ¬ w = u := fun e => h e.symm
    simp [h, h2]

theorem Maze.counts_getD (m : Maze) (w : Nat) : m.counts.getD w 0 = (m.pillar w).current := by
  simp only [Maze.counts, Maze.pillar, List.getD_eq_getElem?_getD, List.getElem?_map]
  cases m.pillars[w]? <;> rfl

theorem Maze.counts_length (m : Maze) : m.counts.length = m.pillars.length := by
  simp [Maze.counts]

theorem Maze.counts_eq_of_current {m m1 : Maze} (hl : m1.pillars.length = m.pillars.length)
    (h : ∀ w, (m1.pillar w).current = (m.pillar w).current) : m1.counts = m.counts := by
  apply list_ext_getD _ _ 0 (by rw [Maze.counts_length, Maze.counts_length, hl])
  intro i _
  rw [Maze.counts_getD, Maze.counts_getD, h]

theorem SearchFrame.reflF (m : Maze) : SearchFrame m m :=
  ⟨SameLayout.reflL m, Keeps.reflK _ m, Keeps.reflK _ m, Keeps.reflK _ m⟩

theorem SearchFrame.transF {m m1 m2 : Maze} (h1 : SearchFrame m m1) (h2 : SearchFrame m1 m2) :
    SearchFrame m m2 :=
  ⟨h1.layout.transL h2.layout, h1.dist.transK h2.dist, h1.sym.transK h2.sym,
    h1.rev.transK h2.rev⟩

theorem SearchFrame.symmF {m m1 : Maze} (h : SearchFrame m m1) : SearchFrame m1 m :=
  ⟨h.layout.symmL, fun q => (h.dist q).symm, fun q => (h.sym q).symm, fun q => (h.rev q).symm⟩

theorem SearchFrame.of_cells {m m1 : Maze} (hl : m1.pillars.length = m.pillars.length)
    (hw : m1.wantedSolution = m.wantedSolution)
    (hf : ∀ w, (m1.pillar w).cells = (m.pillar w).cells ∧
      (m1.pillar w).index = (m.pillar w).index ∧
      (m1.pillar w).initial = (m.pillar w).initial ∧
      (m1.pillar w).required = (m.pillar w).required ∧
      (m1.pillar w).adjacent = (m.pillar w).adjacent) : SearchFrame m m1 := by
  have hc : ∀ q, m1.cell q = m.cell q := fun q => by simp only [Maze.cell, (hf q.1).1]
  exact ⟨⟨hl, hw, fun u => (hf u).2.1, fun u => (hf u).2.2.1, fun u => (hf u).2.2.2.1,
    fun u => (hf u).2.2.2.2, fun u => by rw [(hf u).1], fun q => by rw [hc], fun q => by rw [hc]⟩,
    fun q => by simp only [hc], fun q => by simp only [hc], fun q => by simp only [hc]⟩

theorem SearchFrame.of_moveStep (m : Maze) (x : Cell) : SearchFrame m (m.moveStep x) :=
  SearchFrame.of_cells (Maze.moveStep_length m x) (Maze.moveStep_wanted m x)
    (Maze.moveStep_fields m x)

theorem SearchFrame.of_unmoveStep (m : Maze) (x : Cell) : SearchFrame m (m.unmoveStep x) :=
  SearchFrame.of_cells (Maze.unmoveStep_length m x) (Maze.unmoveStep_wanted m x)
    (Maze.unmoveStep_fields m x)

theorem SearchFrame.of_banStep (m : Maze) (rev : Option CellRef) (f : Nat → Nat) :
    SearchFrame m (m.banStep rev f) := by
  cases rev with
  | none => exact SearchFrame.reflF m
  | some rr =>
    exact ⟨SameLayout_modifyCell m rr _ (fun _ => rfl) (fun _ => rfl),
      Keeps_modifyCell Cell.dist m rr _ (fun _ => rfl),
      Keeps_modifyCell Cell.isSymmetrical m rr _ (fun _ => rfl),
      Keeps_modifyCell Cell.reverse m rr _ (fun _ => rfl)⟩

theorem Searchable.of_frame {m m1 : Maze} (h : Searchable m) (f : SearchFrame m m1) :
    Searchable m1 := by
  have hl := f.layout
  constructor
  · intro u j hj; rw [hl.cells_length] at hj; rw [hl.source]; exact h.source_eq u j hj
  · intro u j hj; rw [hl.cells_length] at hj; rw [hl.target, hl.length]; exact h.target_lt u j hj
  · intro u j hj; rw [hl.cells_length] at hj; rw [hl.target]; exact h.target_ne u j hj
  · intro u j hj; rw [hl.cells_length] at hj; rw [f.dist (u, j)]; exact h.dist_pos u j hj
  · intro u j hj; rw [hl.cells_length] at hj; rw [f.dist (u, j)]; exact h.dist_lt u j hj
  · intro u j hj rr hr
    rw [hl.cells_length] at hj ⊢
    rw [f.rev (u, j)] at hr
    exact h.reverse_valid u j hj rr hr
  · rw [hl.length]; exact h.size_lt
theorem Maze.doMove_false (m : Maze) (r : CellRef) (h : (m.doMove r).2 = false) :
    (m.doMove r).1 = m := by
  rw [Maze.doMove_eq] at h ⊢
  split
  · rfl
  · split
    · rfl
    · rename_i h1 h2
      simp only [h1, h2, if_false] at h
      exact absurd h (by simp)

theorem Maze.doMove_true_iff (m : Maze) (r : CellRef) :
    (m.doMove r).2 = true ↔
      (m.cell r).nBans = 0 ∧ (m.cell r).dist ≤ (m.pillar (m.cell r).source).current := by
  rw [Maze.doMove_eq]
  by_cases h1 : (m.cell r).nBans = 0
  · by_cases h2 : (m.pillar (m.cell r).source).current < (m.cell r).dist
    · simp [h1, h2]
    · simp [h1, h2, Nat.le_of_not_lt h2]
  · simp [h1]

theorem Maze.doMove_true (m : Maze) (r : CellRef) (h : (m.doMove r).2 = true) :
    (m.doMove r).1 = (m.moveStep (m.cell r)).banStep (m.cell r).reverse incU := by
  obtain ⟨h1, h2⟩ := (Maze.doMove_true_iff m r).mp h
  rw [Maze.doMove_eq]
  simp [h1, Nat.not_lt.mpr h2]

theorem Maze.doMove_frame (m : Maze) (r : CellRef) : SearchFrame m (m.doMove r).1 := by
  cases h : (m.doMove r).2
  · rw [Maze.doMove_false m r h]; exact SearchFrame.reflF m
  · rw [Maze.doMove_true m r h]
    exact (SearchFrame.of_moveStep m _).transF (SearchFrame.of_banStep _ _ _)

theorem Maze.undoMove_frame (m : Maze) (r : CellRef) : SearchFrame m (m.undoMove r) := by
  rw [Maze.undoMove_eq]
  exact (SearchFrame.of_unmoveStep m _).transF (SearchFrame.of_banStep _ _ _)

theorem Maze.banStep_cell (m : Maze) (rev : Option CellRef) (f : Nat → Nat) (q : CellRef) :
    (m.banStep rev f).cell q
      = if rev = some q ∧ q.2 < (m.pillar q.1).cells.length
        then { m.cell q with nBans := f (m.cell q).nBans } else m.cell q := by
  cases rev with
  | none => simp [Maze.banStep]
  | some rr =>
    simp only [Maze.banStep, Maze.cell_modifyCell, Option.some.injEq]
    by_cases h : q = rr
    · subst h; simp
    · have h2 : ¬ rr = q := fun e => h e.symm
      simp [h, h2]

theorem Maze.banStep_current (m : Maze) (rev : Option CellRef) (f : Nat → Nat) (w : Nat) :
    ((m.banStep rev f).pillar w).current = (m.pillar w).current := by
  rw [Maze.banStep_pillar]

theorem Sane.retarget {m : Maze} (h : Sane m) (u c : Nat) (hu : u < m.pillars.length)
    (hc : c < UNSIGNED_MOD) (hn : m.pillars.length < UNSIGNED_MOD) : Sane (m.retarget u c) := by
  constructor
  · intro w
    rw [Maze.retarget_pillar]
    split
    · exact hc
    · exact h.current_lt w
  · intro q
    have : (m.retarget u c).cell q = m.cell q := by
      simp only [Maze.cell, (Maze.retarget_fields m u c q.1).1]
    rw [this]; exact h.nBans_lt q
  · exact Maze.retarget_badCount m u c hu hn h.nBad_eq

theorem Sane.after_banStep {m : Maze} (h : Sane m) (rev : Option CellRef) (f : Nat → Nat)
    (hf : ∀ b, f b < UNSIGNED_MOD) : Sane (m.banStep rev f) := by
  constructor
  · intro w; rw [Maze.banStep_current]; exact h.current_lt w
  · intro q
    rw [Maze.banStep_cell]
    split
    · exact hf _
    · exact h.nBans_lt q
  · rw [Maze.banStep_nBad, Maze.banStep_badCount]; exact h.nBad_eq

theorem Sane.after_moveStep {m : Maze} (h : Sane m) (x : Cell) (hs : x.source < m.pillars.length)
    (ht : x.target < m.pillars.length) (hn : m.pillars.length < UNSIGNED_MOD) :
    Sane (m.moveStep x) := by
  rw [Maze.moveStep_eq]
  apply Sane.retarget
  · exact h.retarget _ _ hs (Nat.lt_of_le_of_lt (Nat.sub_le _ _) (h.current_lt _)) hn
  · rw [Maze.retarget_length]; exact ht
  · exact addU_lt _ _
  · rw [Maze.retarget_length]; exact hn

theorem Sane.after_unmoveStep {m : Maze} (h : Sane m) (x : Cell) (hs : x.source < m.pillars.length)
    (ht : x.target < m.pillars.length) (hn : m.pillars.length < UNSIGNED_MOD) :
    Sane (m.unmoveStep x) := by
  rw [Maze.unmoveStep_eq]
  apply Sane.retarget
  · exact h.retarget _ _ hs (addU_lt _ _) hn
  · rw [Maze.retarget_length]; exact ht
  · exact subU_lt _ _
  · rw [Maze.retarget_length]; exact hn

theorem Searchable.source_lt {m : Maze} (_ : Searchable m) (r : CellRef)
    (hr : r.2 < (m.pillar r.1).cells.length) : r.1 < m.pillars.length :=
  Maze.cells_length_pos_lt m r.1 r.2 hr

theorem Maze.doMove_sane (m : Maze) (hS : Searchable m) (h : Sane m) (r : CellRef)
    (hr : r.2 < (m.pillar r.1).cells.length) : Sane (m.doMove r).1 := by
  cases hd : (m.doMove r).2
  · rw [Maze.doMove_false m r hd]; exact h
  · rw [Maze.doMove_true m r hd]
    apply Sane.after_banStep _ _ _ (fun b => addU_lt b 1)
    apply h.after_moveStep
    · rw [hS.source_eq r.1 r.2 hr]; exact hS.source_lt r hr
    · exact hS.target_lt r.1 r.2 hr
    · exact hS.size_lt

theorem Maze.undoMove_sane (m : Maze) (hS : Searchable m) (h : Sane m) (r : CellRef)
    (hr : r.2 < (m.pillar r.1).cells.length) : Sane (m.undoMove r) := by
  rw [Maze.undoMove_eq]
  apply Sane.after_banStep _ _ _ (fun b => subU_lt b 1)
  apply h.after_unmoveStep
  · rw [hS.source_eq r.1 r.2 hr]; exact hS.source_lt r hr
  · exact hS.target_lt r.1 r.2 hr
  · exact hS.size_lt

theorem Maze.doMove_counts (m : Maze) (hS : Searchable m) (r : CellRef)
    (hr : r.2 < (m.pillar r.1).cells.length) (hd : (m.doMove r).2 = true) :
    (m.doMove r).1.counts = moveCounts m.counts (m.moveOf r) := by
  have hs : (m.cell r).source < m.pillars.length := by
    rw [hS.source_eq r.1 r.2 hr]; exact hS.source_lt r hr
  have ht := hS.target_lt r.1 r.2 hr
  have hne : (m.cell r).target ≠ (m.cell r).source := by
    rw [hS.source_eq r.1 r.2 hr]; exact hS.target_ne r.1 r.2 hr
  rw [Maze.doMove_true m r hd]
  apply list_ext_getD _ _ 0
  · simp [Maze.counts_length, Maze.banStep_length, Maze.moveStep_length, moveCounts]
  · intro i _
    rw [Maze.counts_getD, Maze.banStep_current, Maze.moveStep_pillar m _ hs ht hne]
    simp only [moveCounts, Maze.moveOf, Cell.move, list_getD_set, List.length_set,
      Maze.counts_length, hs, ht, and_true, Maze.counts_getD]
    by_cases h1 : i = (m.cell r).source
    · rw [h1]
      have : ¬ (m.cell r).source = (m.cell r).target := fun e => hne e.symm
      simp [this]
    · by_cases h2 : i = (m.cell r).target
      · rw [h2]
        simp [hne]
      · simp [h1, h2]
theorem Maze.unmoveStep_congr (m : Maze) (x x1 : Cell) (h1 : x1.source = x.source)
    (h2 : x1.target = x.target) (h3 : x1.dist = x.dist) : m.unmoveStep x1 = m.unmoveStep x := by
  simp only [Maze.unmoveStep, h1, h2, h3]

theorem Cell.ext_fields (c c1 : Cell) (h1 : c1.source = c.source) (h2 : c1.target = c.target)
    (h3 : c1.reverse = c.reverse) (h4 : c1.dist = c.dist)
    (h5 : c1.isSymmetrical = c.isSymmetrical) (h6 : c1.nBans = c.nBans) : c1 = c := by
  cases c; cases c1
  simp only at h1 h2 h3 h4 h5 h6
  simp only [h1, h2, h3, h4, h5, h6]

/-- Apply-then-undo restores the whole maze. -/
theorem Maze.undoMove_doMove (m : Maze) (hS : Searchable m) (h : Sane m) (r : CellRef)
    (hr : r.2 < (m.pillar r.1).cells.length) (hd : (m.doMove r).2 = true) :
    (m.doMove r).1.undoMove r = m := by
  have hf1 := Maze.doMove_frame m r
  have hS1 := hS.of_frame hf1
  have hr1 : r.2 < ((m.doMove r).1.pillar r.1).cells.length := by
    rw [hf1.layout.cells_length]; exact hr
  have hs1 := Maze.doMove_sane m hS h r hr
  have hf2 := Maze.undoMove_frame (m.doMove r).1 r
  have hs2 := Maze.undoMove_sane (m.doMove r).1 hS1 hs1 r hr1
  have hf := hf1.transF hf2
  have hsrc : (m.cell r).source < m.pillars.length := by
    rw [hS.source_eq r.1 r.2 hr]; exact hS.source_lt r hr
  have htgt := hS.target_lt r.1 r.2 hr
  have hne : (m.cell r).target ≠ (m.cell r).source := by
    rw [hS.source_eq r.1 r.2 hr]; exact hS.target_ne r.1 r.2 hr
  have hdist := hS.dist_lt r.1 r.2 hr
  obtain ⟨_, hle⟩ := (Maze.doMove_true_iff m r).mp hd
  -- the cell read by `undoMove` has the members of the cell read by `doMove`
  have e1 : ((m.doMove r).1.cell r).source = (m.cell r).source := hf1.layout.source r
  have e2 : ((m.doMove r).1.cell r).target = (m.cell r).target := hf1.layout.target r
  have e3 : ((m.doMove r).1.cell r).dist = (m.cell r).dist := hf1.dist r
  have e4 : ((m.doMove r).1.cell r).reverse = (m.cell r).reverse := hf1.rev r
  have hund : (m.doMove r).1.undoMove r
      = (((m.moveStep (m.cell r)).banStep (m.cell r).reverse incU).unmoveStep
          (m.cell r)).banStep (m.cell r).reverse decU := by
    rw [Maze.undoMove_eq, e4, Maze.unmoveStep_congr _ _ _ e1 e2 e3, Maze.doMove_true m r hd]
  have hpillar : ∀ w, ((m.doMove r).1.undoMove r).pillar w = m.pillar w := by
    intro w
    apply Maze.ext_cell
    · exact hf.layout.index w
    · exact hf.layout.initial w
    · exact hf.layout.required w
    · exact hf.layout.adjacent w
    · rw [hund, Maze.banStep_current, Maze.unmoveStep_pillar _ _
        (by rw [Maze.banStep_length, Maze.moveStep_length]; exact hsrc)
        (by rw [Maze.banStep_length, Maze.moveStep_length]; exact htgt) hne]
      have hc := h.current_lt w
      by_cases h1 : w = (m.cell r).source
      · simp only [h1, if_true, Maze.banStep_current]
        rw [Maze.moveStep_pillar m _ hsrc htgt hne]
        simp only [if_true]
        exact addU_sub _ _ (h.current_lt _) hle
      · by_cases h2 : w = (m.cell r).target
        · simp only [h1, h2, if_true, if_false, Maze.banStep_current]
          rw [Maze.moveStep_pillar m _ hsrc htgt hne]
          simp only [hne, if_false, if_true]
          exact subU_addU _ _ (h.current_lt _) hdist
        · simp only [h1, h2, if_false, Maze.banStep_current]
          rw [Maze.moveStep_pillar m _ hsrc htgt hne]
          simp only [h1, h2, if_false]
    · exact hf.layout.cells_length w
    · intro j _
      show ((m.doMove r).1.undoMove r).cell (w, j) = m.cell (w, j)
      apply Cell.ext_fields
      · exact hf.layout.source (w, j)
      · exact hf.layout.target (w, j)
      · exact hf.rev (w, j)
      · exact hf.dist (w, j)
      · exact hf.sym (w, j)
      · rw [hund, Maze.banStep_cell, (SearchFrame.of_unmoveStep _ _).layout.cells_length,
          Maze.unmoveStep_cell, Maze.banStep_cell, (SearchFrame.of_banStep _ _ _).layout.cells_length,
          (SearchFrame.of_moveStep _ _).layout.cells_length, Maze.moveStep_cell]
        split
        · simp only [decU, incU]
          exact subU_addU _ _ (h.nBans_lt _) (by decide)
        · rfl
  apply Maze.ext_pillar
  · exact hf.layout.length
  · intro u _; exact hpillar u
  · rw [hs2.nBad_eq, h.nBad_eq]
    unfold Maze.badCount
    apply countP_congr_getD _ _ default default _ _ hf.layout.length
    intro i _
    have := hpillar i
    simp only [Maze.pillar] at this
    rw [this]
  · exact hf.layout.wanted
theorem SearchFrame.moveOf_eq {m m1 : Maze} (f : SearchFrame m m1) (r : CellRef) :
    m1.moveOf r = m.moveOf r := by
  simp only [Maze.moveOf, Cell.move, f.layout.source r, f.layout.target r, f.dist r]

theorem SearchFrame.map_moveOf {m m1 : Maze} (f : SearchFrame m m1) (path : List CellRef) :
    path.map m1.moveOf = path.map m.moveOf := by
  apply List.map_congr_left
  intro r _
  exact f.moveOf_eq r

theorem Maze.requireds_getD (m : Maze) (w : Nat) :
    m.requireds.getD w 0 = (m.pillar w).required := by
  simp only [Maze.requireds, Maze.pillar, List.getD_eq_getElem?_getD, List.getElem?_map]
  cases m.pillars[w]? <;> rfl

theorem SearchFrame.requireds_eq {m m1 : Maze} (f : SearchFrame m m1) :
    m1.requireds = m.requireds := by
  apply list_ext_getD _ _ 0 (by simp [Maze.requireds, f.layout.length])
  intro i _
  rw [Maze.requireds_getD, Maze.requireds_getD, f.layout.required]

theorem Maze.badCount_eq_zero_iff (m : Maze) : m.badCount = 0 ↔ m.counts = m.requireds := by
  simp only [Maze.badCount, Maze.counts, Maze.requireds, List.countP_eq_zero, List.map_inj_left,
    decide_eq_true_eq, ne_eq, not_not]

theorem Failed.failed_of_set {m : Maze} {mv mv2 : Moves} {i : Nat} {m2 : Maze} (x : Option CellRef)
    (h : Failed m (mv.set i x) i m2 mv2) : Failed m mv i m2 mv2 := by
  refine ⟨h.same, by rw [h.length_eq, List.length_set], ?_⟩
  intro k hk
  rw [h.kept k hk, list_getD_set]
  have : ¬ k = i := by omega
  simp [this]

theorem Found.found_of_set {m : Maze} {mv mv2 : Moves} {i r : Nat} {m2 : Maze}
    {path : List CellRef} (x : Option CellRef) (h : Found m (mv.set i x) i m2 mv2 r path) :
    Found m mv i m2 mv2 r path := by
  refine ⟨h.depth, h.bound, h.valid, h.replayed, h.goal, h.frame,
    by rw [h.length_eq, List.length_set], ?_, h.written, h.early⟩
  intro k hk
  rw [h.kept k hk, list_getD_set]
  have : ¬ k = i := by omega
  simp [this]

theorem Failed.failed_of_kept {m : Maze} {mv mv1 mv2 : Moves} {i : Nat} {m2 : Maze}
    (hl : mv1.length = mv.length) (hk : ∀ k, k < i → mv1.getD k none = mv.getD k none)
    (h : Failed m mv1 i m2 mv2) : Failed m mv i m2 mv2 :=
  ⟨h.same, h.length_eq.trans hl, fun k hki => (h.kept k hki).trans (hk k hki)⟩

theorem Found.found_of_kept {m : Maze} {mv mv1 mv2 : Moves} {i r : Nat} {m2 : Maze}
    {path : List CellRef} (hl : mv1.length = mv.length)
    (hk : ∀ k, k < i → mv1.getD k none = mv.getD k none)
    (h : Found m mv1 i m2 mv2 r path) : Found m mv i m2 mv2 r path :=
  ⟨h.depth, h.bound, h.valid, h.replayed, h.goal, h.frame, h.length_eq.trans hl,
    fun k hki => (h.kept k hki).trans (hk k hki), h.written, h.early⟩

theorem LoopSound.loop_of_kept {m : Maze} {mv mv1 : Moves} {i : Nat}
    {out : Maze × Moves × Option Nat} (hl : mv1.length = mv.length)
    (hk : ∀ k, k < i → mv1.getD k none = mv.getD k none) (h : LoopSound m mv1 i out) :
    LoopSound m mv i out :=
  ⟨fun e => (h.1 e).failed_of_kept hl hk, fun r e => ⟨(h.2 r e).1, by
    obtain ⟨path, hp⟩ := (h.2 r e).2
    exact ⟨path, hp.found_of_kept hl hk⟩⟩⟩

/-- One successful move followed by a successful recursive call. -/
theorem Found.cons {m : Maze} {mv mv2 : Moves} {i r : Nat} {m2 : Maze} {path : List CellRef}
    (hS : Searchable m) (hs : Sane m) (hbad : m.nBadPillars ≠ 0) (q : CellRef)
    (hq : q.2 < (m.pillar q.1).cells.length) (hd : (m.doMove q).2 = true)
    (hi : i < mv.length)
    (h : Found (m.doMove q).1 (mv.set i (some q)) (i + 1) m2 mv2 r path) :
    Found m mv i m2 mv2 r (q :: path) := by
  have f1 := Maze.doMove_frame m q
  have hle := ((Maze.doMove_true_iff m q).mp hd).2
  have hlegal : (m.moveOf q).dist ≤ m.counts.getD (m.moveOf q).source 0 := by
    rw [Maze.counts_getD]; exact hle
  have hne : m.counts ≠ m.requireds := by
    intro e
    exact hbad (hs.nBad_eq.trans ((Maze.badCount_eq_zero_iff m).mpr e))
  refine ⟨?_, ?_, ?_, ?_, ?_, f1.transF h.frame, ?_, ?_, ?_, ?_⟩
  · rw [h.depth]; simp only [List.length_cons]; omega
  · rw [← f1.layout.wanted]; exact h.bound
  · intro p hp
    simp only [List.mem_cons] at hp
    rcases hp with e | e
    · rw [e]; exact hq
    · rw [← f1.layout.cells_length]; exact h.valid p e
  · simp only [List.map_cons, replay, hlegal, if_true]
    rw [← Maze.doMove_counts m hS q hq hd, ← f1.map_moveOf]
    exact h.replayed
  · rw [h.goal, f1.requireds_eq]
  · rw [h.length_eq, List.length_set]
  · intro k hk
    rw [h.kept k (by omega), list_getD_set]
    have : ¬ k = i := by omega
    simp [this]
  · intro k hk
    cases k with
    | zero =>
      rw [Nat.add_zero, h.kept i (by omega), list_getD_set]
      simp [hi]
    | succ k =>
      simp only [List.length_cons] at hk
      have := h.written k (by omega)
      rw [show i + (k + 1) = i + 1 + k by omega, this]
      rfl
  · intro k hk
    cases k with
    | zero =>
      simp only [List.take_zero, List.map_nil, replay]
      intro e
      exact hne (Option.some.inj e)
    | succ k =>
      simp only [List.length_cons] at hk
      simp only [List.take_succ_cons, List.map_cons, replay, hlegal, if_true]
      rw [← Maze.doMove_counts m hS q hq hd, ← f1.map_moveOf, ← f1.requireds_eq]
      exact h.early k (by omega)
theorem cellLoop_sound (rec : Maze → Moves → Option (Maze × Moves × Nat)) (i u K : Nat)
    (hrec : RecSound rec (i + 1) K) (hiK : i < K) :
    ∀ (js : List Nat) (m : Maze) (mv : Moves) (out : Maze × Moves × Option Nat),
    Searchable m → Sane m → m.wantedSolution = K → mv.length = K → m.nBadPillars ≠ 0 →
    (∀ j ∈ js, j < (m.pillar u).cells.length) →
    cellLoop rec i u js m mv = some out → LoopSound m mv i out := by
  intro js
  induction js with
  | nil =>
    intro m mv out _ _ _ _ _ _ h
    simp only [cellLoop, Option.some.injEq] at h
    subst h
    exact ⟨fun _ => ⟨rfl, rfl, fun _ _ => rfl⟩, fun r e => by simp at e⟩
  | cons j js ih =>
    intro m mv out hS hs hw hl hbad hjs h
    have hj : j < (m.pillar u).cells.length := hjs j (List.mem_cons_self j js)
    have hjs2 : ∀ k ∈ js, k < (m.pillar u).cells.length :=
      fun k hk => hjs k (List.mem_cons_of_mem j hk)
    rw [cellLoop] at h
    cases hd : (m.doMove (u, j)).2
    · -- the move is not possible
      have hm1 := Maze.doMove_false m (u, j) hd
      have hpair : m.doMove (u, j) = (m, false) := Prod.ext hm1 hd
      rw [hpair] at h
      exact ih m mv out hS hs hw hl hbad hjs2 h
    · have hpair : m.doMove (u, j) = ((m.doMove (u, j)).1, true) := Prod.ext rfl hd
      rw [hpair] at h
      simp only [] at h
      have f1 := Maze.doMove_frame m (u, j)
      have hS1 := hS.of_frame f1
      have hs1 := Maze.doMove_sane m hS hs (u, j) hj
      cases hr : rec (m.doMove (u, j)).1 (mv.set i (some (u, j))) with
      | none => rw [hr] at h; exact absurd h (by simp)
      | some res =>
        obtain ⟨m2, mv2, r⟩ := res
        rw [hr] at h
        simp only [] at h
        have hsound := hrec _ _ _ hS1 hs1 (f1.layout.wanted.trans hw)
          (by rw [List.length_set]; exact hl) hr
        by_cases hrc : r = CANNOT_SOLVE
        · -- the subtree failed: the move is undone and the loop goes on
          have hfail := hsound.1 hrc
          simp only [hrc, ne_eq, not_true_eq_false, if_false] at h
          have hm2 : m2 = (m.doMove (u, j)).1 := hfail.same
          have hundo : m2.undoMove (u, j) = m := by
            rw [hm2]; exact Maze.undoMove_doMove m hS hs (u, j) hj hd
          rw [hundo] at h
          have hl2 : mv2.length = mv.length := by
            rw [hfail.length_eq, List.length_set]
          have hk2 : ∀ k, k < i → mv2.getD k none = mv.getD k none := by
            intro k hk
            rw [hfail.kept k (by omega), list_getD_set]
            have : ¬ k = i := by omega
            simp [this]
          exact (ih m mv2 out hS hs hw (hl2.trans hl) hbad hjs2 h).loop_of_kept hl2 hk2
        · simp only [hrc, ne_eq, not_false_eq_true, if_true, Option.some.injEq] at h
          subst h
          obtain ⟨path, hp⟩ := hsound.2 hrc
          refine ⟨fun e => by simp at e, fun r1 e => ?_⟩
          simp only [Option.some.injEq] at e
          subst e
          exact ⟨hrc, (u, j) :: path,
            Found.cons hS hs hbad (u, j) hj hd (by rw [hl]; exact hiK) hp⟩

theorem pillarLoop_sound (rec : Maze → Moves → Option (Maze × Moves × Nat)) (i K : Nat)
    (hrec : RecSound rec (i + 1) K) (hiK : i < K) :
    ∀ (us : List Nat) (m : Maze) (mv : Moves) (out : Maze × Moves × Option Nat),
    Searchable m → Sane m → m.wantedSolution = K → mv.length = K → m.nBadPillars ≠ 0 →
    pillarLoop rec i us m mv = some out → LoopSound m mv i out := by
  intro us
  induction us with
  | nil =>
    intro m mv out _ _ _ _ _ h
    simp only [pillarLoop, Option.some.injEq] at h
    subst h
    exact ⟨fun _ => ⟨rfl, rfl, fun _ _ => rfl⟩, fun r e => by simp at e⟩
  | cons u us ih =>
    intro m mv out hS hs hw hl hbad h
    rw [pillarLoop] at h
    by_cases hc : (m.pillar u).current ≠ 0
    · simp only [hc, ne_eq, not_false_eq_true, if_true] at h
      cases hcl : cellLoop rec i u (List.range (m.pillar u).cells.length) m mv with
      | none => rw [hcl] at h; exact absurd h (by simp)
      | some res =>
        obtain ⟨m1, mv1, o⟩ := res
        rw [hcl] at h
        have hsound := cellLoop_sound rec i u K hrec hiK _ m mv _ hS hs hw hl hbad
          (fun j hj => List.mem_range.mp hj) hcl
        cases o with
        | some r =>
          simp only [Option.some.injEq] at h
          subst h
          exact hsound
        | none =>
          simp only [] at h
          have hfail := hsound.1 rfl
          have hm1 : m1 = m := hfail.same
          subst hm1
          exact (ih m1 mv1 out hS hs hw (hfail.length_eq.trans hl) hbad h).loop_of_kept
            hfail.length_eq hfail.kept
    · simp only [hc, if_false] at h
      exact ih m mv out hS hs hw hl hbad h

theorem subU_of_le (a b : Nat) (h : b ≤ a) (ha : a < UNSIGNED_MOD) : subU a b = a - b := by
  unfold subU UNSIGNED_MOD at *
  simp only [h, if_true]
  omega

/-- Soundness of `recurse`: a call that returns `CANNOT_SOLVE` leaves the maze as it found
it; a call that returns another number has applied a sequence of possible moves that ends
with all pillars at their required counts, and no proper part of it does. -/
theorem recurse_sound : ∀ (fuel : Nat) (K i : Nat), i ≤ K → K < UNSIGNED_MOD →
    RecSound (fun m mv => recurse fuel m mv i) i K := by
  intro fuel
  induction fuel with
  | zero =>
    intro K i _ _ m mv res _ _ _ _ h
    simp [recurse] at h
  | succ fuel ih =>
    intro K i hiK hK m mv res hS hs hw hl h
    simp only [recurse] at h
    by_cases hbad : m.nBadPillars = 0
    · simp only [hbad, if_true, Option.some.injEq] at h
      subst h
      refine ⟨fun _ => ⟨rfl, rfl, fun _ _ => rfl⟩, fun _ => ⟨[], ?_⟩⟩
      have hgoal : m.counts = m.requireds :=
        (Maze.badCount_eq_zero_iff m).mp (hs.nBad_eq.symm.trans hbad)
      exact ⟨rfl, by rw [hw]; exact hiK, fun p hp => absurd hp (List.not_mem_nil p), rfl, hgoal,
        SearchFrame.reflF m,
        rfl, fun _ _ => rfl, fun k hk => absurd hk (Nat.not_lt_zero k),
        fun k hk => absurd hk (Nat.not_lt_zero k)⟩
    · simp only [hbad, if_false] at h
      rw [hw, subU_of_le K i hiK hK] at h
      by_cases hprune : (K - i) * 2 % UNSIGNED_MOD < m.nBadPillars
      · simp only [hprune, if_true, Option.some.injEq] at h
        subst h
        exact ⟨fun _ => ⟨rfl, rfl, fun _ _ => rfl⟩, fun hne => absurd rfl hne⟩
      · simp only [hprune, if_false] at h
        have hlt : i < K := by
          by_contra hge
          have : K - i = 0 := by omega
          rw [this] at hprune
          simp only [Nat.zero_mul, Nat.zero_mod] at hprune
          omega
        have hi1 : addU i 1 = i + 1 := by
          unfold addU UNSIGNED_MOD at *
          omega
        rw [hi1] at h
        cases hpl : pillarLoop (fun m1 mv1 => recurse fuel m1 mv1 (i + 1)) i
            (List.range m.pillars.length) m mv with
        | none => rw [hpl] at h; exact absurd h (by simp)
        | some out =>
          obtain ⟨m1, mv1, o⟩ := out
          rw [hpl] at h
          have hsound := pillarLoop_sound _ i K (ih K (i + 1) (by omega) hK) hlt _ m mv _
            hS hs hw hl hbad hpl
          cases o with
          | some r =>
            simp only [Option.some.injEq] at h
            subst h
            obtain ⟨hne, path, hp⟩ := hsound.2 r rfl
            exact ⟨fun e => absurd e hne, fun _ => ⟨path, hp⟩⟩
          | none =>
            simp only [Option.some.injEq] at h
            subst h
            exact ⟨fun _ => hsound.1 rfl, fun hne => absurd rfl hne⟩
theorem prepared_cell_of_le (m : Maze) (q : CellRef)
    (hq : ¬ q.2 < (m.preprocess.1.pillar q.1).cells.length) :
    m.preprocess.1.cell q = default := by
  simp only [Maze.cell]
  exact list_getD_default _ _ _ (Nat.le_of_not_lt hq)

theorem preprocess_searchable (m : Maze) (hm : Fresh m)
    (hn : m.pillars.length < UNSIGNED_MOD) : Searchable m.preprocess.1 := by
  obtain ⟨_, hl, _, _, _, _, hc⟩ := preprocess_spec m hm
  have hu : ∀ u j, j < (m.preprocess.1.pillar u).cells.length → u < m.pillars.length :=
    fun u j hj => hl ▸ Maze.cells_length_pos_lt _ u j hj
  constructor
  · intro u j hj
    obtain ⟨v, _, _, _, _, _, hcell⟩ := prepared_cell m hm u j (hu u j hj) hj
    rw [hcell]; rfl
  · intro u j hj
    obtain ⟨v, hv, _, _, _, _, hcell⟩ := prepared_cell m hm u j (hu u j hj) hj
    rw [hcell, hl]; exact hv
  · intro u j hj
    obtain ⟨v, _, h0, _, _, _, hcell⟩ := prepared_cell m hm u j (hu u j hj) hj
    rw [hcell]
    intro e
    simp only [fullCell] at e
    subst e
    exact h0 (table_self m v)
  · intro u j hj
    obtain ⟨v, _, h0, _, _, _, hcell⟩ := prepared_cell m hm u j (hu u j hj) hj
    rw [hcell]
    exact Nat.one_le_iff_ne_zero.mpr h0
  · intro u j hj
    obtain ⟨v, _, _, _, _, _, hcell⟩ := prepared_cell m hm u j (hu u j hj) hj
    rw [hcell]
    have := table_le m u v
    simp only [fullCell, BIG_DIST, UNSIGNED_MOD] at this ⊢
    omega
  · intro u j hj rr hr
    obtain ⟨v, hv, _, _, _, _, hcell⟩ := prepared_cell m hm u j (hu u j hj) hj
    rw [hcell] at hr
    simp only [reverseOf, fullCell] at hr
    split at hr
    · cases hf : findTarget u (keptCells m.table m.pillars.length v) 0 with
      | none => rw [hf] at hr; simp at hr
      | some k =>
        rw [hf] at hr
        simp only [Option.map_some', Option.some.injEq] at hr
        subst hr
        have := (findTarget_some u _ 0 k hf).2.1
        simp only [hc v hv, preparedCells, List.length_map]
        simpa using this
    · simp at hr
  · rw [hl]; exact hn

theorem preprocess_sane (m : Maze) (hm : Fresh m) (hn : m.pillars.length < UNSIGNED_MOD) :
    Sane m.preprocess.1 := by
  obtain ⟨_, hl, _, hb, hf, hcur, hc⟩ := preprocess_spec m hm
  constructor
  · intro u
    by_cases hu : u < m.pillars.length
    · rw [hcur u hu]; exact hm.initial_lt u hu
    · rw [Maze.pillar_of_le _ u (by rw [hl]; omega)]
      exact Nat.zero_lt_of_ne_zero (by decide)
  · intro q
    by_cases hq : q.2 < (m.preprocess.1.pillar q.1).cells.length
    · have hu : q.1 < m.pillars.length := hl ▸ Maze.cells_length_pos_lt _ q.1 q.2 hq
      obtain ⟨v, _, _, _, _, _, hcell⟩ := prepared_cell m hm q.1 q.2 hu hq
      rw [show q = (q.1, q.2) from rfl, hcell]
      exact Nat.zero_lt_of_ne_zero (by decide)
    · rw [prepared_cell_of_le m q hq]
      exact Nat.zero_lt_of_ne_zero (by decide)
  · rw [hb]
    have hcount : m.preprocess.1.badCount
        = m.pillars.countP (fun p => decide (p.initial ≠ p.required)) := by
      unfold Maze.badCount
      apply countP_congr_getD _ _ default default _ _ hl
      intro i hi
      rw [hl] at hi
      have h1 := hcur i hi
      have h2 := (hf i).2.2.1
      simp only [Maze.pillar] at h1 h2
      rw [h1, h2]
    rw [hcount]
    apply Nat.mod_eq_of_lt
    exact Nat.lt_of_le_of_lt (List.countP_le_length _) hn

theorem preprocess_counts (m : Maze) (hm : Fresh m) :
    m.preprocess.1.counts = m.initials ∧ m.preprocess.1.requireds = m.requireds := by
  obtain ⟨_, hl, _, _, hf, hcur, _⟩ := preprocess_spec m hm
  constructor
  · apply list_ext_getD _ _ 0 (by simp [Maze.counts, Maze.initials, hl])
    intro i hi
    rw [Maze.counts_length, hl] at hi
    rw [Maze.counts_getD, hcur i hi]
    simp only [Maze.initials, Maze.pillar, List.getD_eq_getElem?_getD, List.getElem?_map]
    cases m.pillars[i]? <;> rfl
  · apply list_ext_getD _ _ 0 (by simp [Maze.requireds, hl])
    intro i _
    rw [Maze.requireds_getD, Maze.requireds_getD, (hf i).2.2.1]

theorem take_eq_map_some (mv : Moves) (path : List CellRef) (h : path.length ≤ mv.length)
    (hw : ∀ k, k < path.length → mv.getD k none = some (path.getD k (0, 0))) :
    resizeMoves mv path.length = path.map some := by
  unfold resizeMoves
  have : path.length - mv.length = 0 := by omega
  rw [this, List.replicate_zero, List.append_nil]
  apply list_ext_getD _ _ none (by simp; omega)
  intro i hi
  simp only [List.length_take] at hi
  have hi2 : i < path.length := by omega
  rw [getD_map _ _ i (0, 0) none hi2, ← hw i hi2]
  simp only [List.getD_eq_getElem?_getD, List.getElem?_take, hi2, if_true]
theorem Maze.pillar_congr {m m1 : Maze} (h : m1.pillars = m.pillars) (w : Nat) :
    m1.pillar w = m.pillar w := by
  simp only [Maze.pillar, h]

theorem Maze.cell_congr {m m1 : Maze} (h : m1.pillars = m.pillars) (q : CellRef) :
    m1.cell q = m.cell q := by
  simp only [Maze.cell, Maze.pillar_congr h]

theorem Searchable.searchable_of_pillars {m m1 : Maze} (hS : Searchable m) (h : m1.pillars = m.pillars) :
    Searchable m1 := by
  constructor
  · intro u j hj
    rw [Maze.pillar_congr h] at hj; rw [Maze.cell_congr h]; exact hS.source_eq u j hj
  · intro u j hj
    rw [Maze.pillar_congr h] at hj; rw [Maze.cell_congr h, h]; exact hS.target_lt u j hj
  · intro u j hj
    rw [Maze.pillar_congr h] at hj; rw [Maze.cell_congr h]; exact hS.target_ne u j hj
  · intro u j hj
    rw [Maze.pillar_congr h] at hj; rw [Maze.cell_congr h]; exact hS.dist_pos u j hj
  · intro u j hj
    rw [Maze.pillar_congr h] at hj; rw [Maze.cell_congr h]; exact hS.dist_lt u j hj
  · intro u j hj rr hr
    rw [Maze.pillar_congr h] at hj ⊢; rw [Maze.cell_congr h] at hr
    exact hS.reverse_valid u j hj rr hr
  · rw [h]; exact hS.size_lt

theorem Sane.sane_of_pillars {m m1 : Maze} (hs : Sane m) (h : m1.pillars = m.pillars)
    (hb : m1.nBadPillars = m.nBadPillars) : Sane m1 := by
  constructor
  · intro u; rw [Maze.pillar_congr h]; exact hs.current_lt u
  · intro q; rw [Maze.cell_congr h]; exact hs.nBans_lt q
  · rw [hb, hs.nBad_eq]; simp only [Maze.badCount, h]

/-- What a call of `solve` on a newly built maze returns when it returns moves: the moves
applied on the successful path of the search. -/
theorem solve_sound (m : Maze) (hm : Fresh m) (hn : m.pillars.length < UNSIGNED_MOD)
    (K : Nat) (m1 : Maze) (mv : Moves) (h : m.solve K = some (m1, SolveResult.moves mv))
    (hne : mv ≠ []) :
    ∃ path : List CellRef, mv = path.map some ∧ path.length ≤ K % UNSIGNED_MOD ∧
      (∀ p ∈ path, p.2 < (m.preprocess.1.pillar p.1).cells.length) ∧
      replay m.initials (path.map m.preprocess.1.moveOf) = some m.requireds ∧
      (∀ k, k < path.length →
        replay m.initials ((path.take k).map m.preprocess.1.moveOf) ≠ some m.requireds) := by
  have hpre : m.preprocess = (m.preprocess.1, none) := by
    have h2 := (preprocess_spec m hm).1
    generalize m.preprocess = pp at h2 ⊢
    obtain ⟨a, b⟩ := pp
    simp only at h2
    rw [h2]
  have hS := preprocess_searchable m hm hn
  have hs := preprocess_sane m hm hn
  obtain ⟨hcnt, hreq⟩ := preprocess_counts m hm
  have hKW : K % UNSIGNED_MOD < UNSIGNED_MOD := Nat.mod_lt _ (by decide)
  unfold Maze.solve at h
  cases hcs : m.checkSums with
  | some msg => rw [hcs] at h; simp at h
  | none =>
    rw [hcs, hpre] at h
    simp only [] at h
    generalize hm2 : ({ m.preprocess.1 with wantedSolution := K % UNSIGNED_MOD } : Maze) = m2 at h
    have hp2 : m2.pillars = m.preprocess.1.pillars := by rw [← hm2]
    have hb2 : m2.nBadPillars = m.preprocess.1.nBadPillars := by rw [← hm2]
    have hw2 : m2.wantedSolution = K % UNSIGNED_MOD := by rw [← hm2]
    have hS2 := hS.searchable_of_pillars hp2
    have hs2 := hs.sane_of_pillars hp2 hb2
    have hlen0 : (resizeMoves [] (K % UNSIGNED_MOD)).length = K % UNSIGNED_MOD := by
      simp [resizeMoves]
    cases hrec : recurse (K % UNSIGNED_MOD + 1) m2 (resizeMoves [] (K % UNSIGNED_MOD)) 0 with
    | none => rw [hrec] at h; simp at h
    | some res =>
      obtain ⟨m3, r3, nMoves⟩ := res
      rw [hrec] at h
      simp only [] at h
      have hsound := recurse_sound (K % UNSIGNED_MOD + 1) (K % UNSIGNED_MOD) 0 (Nat.zero_le _)
        hKW m2 _ _ hS2 hs2 hw2 hlen0 hrec
      by_cases hcs2 : nMoves = CANNOT_SOLVE
      · simp only [hcs2, if_true, Option.some.injEq, Prod.mk.injEq, SolveResult.moves.injEq] at h
        exact absurd h.2.symm hne
      · simp only [hcs2, if_false, Option.some.injEq, Prod.mk.injEq,
          SolveResult.moves.injEq] at h
        obtain ⟨path, hp⟩ := hsound.2 hcs2
        have hdepth : nMoves = path.length := by
          have := hp.depth
          simpa using this
        have hbound : path.length ≤ K % UNSIGNED_MOD := by
          rw [← hdepth, ← hw2]; exact hp.bound
        have hmv : mv = path.map some := by
          rw [← h.2, hdepth]
          apply take_eq_map_some
          · rw [hp.length_eq, hlen0]; exact hbound
          · intro k hk
            have := hp.written k hk
            rwa [Nat.zero_add] at this
        have hmo : path.map m2.moveOf = path.map m.preprocess.1.moveOf := by
          apply List.map_congr_left
          intro r _
          simp only [Maze.moveOf, Maze.cell_congr hp2]
        have hc2 : m2.counts = m.initials := by
          rw [← hcnt]; simp only [Maze.counts, hp2]
        have hr2 : m2.requireds = m.requireds := by
          rw [← hreq]; simp only [Maze.requireds, hp2]
        refine ⟨path, hmv, hbound, ?_, ?_, ?_⟩
        · intro p hpm
          have := hp.valid p hpm
          rwa [Maze.pillar_congr hp2] at this
        · rw [← hc2, ← hmo, ← hr2, ← hp.goal]; exact hp.replayed
        · intro k hk
          have := hp.early k hk
          rw [hc2, hr2] at this
          have hmo2 : (path.take k).map m2.moveOf
              = (path.take k).map m.preprocess.1.moveOf := by
            apply List.map_congr_left
            intro r _
            simp only [Maze.moveOf, Maze.cell_congr hp2]
          rwa [hmo2] at this
theorem solve_of_map {m : Maze} {K : Nat} {res : SolveResult}
    (h : (m.solve K).map Prod.snd = some res) : ∃ m1, m.solve K = some (m1, res) := by
  cases hs : m.solve K with
  | none => rw [hs] at h; simp at h
  | some out =>
    rw [hs] at h
    simp only [Option.map_some', Option.some.injEq] at h
    exact ⟨out.1, by rw [← h]⟩

theorem replay_take {xs : List Move} : ∀ {cur c : List Nat}, replay cur xs = some c →
    ∀ k, ∃ c1, replay cur (xs.take k) = some c1 := by
  induction xs with
  | nil => intro cur c _ k; exact ⟨cur, by simp [replay]⟩
  | cons x xs ih =>
    intro cur c h k
    cases k with
    | zero => exact ⟨cur, by simp [replay]⟩
    | succ k =>
      simp only [replay] at h
      by_cases hx : x.dist ≤ cur.getD x.source 0
      · simp only [hx, if_true] at h
        obtain ⟨c1, hc1⟩ := ih h k
        exact ⟨c1, by simp only [List.take_succ_cons, replay, hx, if_true, hc1]⟩
      · simp only [hx, if_false] at h
        exact absurd h (by simp)

theorem demo_solve : (demoMaze.solve 3).map Prod.snd
    = some (SolveResult.moves [some (0, 0), some (1, 1)]) := by decide

theorem shortcut_build : build shortcutOps = some shortcutMaze := by decide

theorem shortcut_solve : (shortcutMaze.solve 2).map Prod.snd
    = some (SolveResult.moves [some (0, 0), some (1, 1)]) := by decide

/-- C1. Solution validity.  If `solve(K)` on a newly built maze (all pillars added before
the first link, fewer than 2^32 of them) returns a non-empty sequence, every entry points to
a candidate cell of the pruned list of its source pillar, the replay of the sequence from the
initial counts never asks a pillar for more tokens than it holds (so no count goes below
zero), and the replay ends with every pillar at its required count. -/
theorem solve_valid (ops : List BuildOp) (m : Maze) (_hpf : PillarsFirst ops)
    (hb : build ops = some m) (hn : m.pillars.length < UNSIGNED_MOD) (K : Nat) (mv : Moves)
    (h : (m.solve K).map Prod.snd = some (SolveResult.moves mv)) (hne : mv ≠ []) :
    ∃ path : List CellRef, mv = path.map some ∧
      (∀ p ∈ path, p.1 < m.pillars.length ∧
        p.2 < (m.preprocess.1.pillar p.1).cells.length ∧
        (m.preprocess.1.moveOf p).source = p.1) ∧
      replay m.initials (path.map m.preprocess.1.moveOf) = some m.requireds := by
  have hm := fresh_build ops m hb
  obtain ⟨m1, h1⟩ := solve_of_map h
  obtain ⟨path, hmv, _, hvalid, hrep, _⟩ := solve_sound m hm hn K m1 mv h1 hne
  have hS := preprocess_searchable m hm hn
  refine ⟨path, hmv, fun p hp => ⟨?_, hvalid p hp, ?_⟩, hrep⟩
  · exact Nat.lt_of_lt_of_eq (hS.source_lt p (hvalid p hp)) (preprocess_spec m hm).2.1
  · have := hS.source_eq p.1 p.2 (hvalid p hp)
    generalize m.preprocess.1 = mp at this ⊢
    exact this

/-- C1 at the maze `demoMaze` with `K = 3`. -/
theorem solve_valid_witness :
    PillarsFirst demoOps ∧ build demoOps = some demoMaze ∧
    demoMaze.pillars.length < UNSIGNED_MOD ∧
    (demoMaze.solve 3).map Prod.snd = some (SolveResult.moves [some (0, 0), some (1, 1)]) ∧
    ∃ path : List CellRef, [some (0, 0), some (1, 1)] = path.map some ∧
      (∀ p ∈ path, p.1 < demoMaze.pillars.length ∧
        p.2 < (demoMaze.preprocess.1.pillar p.1).cells.length ∧
        (demoMaze.preprocess.1.moveOf p).source = p.1) ∧
      replay demoMaze.initials (path.map demoMaze.preprocess.1.moveOf)
        = some demoMaze.requireds :=
  ⟨by decide, demo_build, by decide, demo_solve,
    solve_valid demoOps demoMaze (by decide) demo_build (by decide) 3 _ demo_solve
      (by decide)⟩

/-- C5, as stated, fails: `solve(3)` on the maze `demoMaze`, whose pillars are all added
before its links, returns a sequence of two moves. -/
theorem solve_length_counterexample :
    PillarsFirst demoOps ∧ build demoOps = some demoMaze ∧
    ∃ mv, (demoMaze.solve 3).map Prod.snd = some (SolveResult.moves mv) ∧ mv ≠ [] ∧
      mv.length ≠ 3 :=
  ⟨by decide, demo_build, [some (0, 0), some (1, 1)], demo_solve, by decide, by decide⟩

/-- C5, amended.  A non-empty sequence returned by `solve(K)` on a newly built maze (all
pillars added before the first link, fewer than 2^32 of them) contains at most `K` moves. -/
theorem solve_length_le (ops : List BuildOp) (m : Maze) (_hpf : PillarsFirst ops)
    (hb : build ops = some m) (hn : m.pillars.length < UNSIGNED_MOD) (K : Nat) (mv : Moves)
    (h : (m.solve K).map Prod.snd = some (SolveResult.moves mv)) (hne : mv ≠ []) :
    mv.length ≤ K := by
  have hm := fresh_build ops m hb
  obtain ⟨m1, h1⟩ := solve_of_map h
  obtain ⟨path, hmv, hlen, _⟩ := solve_sound m hm hn K m1 mv h1 hne
  rw [hmv, List.length_map]
  exact Nat.le_trans hlen (Nat.mod_le _ _)

/-- C5, amended, at the maze `demoMaze` with `K = 3`. -/
theorem solve_length_le_witness :
    PillarsFirst demoOps ∧ build demoOps = some demoMaze ∧
    demoMaze.pillars.length < UNSIGNED_MOD ∧
    (demoMaze.solve 3).map Prod.snd = some (SolveResult.moves [some (0, 0), some (1, 1)]) ∧
    [some (0, 0), some ((1, 1) : CellRef)].length ≤ 3 :=
  ⟨by decide, demo_build, by decide, demo_solve,
    solve_length_le demoOps demoMaze (by decide) demo_build (by decide) 3 _ demo_solve
      (by decide)⟩

/-- C6. Result length is "as found".  A non-empty sequence returned by `solve(K)` on a newly
built maze (all pillars added before the first link, fewer than 2^32 of them) has at most
`K` entries, every entry points to a candidate cell (none is null), the replay of the whole
sequence from the initial counts ends with every pillar at its required count, and the
replay of any proper initial part of the sequence succeeds and leaves counts that differ
from the required ones: the length is the first point at which all pillars match. -/
theorem solve_as_found (ops : List BuildOp) (m : Maze) (_hpf : PillarsFirst ops)
    (hb : build ops = some m) (hn : m.pillars.length < UNSIGNED_MOD) (K : Nat) (mv : Moves)
    (h : (m.solve K).map Prod.snd = some (SolveResult.moves mv)) (hne : mv ≠ []) :
    mv.length ≤ K ∧
    ∃ path : List CellRef, mv = path.map some ∧
      (∀ p ∈ path, p.1 < m.pillars.length ∧
        p.2 < (m.preprocess.1.pillar p.1).cells.length) ∧
      replay m.initials (path.map m.preprocess.1.moveOf) = some m.requireds ∧
      ∀ k, k < mv.length → ∃ c,
        replay m.initials ((path.take k).map m.preprocess.1.moveOf) = some c ∧
        c ≠ m.requireds := by
  have hm := fresh_build ops m hb
  obtain ⟨m1, h1⟩ := solve_of_map h
  obtain ⟨path, hmv, hlen, hvalid, hrep, hearly⟩ := solve_sound m hm hn K m1 mv h1 hne
  have hS := preprocess_searchable m hm hn
  refine ⟨?_, path, hmv, fun p hp => ⟨?_, hvalid p hp⟩, hrep, ?_⟩
  · rw [hmv, List.length_map]
    exact Nat.le_trans hlen (Nat.mod_le _ _)
  · exact Nat.lt_of_lt_of_eq (hS.source_lt p (hvalid p hp)) (preprocess_spec m hm).2.1
  · intro k hk
    rw [hmv, List.length_map] at hk
    obtain ⟨c, hc⟩ := replay_take hrep k
    rw [← List.map_take] at hc
    refine ⟨c, hc, fun e => hearly k hk ?_⟩
    rw [hc, e]

/-- C6 at the maze `demoMaze` with `K = 3`. -/
theorem solve_as_found_witness :
    PillarsFirst demoOps ∧ build demoOps = some demoMaze ∧
    demoMaze.pillars.length < UNSIGNED_MOD ∧
    (demoMaze.solve 3).map Prod.snd = some (SolveResult.moves [some (0, 0), some (1, 1)]) ∧
    [some (0, 0), some ((1, 1) : CellRef)].length ≤ 3 ∧
    ∃ path : List CellRef, [some (0, 0), some (1, 1)] = path.map some ∧
      (∀ p ∈ path, p.1 < demoMaze.pillars.length ∧
        p.2 < (demoMaze.preprocess.1.pillar p.1).cells.length) ∧
      replay demoMaze.initials (path.map demoMaze.preprocess.1.moveOf)
        = some demoMaze.requireds ∧
      ∀ k, k < [some (0, 0), some ((1, 1) : CellRef)].length → ∃ c,
        replay demoMaze.initials ((path.take k).map demoMaze.preprocess.1.moveOf) = some c ∧
        c ≠ demoMaze.requireds :=
  ⟨by decide, demo_build, by decide, demo_solve,
    solve_as_found demoOps demoMaze (by decide) demo_build (by decide) 3 _ demo_solve
      (by decide)⟩

/-- C8, as stated, fails: `solve(2)` on the maze `shortcutMaze`, whose pillars are all added
before its links, returns the two moves 0 -> 1, 1 -> 2, although the single candidate move
0 -> 2 already brings every pillar to its required count. -/
theorem solve_minimal_counterexample :
    PillarsFirst shortcutOps ∧ build shortcutOps = some shortcutMaze ∧
    (shortcutMaze.solve 2).map Prod.snd
      = some (SolveResult.moves [some (0, 0), some (1, 1)]) ∧
    1 < (shortcutMaze.preprocess.1.pillar 0).cells.length ∧
    shortcutMaze.preprocess.1.moveOf (0, 1) = ⟨0, 2, 1⟩ ∧
    replay shortcutMaze.initials [shortcutMaze.preprocess.1.moveOf (0, 1)]
      = some shortcutMaze.requireds ∧
    [shortcutMaze.preprocess.1.moveOf (0, 1)].length
      < [some (0, 0), some ((1, 1) : CellRef)].length :=
  ⟨by decide, shortcut_build, shortcut_solve, by decide, by decide, by decide, by decide⟩
theorem diffCount_self : ∀ l : List Nat, diffCount l l = 0
  | [] => rfl
  | a :: l => by simp [diffCount, diffCount_self l]

theorem diffCount_set : ∀ (l l1 : List Nat) (i v : Nat),
    diffCount l l1 ≤ diffCount (l.set i v) l1 + 1
  | [], _, _, _ => by simp [diffCount]
  | a :: l, [], i, v => by cases i <;> simp [diffCount]
  | a :: l, b :: l1, 0, v => by
    simp only [List.set_cons_zero, diffCount]
    split <;> split <;> omega
  | a :: l, b :: l1, i + 1, v => by
    simp only [List.set_cons_succ, diffCount]
    have := diffCount_set l l1 i v
    omega

theorem diffCount_moveCounts (cur req : List Nat) (x : Move) :
    diffCount cur req ≤ diffCount (moveCounts cur x) req + 2 := by
  unfold moveCounts
  have h1 := diffCount_set cur req x.source (cur.getD x.source 0 - x.dist)
  have h2 := diffCount_set (cur.set x.source (cur.getD x.source 0 - x.dist)) req x.target
    (addU ((cur.set x.source (cur.getD x.source 0 - x.dist)).getD x.target 0) x.dist)
  simp only []
  omega

theorem replay_diffCount : ∀ (xs : List Move) (cur req : List Nat),
    replay cur xs = some req → diffCount cur req ≤ 2 * xs.length
  | [], cur, req, h => by
    simp only [replay, Option.some.injEq] at h
    subst h
    simp [diffCount_self]
  | x :: xs, cur, req, h => by
    simp only [replay] at h
    by_cases hx : x.dist ≤ cur.getD x.source 0
    · simp only [hx, if_true] at h
      have h1 := replay_diffCount xs _ _ h
      have h2 := diffCount_moveCounts cur req x
      simp only [List.length_cons]
      omega
    · simp only [hx, if_false] at h
      exact absurd h (by simp)

theorem diffCount_map (l : List Pillar) :
    diffCount (l.map (fun p => p.current)) (l.map (fun p => p.required))
      = l.countP (fun p => decide (p.current ≠ p.required)) := by
  induction l with
  | nil => rfl
  | cons p l ih =>
    simp only [List.map_cons, diffCount, ih, List.countP_cons]
    by_cases h : p.current = p.required
    · simp [h]
    · simp [h]
      omega

theorem Maze.badCount_eq_diffCount (m : Maze) : m.badCount = diffCount m.counts m.requireds :=
  (diffCount_map m.pillars).symm
theorem Playable.head_possible {m : Maze} {p : CellRef} {rest : List CellRef}
    (h : Playable m (p :: rest)) : (m.doMove p).2 = true := by
  rw [Maze.doMove_true_iff]
  refine ⟨h.unbanned p (List.mem_cons_self p rest), ?_⟩
  have hr := h.replayed
  simp only [List.map_cons, replay] at hr
  by_cases hx : (m.moveOf p).dist ≤ m.counts.getD (m.moveOf p).source 0
  · rw [Maze.counts_getD] at hx
    exact hx
  · simp only [hx, if_false] at hr
    exact absurd hr (by simp)

theorem Playable.tail {m : Maze} (hS : Searchable m) {p : CellRef} {rest : List CellRef}
    (h : Playable m (p :: rest)) : Playable (m.doMove p).1 rest := by
  have hd := h.head_possible
  have hp : p.2 < (m.pillar p.1).cells.length := h.valid p (List.mem_cons_self p rest)
  have f := Maze.doMove_frame m p
  have hfw := List.pairwise_cons.mp h.forward
  refine ⟨?_, ?_, ?_, ?_⟩
  · intro q hq
    rw [f.layout.cells_length]
    exact h.valid q (List.mem_cons_of_mem p hq)
  · have hr := h.replayed
    simp only [List.map_cons, replay] at hr
    by_cases hx : (m.moveOf p).dist ≤ m.counts.getD (m.moveOf p).source 0
    · simp only [hx, if_true] at hr
      rw [Maze.doMove_counts m hS p hp hd, f.map_moveOf, f.requireds_eq]
      exact hr
    · simp only [hx, if_false] at hr
      exact absurd hr (by simp)
  · intro q hq
    rw [Maze.doMove_true m p hd, Maze.banStep_cell]
    have hne : ¬ ((m.cell p).reverse = some q ∧
        q.2 < ((m.moveStep (m.cell p)).pillar q.1).cells.length) :=
      fun e => hfw.1 q hq e.1
    rw [if_neg hne, Maze.moveStep_cell]
    exact h.unbanned q (List.mem_cons_of_mem p hq)
  · refine hfw.2.imp ?_
    intro a b hab
    rw [f.rev a]
    exact hab

theorem Playable.deficiency_le {m : Maze} {path : List CellRef} (h : Playable m path) :
    m.badCount ≤ 2 * path.length := by
  rw [Maze.badCount_eq_diffCount]
  have := replay_diffCount _ _ _ h.replayed
  rw [List.length_map] at this
  exact this

theorem Playable.nil_goal {m : Maze} (h : Playable m []) : m.badCount = 0 := by
  have := h.deficiency_le
  simpa using this
theorem cellLoop_complete (rec : Maze → Moves → Option (Maze × Moves × Nat)) (i u K : Nat)
    (hrec : RecSound rec (i + 1) K) (htot : RecTotal rec K) :
    ∀ (js : List Nat) (m : Maze) (mv : Moves),
    Searchable m → Sane m → m.wantedSolution = K → mv.length = K →
    (∀ j ∈ js, j < (m.pillar u).cells.length) →
    ∃ out, cellLoop rec i u js m mv = some out ∧
      ((∃ j0 ∈ js, (m.doMove (u, j0)).2 = true ∧ RecFinds rec K (m.doMove (u, j0)).1) →
        out.2.2 ≠ none) := by
  intro js
  induction js with
  | nil =>
    intro m mv _ _ _ _ _
    exact ⟨_, rfl, fun ⟨j0, hj0, _⟩ => absurd hj0 (List.not_mem_nil j0)⟩
  | cons j js ih =>
    intro m mv hS hs hw hl hjs
    have hj : j < (m.pillar u).cells.length := hjs j (List.mem_cons_self j js)
    have hjs2 : ∀ k ∈ js, k < (m.pillar u).cells.length :=
      fun k hk => hjs k (List.mem_cons_of_mem j hk)
    rw [cellLoop]
    cases hd : (m.doMove (u, j)).2
    · have hm1 := Maze.doMove_false m (u, j) hd
      have hpair : m.doMove (u, j) = (m, false) := Prod.ext hm1 hd
      rw [hpair]
      obtain ⟨out, ho, hf⟩ := ih m mv hS hs hw hl hjs2
      refine ⟨out, ho, ?_⟩
      rintro ⟨j0, hj0, hd0, hfind⟩
      rcases List.mem_cons.mp hj0 with e | hmem
      · subst e
        rw [hd] at hd0
        exact absurd hd0 (by simp)
      · exact hf ⟨j0, hmem, hd0, hfind⟩
    · have hpair : m.doMove (u, j) = ((m.doMove (u, j)).1, true) := Prod.ext rfl hd
      rw [hpair]
      simp only []
      have f1 := Maze.doMove_frame m (u, j)
      have hS1 := hS.of_frame f1
      have hs1 := Maze.doMove_sane m hS hs (u, j) hj
      have hl1 : (mv.set i (some (u, j))).length = K := by rw [List.length_set]; exact hl
      obtain ⟨res, hr⟩ := htot _ _ hS1 hs1 (f1.layout.wanted.trans hw) hl1
      obtain ⟨m2, mv2, r⟩ := res
      rw [hr]
      simp only []
      have hsound := hrec _ _ _ hS1 hs1 (f1.layout.wanted.trans hw) hl1 hr
      by_cases hrc : r = CANNOT_SOLVE
      · have hfail := hsound.1 hrc
        simp only [hrc, ne_eq, not_true_eq_false, if_false]
        have hm2 : m2 = (m.doMove (u, j)).1 := hfail.same
        have hundo : m2.undoMove (u, j) = m := by
          rw [hm2]; exact Maze.undoMove_doMove m hS hs (u, j) hj hd
        rw [hundo]
        have hl2 : mv2.length = K := by rw [hfail.length_eq]; exact hl1
        obtain ⟨out, ho, hf⟩ := ih m mv2 hS hs hw hl2 hjs2
        refine ⟨out, ho, ?_⟩
        rintro ⟨j0, hj0, hd0, hfind⟩
        rcases List.mem_cons.mp hj0 with e | hmem
        · subst e
          exact absurd hrc (hfind _ _ hl1 hr)
        · exact hf ⟨j0, hmem, hd0, hfind⟩
      · simp only [hrc, ne_eq, not_false_eq_true, if_true]
        exact ⟨_, rfl, fun _ => by simp⟩

theorem pillarLoop_complete (rec : Maze → Moves → Option (Maze × Moves × Nat)) (i K : Nat)
    (hrec : RecSound rec (i + 1) K) (htot : RecTotal rec K) (hiK : i < K) :
    ∀ (us : List Nat) (m : Maze) (mv : Moves),
    Searchable m → Sane m → m.wantedSolution = K → mv.length = K → m.nBadPillars ≠ 0 →
    ∃ out, pillarLoop rec i us m mv = some out ∧
      ((∃ u0 ∈ us, ∃ j0, j0 < (m.pillar u0).cells.length ∧ (m.doMove (u0, j0)).2 = true ∧
          RecFinds rec K (m.doMove (u0, j0)).1) → out.2.2 ≠ none) := by
  intro us
  induction us with
  | nil =>
    intro m mv _ _ _ _ _
    exact ⟨_, rfl, fun ⟨u0, hu0, _⟩ => absurd hu0 (List.not_mem_nil u0)⟩
  | cons u us ih =>
    intro m mv hS hs hw hl hbad
    rw [pillarLoop]
    by_cases hc : (m.pillar u).current ≠ 0
    · simp only [hc, ne_eq, not_false_eq_true, if_true]
      obtain ⟨res, hcl, hcf⟩ := cellLoop_complete rec i u K hrec htot
        (List.range (m.pillar u).cells.length) m mv hS hs hw hl (fun j hj => List.mem_range.mp hj)
      have hsound := cellLoop_sound rec i u K hrec hiK _ m mv _ hS hs hw hl hbad
        (fun j hj => List.mem_range.mp hj) hcl
      obtain ⟨m1, mv1, o⟩ := res
      rw [hcl]
      cases o with
      | some r => exact ⟨_, rfl, fun _ => by simp⟩
      | none =>
        simp only []
        have hfail := hsound.1 rfl
        have hm1 : m1 = m := hfail.same
        subst hm1
        obtain ⟨out, ho, hf⟩ := ih m1 mv1 hS hs hw (hfail.length_eq.trans hl) hbad
        refine ⟨out, ho, ?_⟩
        rintro ⟨u0, hu0, j0, hj0, hd0, hfind⟩
        rcases List.mem_cons.mp hu0 with e | hmem
        · subst e
          exact absurd rfl (hcf ⟨j0, List.mem_range.mpr hj0, hd0, hfind⟩)
        · exact hf ⟨u0, hmem, j0, hj0, hd0, hfind⟩
    · simp only [hc, if_false]
      obtain ⟨out, ho, hf⟩ := ih m mv hS hs hw hl hbad
      refine ⟨out, ho, ?_⟩
      rintro ⟨u0, hu0, j0, hj0, hd0, hfind⟩
      rcases List.mem_cons.mp hu0 with e | hmem
      · subst e
        exfalso
        apply hc
        have h1 := ((Maze.doMove_true_iff m (u0, j0)).mp hd0).2
        rw [hS.source_eq u0 j0 hj0] at h1
        have h2 := hS.dist_pos u0 j0 hj0
        omega
      · exact hf ⟨u0, hmem, j0, hj0, hd0, hfind⟩
/-- Termination and completeness of `recurse`: with more fuel than moves are left the call
returns, and below the bound `CANNOT_SOLVE` it does not return `CANNOT_SOLVE` from a state
from which a sequence of moves that fits the remaining depth is playable. -/
theorem recurse_complete : ∀ (fuel K i : Nat), i ≤ K → K < UNSIGNED_MOD → K - i < fuel →
    ∀ (m : Maze) (mv : Moves), Searchable m → Sane m → m.wantedSolution = K → mv.length = K →
    ∃ res, recurse fuel m mv i = some res ∧
      (K < CANNOT_SOLVE → ∀ path, Playable m path → i + path.length ≤ K →
        res.2.2 ≠ CANNOT_SOLVE) := by
  intro fuel
  induction fuel with
  | zero => intro K i _ _ hf; exact absurd hf (Nat.not_lt_zero _)
  | succ fuel ih =>
    intro K i hiK hK hfuel m mv hS hs hw hl
    simp only [recurse]
    by_cases hbad : m.nBadPillars = 0
    · simp only [hbad, if_true]
      refine ⟨_, rfl, fun hC _ _ _ => ?_⟩
      exact Nat.ne_of_lt (Nat.lt_of_le_of_lt hiK hC)
    · simp only [hbad, if_false]
      rw [hw, subU_of_le K i hiK hK]
      by_cases hprune : (K - i) * 2 % UNSIGNED_MOD < m.nBadPillars
      · simp only [hprune, if_true]
        refine ⟨_, rfl, fun hC path hp hlen => ?_⟩
        exfalso
        have h1 := hp.deficiency_le
        rw [← hs.nBad_eq] at h1
        have h2 : (K - i) * 2 % UNSIGNED_MOD = (K - i) * 2 := by
          apply Nat.mod_eq_of_lt
          unfold CANNOT_SOLVE at hC
          unfold UNSIGNED_MOD
          omega
        rw [h2] at hprune
        omega
      · simp only [hprune, if_false]
        have hlt : i < K := by
          by_contra hge
          have : K - i = 0 := by omega
          rw [this] at hprune
          simp only [Nat.zero_mul, Nat.zero_mod] at hprune
          omega
        have hi1 : addU i 1 = i + 1 := by
          unfold addU UNSIGNED_MOD at *
          omega
        rw [hi1]
        have hrec := recurse_sound fuel K (i + 1) (by omega) hK
        have htot : RecTotal (fun m1 mv1 => recurse fuel m1 mv1 (i + 1)) K := by
          intro m1 mv1 hS1 hs1 hw1 hl1
          obtain ⟨res, hr, _⟩ := ih K (i + 1) (by omega) hK (by omega) m1 mv1 hS1 hs1 hw1 hl1
          exact ⟨res, hr⟩
        obtain ⟨out, hpl, hpf⟩ := pillarLoop_complete _ i K hrec htot hlt
          (List.range m.pillars.length) m mv hS hs hw hl hbad
        have hsound := pillarLoop_sound _ i K hrec hlt _ m mv _ hS hs hw hl hbad hpl
        obtain ⟨m1, mv1, o⟩ := out
        rw [hpl]
        cases o with
        | some r =>
          refine ⟨_, rfl, fun _ _ _ _ => ?_⟩
          exact (hsound.2 r rfl).1
        | none =>
          refine ⟨_, rfl, fun hC path hp hlen => ?_⟩
          exfalso
          cases path with
          | nil =>
            exact hbad (hs.nBad_eq.trans hp.nil_goal)
          | cons p rest =>
            have hpv : p.2 < (m.pillar p.1).cells.length :=
              hp.valid p (List.mem_cons_self p rest)
            have f1 := Maze.doMove_frame m p
            refine hpf ⟨p.1, List.mem_range.mpr (hS.source_lt p hpv), p.2, hpv,
              hp.head_possible, ?_⟩ rfl
            intro mv2 res hl2 hr
            obtain ⟨res1, hr1, hfin⟩ := ih K (i + 1) (by omega) hK (by omega)
              (m.doMove p).1 mv2 (hS.of_frame f1) (Maze.doMove_sane m hS hs p hpv)
              (f1.layout.wanted.trans hw) hl2
            have he : res = res1 := Option.some.inj (hr.symm.trans hr1)
            rw [he]
            refine hfin hC rest (hp.tail hS) ?_
            simp only [List.length_cons] at hlen
            omega
theorem prepared_nBans (m : Maze) (hm : Fresh m) (q : CellRef) :
    (m.preprocess.1.cell q).nBans = 0 := by
  by_cases hq : q.2 < (m.preprocess.1.pillar q.1).cells.length
  · have hu : q.1 < m.pillars.length :=
      Nat.lt_of_lt_of_eq (Maze.cells_length_pos_lt _ q.1 q.2 hq) (preprocess_spec m hm).2.1
    obtain ⟨v, _, _, _, _, _, hcell⟩ := prepared_cell m hm q.1 q.2 hu hq
    rw [hcell]
    rfl
  · rw [prepared_cell_of_le m q hq]
    rfl

theorem prepared_reverse (m : Maze) (hm : Fresh m) (a b : CellRef)
    (ha : a.2 < (m.preprocess.1.pillar a.1).cells.length)
    (h : (m.preprocess.1.cell a).reverse = some b) :
    (m.preprocess.1.cell a).isSymmetrical = true ∧
    (m.preprocess.1.cell b).source = (m.preprocess.1.cell a).target ∧
    (m.preprocess.1.cell b).target = (m.preprocess.1.cell a).source := by
  have hu : a.1 < m.pillars.length :=
    Nat.lt_of_lt_of_eq (Maze.cells_length_pos_lt _ a.1 a.2 ha) (preprocess_spec m hm).2.1
  obtain ⟨v, hv, _, _, _, _, hcell⟩ := prepared_cell m hm a.1 a.2 hu ha
  have hcell2 : m.preprocess.1.cell a = { fullCell m.table a.1 v with
      reverse := reverseOf (keptCells m.table m.pillars.length) a.1 (fullCell m.table a.1 v) } :=
    hcell
  rw [hcell2] at h ⊢
  simp only [reverseOf, fullCell] at h ⊢
  by_cases hsym : m.table a.1 v = m.table v a.1
  · simp only [hsym, decide_True, if_true, Option.map_eq_some'] at h
    obtain ⟨k, hk, hb⟩ := h
    obtain ⟨_, hklt, hkt⟩ := findTarget_some a.1 _ 0 k hk
    rw [Nat.sub_zero] at hklt hkt
    have hcells := (preprocess_spec m hm).2.2.2.2.2.2 v hv
    have hkv : k < (m.preprocess.1.pillar v).cells.length := by
      rw [hcells, preparedCells, List.length_map]
      exact hklt
    obtain ⟨w, _, _, _, hget, _, hcellb⟩ := prepared_cell m hm v k hv hkv
    rw [hget] at hkt
    have hw : w = a.1 := hkt
    subst hb
    rw [hcellb]
    simp only [fullCell, hsym, decide_True, hw, and_self]
  · simp [hsym] at h
theorem playable_prepared (m : Maze) (hm : Fresh m) (m2 : Maze)
    (hp2 : m2.pillars = m.preprocess.1.pillars) (path : List CellRef)
    (hvalid : ∀ p ∈ path, p.2 < (m.preprocess.1.pillar p.1).cells.length)
    (hrep : replay m.initials (path.map m.preprocess.1.moveOf) = some m.requireds)
    (hno : NoReversal m.preprocess.1 path) : Playable m2 path := by
  obtain ⟨hcnt, hreq⟩ := preprocess_counts m hm
  have hmo : path.map m2.moveOf = path.map m.preprocess.1.moveOf := by
    apply List.map_congr_left
    intro r _
    simp only [Maze.moveOf, Maze.cell_congr hp2]
  have hc2 : m2.counts = m.initials := by
    rw [← hcnt]; simp only [Maze.counts, hp2]
  have hr2 : m2.requireds = m.requireds := by
    rw [← hreq]; simp only [Maze.requireds, hp2]
  refine ⟨?_, ?_, ?_, ?_⟩
  · intro p hp
    rw [Maze.pillar_congr hp2]
    exact hvalid p hp
  · rw [hc2, hmo, hr2]
    exact hrep
  · intro p _
    rw [Maze.cell_congr hp2]
    exact prepared_nBans m hm p
  · unfold NoReversal at hno
    refine List.Pairwise.imp_of_mem ?_ hno
    intro a b ha _ hab
    rw [Maze.cell_congr hp2]
    intro hrev
    exact hab (prepared_reverse m hm a b (hvalid a ha) hrev)

/-- Termination of `solve`: on a newly built maze the fuel that `solve` hands to `recurse`
suffices, so `solve` produces an exception or a vector. -/
theorem solve_total (m : Maze) (hm : Fresh m) (hn : m.pillars.length < UNSIGNED_MOD)
    (K : Nat) : ∃ out, m.solve K = some out := by
  have hpre : m.preprocess = (m.preprocess.1, none) := by
    have h2 := (preprocess_spec m hm).1
    generalize m.preprocess = pp at h2 ⊢
    obtain ⟨a, b⟩ := pp
    simp only at h2
    rw [h2]
  have hS := preprocess_searchable m hm hn
  have hs := preprocess_sane m hm hn
  have hKW : K % UNSIGNED_MOD < UNSIGNED_MOD := Nat.mod_lt _ (by decide)
  unfold Maze.solve
  cases hcs : m.checkSums with
  | some msg => exact ⟨_, rfl⟩
  | none =>
    rw [hpre]
    simp only []
    generalize hm2 : ({ m.preprocess.1 with wantedSolution := K % UNSIGNED_MOD } : Maze) = m2
    have hp2 : m2.pillars = m.preprocess.1.pillars := by rw [← hm2]
    have hb2 : m2.nBadPillars = m.preprocess.1.nBadPillars := by rw [← hm2]
    have hw2 : m2.wantedSolution = K % UNSIGNED_MOD := by rw [← hm2]
    have hS2 := hS.searchable_of_pillars hp2
    have hs2 := hs.sane_of_pillars hp2 hb2
    have hlen0 : (resizeMoves [] (K % UNSIGNED_MOD)).length = K % UNSIGNED_MOD := by
      simp [resizeMoves]
    obtain ⟨res, hrec, _⟩ := recurse_complete (K % UNSIGNED_MOD + 1) (K % UNSIGNED_MOD) 0
      (Nat.zero_le _) hKW (by omega) m2 _ hS2 hs2 hw2 hlen0
    obtain ⟨m3, r3, nMoves⟩ := res
    rw [hrec]
    simp only []
    by_cases hc : nMoves = CANNOT_SOLVE
    · simp only [hc, if_true]; exact ⟨_, rfl⟩
    · simp only [hc, if_false]; exact ⟨_, rfl⟩

/-- Completeness of `solve` below the bound `CANNOT_SOLVE`: on a newly built maze that
passes the check of the sums and is not solved from the start, a possible sequence of at
most `K` candidate moves that reaches the goal without going back along an earlier
symmetrical move makes `solve(K)` return a non-empty vector. -/
theorem solve_complete (m : Maze) (hm : Fresh m) (hn : m.pillars.length < UNSIGNED_MOD)
    (hcs : m.checkSums = none) (hne : m.initials ≠ m.requireds) (K : Nat)
    (hK : K < CANNOT_SOLVE) (path : List CellRef) (hlen : path.length ≤ K)
    (hvalid : ∀ p ∈ path, p.2 < (m.preprocess.1.pillar p.1).cells.length)
    (hrep : replay m.initials (path.map m.preprocess.1.moveOf) = some m.requireds)
    (hno : NoReversal m.preprocess.1 path) :
    ∃ m1 mv, m.solve K = some (m1, SolveResult.moves mv) ∧ mv ≠ [] := by
  have hpre : m.preprocess = (m.preprocess.1, none) := by
    have h2 := (preprocess_spec m hm).1
    generalize m.preprocess = pp at h2 ⊢
    obtain ⟨a, b⟩ := pp
    simp only at h2
    rw [h2]
  have hS := preprocess_searchable m hm hn
  have hs := preprocess_sane m hm hn
  obtain ⟨hcnt, hreq⟩ := preprocess_counts m hm
  have hKmod : K % UNSIGNED_MOD = K := by
    apply Nat.mod_eq_of_lt
    unfold CANNOT_SOLVE at hK
    unfold UNSIGNED_MOD
    omega
  have hKW : K < UNSIGNED_MOD := by rw [← hKmod]; exact Nat.mod_lt _ (by decide)
  unfold Maze.solve
  rw [hcs, hpre, hKmod]
  simp only []
  generalize hm2 : ({ m.preprocess.1 with wantedSolution := K } : Maze) = m2
  have hp2 : m2.pillars = m.preprocess.1.pillars := by rw [← hm2]
  have hb2 : m2.nBadPillars = m.preprocess.1.nBadPillars := by rw [← hm2]
  have hw2 : m2.wantedSolution = K := by rw [← hm2]
  have hS2 := hS.searchable_of_pillars hp2
  have hs2 := hs.sane_of_pillars hp2 hb2
  have hlen0 : (resizeMoves [] K).length = K := by simp [resizeMoves]
  have hplay := playable_prepared m hm m2 hp2 path hvalid hrep hno
  obtain ⟨res, hrec, hfin⟩ := recurse_complete (K + 1) K 0 (Nat.zero_le _) hKW (by omega)
    m2 _ hS2 hs2 hw2 hlen0
  have hnc := hfin hK path hplay (by omega)
  have hsound := recurse_sound (K + 1) K 0 (Nat.zero_le _) hKW m2 _ _ hS2 hs2 hw2 hlen0 hrec
  obtain ⟨m3, r3, nMoves⟩ := res
  rw [hrec]
  simp only [] at hnc hsound ⊢
  simp only [hnc, if_false]
  refine ⟨_, _, rfl, ?_⟩
  obtain ⟨path1, hp1⟩ := hsound.2 hnc
  have hdepth : nMoves = path1.length := by
    have := hp1.depth
    simpa using this
  have hc2 : m2.counts = m.initials := by
    rw [← hcnt]; simp only [Maze.counts, hp2]
  have hr2 : m2.requireds = m.requireds := by
    rw [← hreq]; simp only [Maze.requireds, hp2]
  have hpos : path1 ≠ [] := by
    intro e
    have h1 := hp1.replayed
    rw [e] at h1
    simp only [List.map_nil, replay, Option.some.injEq] at h1
    apply hne
    rw [← hc2, ← hr2, h1]
    exact hp1.goal
  have hbound : path1.length ≤ K := by
    rw [← hdepth, ← hw2]; exact hp1.bound
  have hmv : resizeMoves r3 nMoves = path1.map some := by
    rw [hdepth]
    apply take_eq_map_some
    · rw [hp1.length_eq, hlen0]; exact hbound
    · intro k hk
      have := hp1.written k hk
      rwa [Nat.zero_add] at this
  rw [hmv]
  intro e
  exact hpos (List.map_eq_nil_iff.mp e)
theorem catalyst_build : build catalystOps = some catalystMaze := by decide

theorem catalyst_checkSums : catalystMaze.checkSums = none := by decide

set_option maxRecDepth 100000 in
theorem catalyst_solve : (catalystMaze.solve 4).map Prod.snd = some (SolveResult.moves []) := by
  decide!

set_option maxRecDepth 100000 in
theorem catalyst_path :
    (∀ p ∈ [((1 : Nat), (0 : Nat)), (0, 5), (6, 0), (0, 0)],
      p.2 < (catalystMaze.preprocess.1.pillar p.1).cells.length) ∧
    [((1 : Nat), (0 : Nat)), (0, 5), (6, 0), (0, 0)].map catalystMaze.preprocess.1.moveOf
      = [⟨1, 0, 1⟩, ⟨0, 6, 5⟩, ⟨6, 0, 1⟩, ⟨0, 1, 1⟩] := by
  decide!

theorem catalyst_replay :
    replay catalystMaze.initials [⟨1, 0, 1⟩, ⟨0, 6, 5⟩, ⟨6, 0, 1⟩, ⟨0, 1, 1⟩]
      = some catalystMaze.requireds := by decide

theorem idle_build : build idleOps = some idleMaze := by decide

theorem idle_solve : (idleMaze.solve 2).map Prod.snd = some (SolveResult.moves []) := by decide

theorem idle_path :
    (∀ p ∈ [((0 : Nat), (0 : Nat)), (1, 0)],
      p.2 < (idleMaze.preprocess.1.pillar p.1).cells.length) ∧
    replay idleMaze.initials ([((0 : Nat), (0 : Nat)), (1, 0)].map idleMaze.preprocess.1.moveOf)
      = some idleMaze.requireds := by decide

theorem demo_unsolved : (demoMaze.solve 1).map Prod.snd = some (SolveResult.moves []) := by
  decide
/-- C3, as stated, fails: the maze `catalystMaze`, whose pillars are all added before its
links, passes the check of the sums and is not solved from the start, the four candidate moves 1 → 0 (one token), 0 → 6 (five tokens),
6 → 0 (one token), 0 → 1 (one token) are possible in turn and bring every pillar to its
required count, and yet `solve(4)` returns the empty vector: the last move goes back along
the first one and is banned. -/
theorem solve_complete_counterexample :
    PillarsFirst catalystOps ∧ build catalystOps = some catalystMaze ∧
    catalystMaze.checkSums = none ∧
    catalystMaze.initials ≠ catalystMaze.requireds ∧
    (∃ path : List CellRef, path.length ≤ 4 ∧
      (∀ p ∈ path, p.2 < (catalystMaze.preprocess.1.pillar p.1).cells.length) ∧
      replay catalystMaze.initials (path.map catalystMaze.preprocess.1.moveOf)
        = some catalystMaze.requireds) ∧
    (catalystMaze.solve 4).map Prod.snd = some (SolveResult.moves []) :=
  ⟨by decide, catalyst_build, catalyst_checkSums, by decide,
    ⟨[(1, 0), (0, 5), (6, 0), (0, 0)], by decide, catalyst_path.1,
      by rw [catalyst_path.2]; exact catalyst_replay⟩,
    catalyst_solve⟩

/-- C3, amended.  On a newly built maze (all pillars added before the first link, fewer than
2^32 of them) that passes the check of the sums and has a pillar whose initial count differs from its required count, and for
`K < 10000`: if there is a sequence of at most `K` candidate moves that are possible in turn
from the initial counts, bring every pillar to its required count, and never go back along
an earlier symmetrical move of the sequence, then `solve(K)` returns a non-empty vector. -/
theorem solve_complete_forward (ops : List BuildOp) (m : Maze) (_hpf : PillarsFirst ops)
    (hb : build ops = some m) (hn : m.pillars.length < UNSIGNED_MOD) (hcs : m.checkSums = none)
    (hne : m.initials ≠ m.requireds) (K : Nat) (hK : K < 10000) (path : List CellRef)
    (hlen : path.length ≤ K)
    (hvalid : ∀ p ∈ path, p.2 < (m.preprocess.1.pillar p.1).cells.length)
    (hrep : replay m.initials (path.map m.preprocess.1.moveOf) = some m.requireds)
    (hno : NoReversal m.preprocess.1 path) :
    ∃ mv, (m.solve K).map Prod.snd = some (SolveResult.moves mv) ∧ mv ≠ [] := by
  have hm := fresh_build ops m hb
  obtain ⟨m1, mv, h, hmv⟩ := solve_complete m hm hn hcs hne K hK path hlen hvalid hrep hno
  exact ⟨mv, by rw [h]; rfl, hmv⟩

/-- C3, amended, at the maze `demoMaze` with `K = 3` and the moves 0 → 1, 1 → 2. -/
theorem solve_complete_forward_witness :
    PillarsFirst demoOps ∧ build demoOps = some demoMaze ∧
    demoMaze.pillars.length < UNSIGNED_MOD ∧
    demoMaze.checkSums = none ∧ demoMaze.initials ≠ demoMaze.requireds ∧
    [((0 : Nat), (0 : Nat)), (1, 1)].length ≤ 3 ∧
    (∀ p ∈ [((0 : Nat), (0 : Nat)), (1, 1)],
      p.2 < (demoMaze.preprocess.1.pillar p.1).cells.length) ∧
    replay demoMaze.initials ([((0 : Nat), (0 : Nat)), (1, 1)].map demoMaze.preprocess.1.moveOf)
      = some demoMaze.requireds ∧
    NoReversal demoMaze.preprocess.1 [(0, 0), (1, 1)] ∧
    ∃ mv, (demoMaze.solve 3).map Prod.snd = some (SolveResult.moves mv) ∧ mv ≠ [] :=
  ⟨by decide, demo_build, by decide, by decide, by decide, by decide, by decide, by decide,
    by decide,
    solve_complete_forward demoOps demoMaze (by decide) demo_build (by decide) (by decide)
      (by decide) 3
      (by decide) [(0, 0), (1, 1)] (by decide) (by decide) (by decide) (by decide)⟩

/-- C7, as stated, fails (both mazes have all pillars added before the links).  On the maze
`catalystMaze`, which passes the check of the sums,
`solve(4)` returns the empty vector although exactly four candidate moves, possible in turn,
bring every pillar to its required count.  On the maze `idleMaze`, which is solved from the
start, `solve(2)` returns the empty vector although the two candidate moves 0 → 1, 1 → 0 do
the same. -/
theorem solve_empty_counterexample :
    (PillarsFirst catalystOps ∧ build catalystOps = some catalystMaze ∧
      catalystMaze.checkSums = none ∧
      (catalystMaze.solve 4).map Prod.snd = some (SolveResult.moves []) ∧
      ∃ path : List CellRef, path.length = 4 ∧
        (∀ p ∈ path, p.2 < (catalystMaze.preprocess.1.pillar p.1).cells.length) ∧
        replay catalystMaze.initials (path.map catalystMaze.preprocess.1.moveOf)
          = some catalystMaze.requireds) ∧
    (PillarsFirst idleOps ∧ build idleOps = some idleMaze ∧ idleMaze.checkSums = none ∧
      (idleMaze.solve 2).map Prod.snd = some (SolveResult.moves []) ∧
      ∃ path : List CellRef, path.length = 2 ∧
        (∀ p ∈ path, p.2 < (idleMaze.preprocess.1.pillar p.1).cells.length) ∧
        replay idleMaze.initials (path.map idleMaze.preprocess.1.moveOf)
          = some idleMaze.requireds) :=
  ⟨⟨by decide, catalyst_build, catalyst_checkSums, catalyst_solve,
      [(1, 0), (0, 5), (6, 0), (0, 0)], rfl, catalyst_path.1,
      by rw [catalyst_path.2]; exact catalyst_replay⟩,
    ⟨by decide, idle_build, by decide, idle_solve, [(0, 0), (1, 0)], rfl, idle_path.1,
      idle_path.2⟩⟩

/-- C7, amended.  On a newly built maze (all pillars added before the first link, fewer than
2^32 of them) that has a pillar
whose initial count differs from its required count, and for `K < 10000`: if `solve(K)`
returns the empty vector, then no sequence of at most `K` candidate moves that never goes
back along an earlier symmetrical move of the sequence is possible in turn from the initial
counts and brings every pillar to its required count. -/
theorem solve_empty_meaning (ops : List BuildOp) (m : Maze) (_hpf : PillarsFirst ops)
    (hb : build ops = some m) (hn : m.pillars.length < UNSIGNED_MOD) (hne : m.initials ≠ m.requireds) (K : Nat)
    (hK : K < 10000) (h : (m.solve K).map Prod.snd = some (SolveResult.moves [])) :
    ¬ ∃ path : List CellRef, path.length ≤ K ∧
      (∀ p ∈ path, p.2 < (m.preprocess.1.pillar p.1).cells.length) ∧
      replay m.initials (path.map m.preprocess.1.moveOf) = some m.requireds ∧
      NoReversal m.preprocess.1 path := by
  rintro ⟨path, hlen, hvalid, hrep, hno⟩
  have hm := fresh_build ops m hb
  have hcs : m.checkSums = none := by
    cases hc : m.checkSums with
    | none => rfl
    | some msg =>
      unfold Maze.solve at h
      rw [hc] at h
      simp at h
  obtain ⟨m1, mv, h1, hmv⟩ := solve_complete m hm hn hcs hne K hK path hlen hvalid hrep hno
  rw [h1] at h
  simp only [Option.map_some', Option.some.injEq, SolveResult.moves.injEq] at h
  exact hmv h

/-- C7, amended, at the maze `demoMaze` with `K = 1`. -/
theorem solve_empty_meaning_witness :
    PillarsFirst demoOps ∧ build demoOps = some demoMaze ∧
    demoMaze.pillars.length < UNSIGNED_MOD ∧
    demoMaze.initials ≠ demoMaze.requireds ∧
    (demoMaze.solve 1).map Prod.snd = some (SolveResult.moves []) ∧
    ¬ ∃ path : List CellRef, path.length ≤ 1 ∧
      (∀ p ∈ path, p.2 < (demoMaze.preprocess.1.pillar p.1).cells.length) ∧
      replay demoMaze.initials (path.map demoMaze.preprocess.1.moveOf)
        = some demoMaze.requireds ∧
      NoReversal demoMaze.preprocess.1 path :=
  ⟨by decide, demo_build, by decide, by decide, demo_unsolved,
    solve_empty_meaning demoOps demoMaze (by decide) demo_build (by decide) (by decide) 1
      (by decide)
      demo_unsolved⟩

/-- C8, amended.  On a newly built maze (all pillars added before the first link, fewer than
2^32 of them) and for `K < 10000`: a non-empty sequence of `L` moves returned by `solve(K)`
brings every pillar to its required count and no shorter initial part of it does; and if
`solve(L - 1)` returns the empty vector, then no sequence of fewer than `L` candidate moves
that never goes back along an earlier symmetrical move of the sequence is possible in turn
from the initial counts and brings every pillar to its required count. -/
theorem solve_minimal_conditional (ops : List BuildOp) (m : Maze) (_hpf : PillarsFirst ops)
    (hb : build ops = some m) (hn : m.pillars.length < UNSIGNED_MOD) (K : Nat)
    (hK : K < 10000) (mv : Moves)
    (h : (m.solve K).map Prod.snd = some (SolveResult.moves mv)) (hne : mv ≠ [])
    (hprev : (m.solve (mv.length - 1)).map Prod.snd = some (SolveResult.moves [])) :
    ∃ path : List CellRef, mv = path.map some ∧
      replay m.initials (path.map m.preprocess.1.moveOf) = some m.requireds ∧
      (∀ k, k < path.length →
        replay m.initials ((path.take k).map m.preprocess.1.moveOf) ≠ some m.requireds) ∧
      ∀ other : List CellRef, other.length < mv.length →
        (∀ p ∈ other, p.2 < (m.preprocess.1.pillar p.1).cells.length) →
        NoReversal m.preprocess.1 other →
        replay m.initials (other.map m.preprocess.1.moveOf) ≠ some m.requireds := by
  have hm := fresh_build ops m hb
  obtain ⟨m1, h1⟩ := solve_of_map h
  obtain ⟨path, hmv, hlen, _, hrep, hearly⟩ := solve_sound m hm hn K m1 mv h1 hne
  refine ⟨path, hmv, hrep, hearly, ?_⟩
  intro other hlt hvalid hno hrep2
  have hpos : 0 < path.length := by
    cases path with
    | nil => exact absurd hmv hne
    | cons p rest => exact Nat.succ_pos _
  have hne2 : m.initials ≠ m.requireds := by
    intro e
    have := hearly 0 hpos
    simp only [List.take_zero, List.map_nil, replay] at this
    exact this (by rw [e])
  have hcs : m.checkSums = none := by
    cases hc : m.checkSums with
    | none => rfl
    | some msg =>
      unfold Maze.solve at h1
      rw [hc] at h1
      simp at h1
  have hL : mv.length ≤ K := by
    rw [hmv, List.length_map]
    exact Nat.le_trans hlen (Nat.mod_le _ _)
  have hK1 : mv.length - 1 < CANNOT_SOLVE := by
    unfold CANNOT_SOLVE
    omega
  obtain ⟨m2, mv2, h2, hmv2⟩ := solve_complete m hm hn hcs hne2 (mv.length - 1) hK1 other
    (by omega) hvalid hrep2 hno
  rw [h2] at hprev
  simp only [Option.map_some', Option.some.injEq, SolveResult.moves.injEq] at hprev
  exact hmv2 hprev

/-- C8, amended, at the maze `demoMaze` with `K = 3`: `solve(3)` returns two moves and
`solve(1)` returns the empty vector. -/
theorem solve_minimal_conditional_witness :
    PillarsFirst demoOps ∧ build demoOps = some demoMaze ∧
    demoMaze.pillars.length < UNSIGNED_MOD ∧
    (demoMaze.solve 3).map Prod.snd = some (SolveResult.moves [some (0, 0), some (1, 1)]) ∧
    (demoMaze.solve ([some (0, 0), some ((1, 1) : CellRef)].length - 1)).map Prod.snd
      = some (SolveResult.moves []) ∧
    ∃ path : List CellRef, [some (0, 0), some (1, 1)] = path.map some ∧
      replay demoMaze.initials (path.map demoMaze.preprocess.1.moveOf)
        = some demoMaze.requireds ∧
      (∀ k, k < path.length →
        replay demoMaze.initials ((path.take k).map demoMaze.preprocess.1.moveOf)
          ≠ some demoMaze.requireds) ∧
      ∀ other : List CellRef, other.length < [some (0, 0), some ((1, 1) : CellRef)].length →
        (∀ p ∈ other, p.2 < (demoMaze.preprocess.1.pillar p.1).cells.length) →
        NoReversal demoMaze.preprocess.1 other →
        replay demoMaze.initials (other.map demoMaze.preprocess.1.moveOf)
          ≠ some demoMaze.requireds :=
  ⟨by decide, demo_build, by decide, demo_solve, demo_unsolved,
    solve_minimal_conditional demoOps demoMaze (by decide) demo_build (by decide) 3 (by decide)
      _ demo_solve (by decide) demo_unsolved⟩
theorem resizeMoves_length (r : Moves) (n : Nat) : (resizeMoves r n).length = n := by
  simp only [resizeMoves, List.length_append, List.length_take, List.length_replicate]
  omega

/-- The vector that `solve` returns never has `CANNOT_SOLVE` entries: a depth equal to that
value is taken for the report of a failure. -/
theorem solve_length_ne (m : Maze) (K : Nat) (m1 : Maze) (mv : Moves)
    (h : m.solve K = some (m1, SolveResult.moves mv)) : mv.length ≠ CANNOT_SOLVE := by
  unfold Maze.solve at h
  cases hcs : m.checkSums with
  | some msg => rw [hcs] at h; simp at h
  | none =>
    rw [hcs] at h
    simp only [] at h
    generalize m.preprocess = pp at h
    obtain ⟨mp, e⟩ := pp
    cases e with
    | some msg => simp at h
    | none =>
      simp only [] at h
      generalize recurse _ _ _ _ = rr at h
      cases rr with
      | none => simp at h
      | some res =>
        obtain ⟨m3, r3, nMoves⟩ := res
        simp only [] at h
        by_cases hc : nMoves = CANNOT_SOLVE
        · simp only [hc, if_true, Option.some.injEq, Prod.mk.injEq, SolveResult.moves.injEq] at h
          rw [← h.2]
          decide
        · simp only [hc, if_false, Option.some.injEq, Prod.mk.injEq,
            SolveResult.moves.injEq] at h
          rw [← h.2, resizeMoves_length]
          exact hc

/-- On a newly built maze that passes the check of the sums `solve` returns a vector. -/
theorem solve_returns (m : Maze) (hm : Fresh m) (hn : m.pillars.length < UNSIGNED_MOD)
    (hcs : m.checkSums = none) (K : Nat) :
    ∃ m1 mv, m.solve K = some (m1, SolveResult.moves mv) := by
  obtain ⟨out, ho⟩ := solve_total m hm hn K
  obtain ⟨m1, res⟩ := out
  cases res with
  | moves mv => exact ⟨m1, mv, ho⟩
  | threw msg =>
    exfalso
    have hpre := (preprocess_spec m hm).1
    unfold Maze.solve at ho
    rw [hcs] at ho
    simp only [] at ho
    generalize m.preprocess = pp at ho hpre
    obtain ⟨mp, e⟩ := pp
    simp only [] at hpre
    subst hpre
    simp only [] at ho
    generalize recurse _ _ _ _ = rr at ho
    cases rr with
    | none => simp at ho
    | some r3 =>
      obtain ⟨m3, r3, nMoves⟩ := r3
      simp only [] at ho
      by_cases hc : nMoves = CANNOT_SOLVE
      · simp [hc] at ho
      · simp [hc] at ho

theorem long_build : build longOps = some longMaze := by decide

theorem long_prepared : longMaze.preprocess.1.pillars =
    [{ index := 0, initial := 10000, required := 0, adjacent := [1], current := 10000,
       cells := [{ source := 0, target := 1, dist := 1 }] },
     { index := 1, initial := 0, required := 10000, adjacent := [], current := 0,
       cells := [] }] := by decide

theorem long_valid (p : CellRef)
    (h : p.2 < (longMaze.preprocess.1.pillar p.1).cells.length) : p = (0, 0) := by
  obtain ⟨u, j⟩ := p
  simp only [Maze.pillar, long_prepared] at h
  match u, h with
  | 0, h =>
    simp at h
    rw [h]
  | 1, h => simp at h
  | u + 2, h =>
    simp only [List.getD_cons_succ, List.getD_nil] at h
    exact absurd h (Nat.not_lt_zero _)

theorem long_moveOf : longMaze.preprocess.1.moveOf (0, 0) = ⟨0, 1, 1⟩ := by decide

theorem replay_long : ∀ (L a b : Nat), a + b = 10000 →
    (replay [a, b] (List.replicate L ⟨0, 1, 1⟩) = some [0, 10000] ↔ L = a) := by
  intro L
  induction L with
  | zero =>
    intro a b hab
    simp only [List.replicate_zero, replay, Option.some.injEq, List.cons.injEq, and_true]
    omega
  | succ L ih =>
    intro a b hab
    simp only [List.replicate_succ, replay, List.getD_cons_zero]
    by_cases ha : 1 ≤ a
    · have hb : addU b 1 = b + 1 := by
        unfold addU UNSIGNED_MOD
        omega
      simp only [ha, if_true, moveCounts, List.set_cons_zero, List.getD_cons_zero,
        List.set_cons_succ, List.getD_cons_succ, hb]
      rw [ih (a - 1) (b + 1) (by omega)]
      omega
    · simp only [ha, if_false]
      constructor
      · intro h; exact absurd h (by simp)
      · intro h; omega
theorem long_moves (path : List CellRef)
    (hv : ∀ p ∈ path, p.2 < (longMaze.preprocess.1.pillar p.1).cells.length) :
    path.map longMaze.preprocess.1.moveOf = List.replicate path.length ⟨0, 1, 1⟩ := by
  induction path with
  | nil => rfl
  | cons p rest ih =>
    have hp := long_valid p (hv p (List.mem_cons_self p rest))
    rw [List.map_cons, ih (fun q hq => hv q (List.mem_cons_of_mem p hq)), hp, long_moveOf]
    rfl

/-- The value `CANNOT_SOLVE` is also a depth.  On the maze `longMaze`, whose only solution
has 10000 moves, `solve(10000)` returns the empty vector: the call of `recurse` at depth
10000 finds every pillar at its required count and returns 10000, which its caller takes for
`CANNOT_SOLVE`.  The 10000 moves from pillar 0 to pillar 1 are possible in turn, reach the
goal and never go back along an earlier move. -/
theorem solve_sentinel_collision :
    PillarsFirst longOps ∧ build longOps = some longMaze ∧ longMaze.checkSums = none ∧
    longMaze.initials ≠ longMaze.requireds ∧
    (longMaze.solve 10000).map Prod.snd = some (SolveResult.moves []) ∧
    ∃ path : List CellRef, path.length = 10000 ∧
      (∀ p ∈ path, p.2 < (longMaze.preprocess.1.pillar p.1).cells.length) ∧
      replay longMaze.initials (path.map longMaze.preprocess.1.moveOf)
        = some longMaze.requireds ∧
      NoReversal longMaze.preprocess.1 path := by
  have hm := fresh_build longOps longMaze long_build
  have hn : longMaze.pillars.length < UNSIGNED_MOD := by decide
  have hcs : longMaze.checkSums = none := by decide
  have hvalid : ∀ p ∈ List.replicate 10000 ((0 : Nat), (0 : Nat)),
      p.2 < (longMaze.preprocess.1.pillar p.1).cells.length := by
    intro p hp
    rw [List.eq_of_mem_replicate hp]
    decide
  refine ⟨by decide, long_build, hcs, by decide, ?_, List.replicate 10000 (0, 0),
    List.length_replicate _ _, hvalid, ?_, ?_⟩
  · obtain ⟨m1, mv, h⟩ := solve_returns longMaze hm hn hcs 10000
    rw [h]
    simp only [Option.map_some', Option.some.injEq, SolveResult.moves.injEq]
    by_contra hne
    obtain ⟨path, hmv, hlen, hv, hrep, _⟩ := solve_sound longMaze hm hn 10000 m1 mv h hne
    have hl := solve_length_ne longMaze 10000 m1 mv h
    rw [long_moves path hv] at hrep
    have h1 := (replay_long path.length 10000 0 rfl).mp hrep
    rw [hmv, List.length_map, h1] at hl
    exact hl rfl
  · rw [long_moves _ hvalid, List.length_replicate]
    exact (replay_long 10000 10000 0 rfl).mpr rfl
  · unfold NoReversal
    refine List.pairwise_replicate.mpr (Or.inr ?_)
    decide
theorem Maze.play_cons (m : Maze) (x : CellRef) (xs : List CellRef) (m1 : Maze)
    (h : m.play (x :: xs) = some m1) :
    x.2 < (m.pillar x.1).cells.length ∧ (m.doMove x).2 = true ∧
      (m.doMove x).1.play xs = some m1 := by
  rw [Maze.play] at h
  by_cases hx : x.2 < (m.pillar x.1).cells.length
  · simp only [hx, if_true] at h
    cases hd : (m.doMove x).2
    · have hpair : m.doMove x = ((m.doMove x).1, false) := Prod.ext rfl hd
      rw [hpair] at h
      exact absurd h (by simp)
    · have hpair : m.doMove x = ((m.doMove x).1, true) := Prod.ext rfl hd
      rw [hpair] at h
      exact ⟨hx, rfl, h⟩
  · simp only [hx, if_false] at h
    exact absurd h (by simp)

theorem Maze.play_of_cons (m : Maze) (x : CellRef) (xs : List CellRef)
    (hx : x.2 < (m.pillar x.1).cells.length) (hd : (m.doMove x).2 = true) :
    m.play (x :: xs) = (m.doMove x).1.play xs := by
  rw [Maze.play]
  have hpair : m.doMove x = ((m.doMove x).1, true) := Prod.ext rfl hd
  simp only [hx, if_true]
  rw [hpair]

theorem Maze.play_append (path : List CellRef) : ∀ (m m1 : Maze) (ys : List CellRef),
    m.play path = some m1 → m.play (path ++ ys) = m1.play ys := by
  induction path with
  | nil =>
    intro m m1 ys h
    simp only [Maze.play, Option.some.injEq] at h
    subst h
    rfl
  | cons x xs ih =>
    intro m m1 ys h
    obtain ⟨hx, hd, h1⟩ := Maze.play_cons m x xs m1 h
    rw [List.cons_append, Maze.play_of_cons m x _ hx hd]
    exact ih _ _ ys h1

/-- Along a sequence of moves the properties that the search relies on are kept, and only
counts and ban counters change. -/
theorem Maze.play_invariant (path : List CellRef) : ∀ (m m1 : Maze),
    Searchable m → Sane m → m.play path = some m1 →
    Searchable m1 ∧ Sane m1 ∧ SearchFrame m m1 := by
  induction path with
  | nil =>
    intro m m1 hS hs h
    simp only [Maze.play, Option.some.injEq] at h
    subst h
    exact ⟨hS, hs, SearchFrame.reflF m⟩
  | cons x xs ih =>
    intro m m1 hS hs h
    obtain ⟨hx, hd, h1⟩ := Maze.play_cons m x xs m1 h
    have f1 := Maze.doMove_frame m x
    obtain ⟨hS1, hs1, f2⟩ := ih _ m1 (hS.of_frame f1) (Maze.doMove_sane m hS hs x hx) h1
    exact ⟨hS1, hs1, f1.transF f2⟩

theorem SearchState.start (ops : List BuildOp) (m0 : Maze) (hb : build ops = some m0)
    (hn : m0.pillars.length < UNSIGNED_MOD) (K : Nat) :
    Searchable ({ m0.preprocess.1 with wantedSolution := K } : Maze) ∧
    Sane ({ m0.preprocess.1 with wantedSolution := K } : Maze) := by
  have hm := fresh_build ops m0 hb
  have hS := preprocess_searchable m0 hm hn
  have hs := preprocess_sane m0 hm hn
  generalize m0.preprocess.1 = mp at hS hs ⊢
  exact ⟨hS.searchable_of_pillars rfl, hs.sane_of_pillars rfl rfl⟩

theorem SearchState.invariant {m : Maze} {path : List CellRef} (h : SearchState m path) :
    Searchable m ∧ Sane m := by
  obtain ⟨ops, m0, _, hb, hn, _, _, hp⟩ := h
  obtain ⟨hS0, hs0⟩ := SearchState.start ops m0 hb hn m.wantedSolution
  obtain ⟨hS, hs, _⟩ := Maze.play_invariant path _ m hS0 hs0 hp
  exact ⟨hS, hs⟩

theorem demo_state : SearchState demoState [] :=
  ⟨demoOps, demoMaze, by decide, demo_build, by decide, by decide, by decide, rfl⟩
/-- C11. Apply-then-undo is the identity.  In every state of a search, if `doMove` of a
candidate cell returns true, then `undoMove` of the same cell right afterwards gives back
the maze object as it was before `doMove`: every count, the deficiency counter and every ban
counter. -/
theorem undo_after_do (m : Maze) (path : List CellRef) (hst : SearchState m path)
    (x : CellRef) (hx : x.2 < (m.pillar x.1).cells.length) (hd : (m.doMove x).2 = true) :
    (m.doMove x).1.undoMove x = m ∧
    (∀ u, (((m.doMove x).1.undoMove x).pillar u).current = (m.pillar u).current) ∧
    ((m.doMove x).1.undoMove x).nBadPillars = m.nBadPillars ∧
    (∀ q, (((m.doMove x).1.undoMove x).cell q).nBans = (m.cell q).nBans) := by
  obtain ⟨hS, hs⟩ := hst.invariant
  have h := Maze.undoMove_doMove m hS hs x hx hd
  rw [h]
  exact ⟨rfl, fun _ => rfl, rfl, fun _ => rfl⟩

/-- C11 at the state `demoState` and its cell from pillar 0 to pillar 1. -/
theorem undo_after_do_witness :
    SearchState demoState [] ∧ 0 < (demoState.pillar 0).cells.length ∧
    (demoState.doMove (0, 0)).2 = true ∧
    (demoState.doMove (0, 0)).1 ≠ demoState ∧
    (demoState.doMove (0, 0)).1.undoMove (0, 0) = demoState :=
  ⟨demo_state, by decide, by decide, by decide,
    (undo_after_do demoState [] demo_state (0, 0) (by decide) (by decide)).1⟩

theorem demo_stuck : SearchState demoStuck [] :=
  ⟨demoOps, demoMaze, by decide, demo_build, by decide, by decide, by decide, rfl⟩

/-- C16. A failed subtree leaves the search context untouched.  In every state of a search
with `wantedSolution = K`, for every depth `iMove ≤ K` and every vector of `K` entries, the
call `recurse(moves, iMove)` returns, and if it returns `CANNOT_SOLVE` the maze object is
on return what it was at the entry: every count, the deficiency counter and every ban
counter. -/
theorem recurse_failure_restores (m : Maze) (path : List CellRef) (hst : SearchState m path)
    (iMove : Nat) (hi : iMove ≤ m.wantedSolution) (mv : Moves)
    (hl : mv.length = m.wantedSolution) :
    (∃ res, recurse (m.wantedSolution - iMove + 1) m mv iMove = some res) ∧
    ∀ fuel res, recurse fuel m mv iMove = some res → res.2.2 = CANNOT_SOLVE →
      res.1 = m ∧
      (∀ u, (res.1.pillar u).current = (m.pillar u).current) ∧
      res.1.nBadPillars = m.nBadPillars ∧
      (∀ q, (res.1.cell q).nBans = (m.cell q).nBans) := by
  obtain ⟨hS, hs⟩ := hst.invariant
  have hK : m.wantedSolution < UNSIGNED_MOD := by
    obtain ⟨_, _, _, _, _, hK, _, _⟩ := hst
    exact hK
  constructor
  · obtain ⟨res, hr, _⟩ := recurse_complete (m.wantedSolution - iMove + 1) m.wantedSolution
      iMove hi hK (by omega) m mv hS hs rfl hl
    exact ⟨res, hr⟩
  · intro fuel res hr hc
    have hf := (recurse_sound fuel m.wantedSolution iMove hi hK m mv res hS hs rfl hl hr).1 hc
    have hsame : res.1 = m := hf.same
    rw [hsame]
    exact ⟨rfl, fun _ => rfl, rfl, fun _ => rfl⟩

/-- C16 at the state `demoStuck`: `recurse(moves, 0)` tries the only possible move and
returns `CANNOT_SOLVE`. -/
theorem recurse_failure_restores_witness :
    SearchState demoStuck [] ∧ 0 ≤ demoStuck.wantedSolution ∧
    ([none] : Moves).length = demoStuck.wantedSolution ∧
    (recurse 2 demoStuck [none] 0).map (fun r => r.2.2) = some CANNOT_SOLVE ∧
    ((∃ res, recurse (demoStuck.wantedSolution - 0 + 1) demoStuck [none] 0 = some res) ∧
      ∀ fuel res, recurse fuel demoStuck [none] 0 = some res → res.2.2 = CANNOT_SOLVE →
        res.1 = demoStuck ∧
        (∀ u, (res.1.pillar u).current = (demoStuck.pillar u).current) ∧
        res.1.nBadPillars = demoStuck.nBadPillars ∧
        (∀ q, (res.1.cell q).nBans = (demoStuck.cell q).nBans)) :=
  ⟨demo_stuck, by decide, by decide, by decide,
    recurse_failure_restores demoStuck [] demo_stuck 0 (by decide) [none] (by decide)⟩
theorem Maze.doMove_badCount (m : Maze) (x : CellRef) (hn : m.pillars.length < UNSIGNED_MOD)
    (hs : (m.cell x).source < m.pillars.length) (ht : (m.cell x).target < m.pillars.length)
    (hb : m.nBadPillars = m.badCount) :
    (m.doMove x).1.nBadPillars = (m.doMove x).1.badCount := by
  cases hd : (m.doMove x).2
  · rw [Maze.doMove_false m x hd]
    exact hb
  · rw [Maze.doMove_true m x hd, Maze.banStep_nBad, Maze.banStep_badCount]
    exact Maze.moveStep_badCount m (m.cell x) hs ht hn hb

theorem Maze.undoMove_badCount (m : Maze) (x : CellRef) (hn : m.pillars.length < UNSIGNED_MOD)
    (hs : (m.cell x).source < m.pillars.length) (ht : (m.cell x).target < m.pillars.length)
    (hb : m.nBadPillars = m.badCount) :
    (m.undoMove x).nBadPillars = (m.undoMove x).badCount := by
  rw [Maze.undoMove_eq, Maze.banStep_nBad, Maze.banStep_badCount]
  exact Maze.unmoveStep_badCount m (m.cell x) hs ht hn hb

/-- C14. Deficiency-counter invariant.  After `preprocess` of a newly built maze (all pillars
added before the first link, fewer than 2^32 of them) every pillar holds its initial count and `nBadPillars` is the number of
pillars whose count differs from the required one.  In any maze with fewer than 2^32 pillars
in which `nBadPillars` is that number, it still is after `doMove` and after `undoMove` of a
cell whose source and target are pillars of the maze.  Hence in every state of a search
`nBadPillars == 0` holds exactly when every pillar is at its required count. -/
theorem deficiency_counter (ops : List BuildOp) (m0 : Maze) (_hpf : PillarsFirst ops)
    (hb : build ops = some m0) (hn : m0.pillars.length < UNSIGNED_MOD) :
    (m0.preprocess.1.nBadPillars = m0.preprocess.1.badCount ∧
      ∀ u, u < m0.pillars.length →
        (m0.preprocess.1.pillar u).current = (m0.pillar u).initial) ∧
    (∀ (m : Maze) (x : CellRef), m.pillars.length < UNSIGNED_MOD →
      (m.cell x).source < m.pillars.length → (m.cell x).target < m.pillars.length →
      m.nBadPillars = m.badCount →
      (m.doMove x).1.nBadPillars = (m.doMove x).1.badCount ∧
      (m.undoMove x).nBadPillars = (m.undoMove x).badCount) ∧
    (∀ (m : Maze) (path : List CellRef), SearchState m path →
      m.nBadPillars = m.badCount ∧
      (m.nBadPillars = 0 ↔ ∀ u, (m.pillar u).current = (m.pillar u).required)) := by
  have hm := fresh_build ops m0 hb
  refine ⟨⟨(preprocess_sane m0 hm hn).nBad_eq, (preprocess_spec m0 hm).2.2.2.2.2.1⟩, ?_, ?_⟩
  · intro m x hn1 hs ht hb1
    exact ⟨Maze.doMove_badCount m x hn1 hs ht hb1, Maze.undoMove_badCount m x hn1 hs ht hb1⟩
  · intro m path hst
    obtain ⟨_, hs⟩ := hst.invariant
    refine ⟨hs.nBad_eq, ?_⟩
    rw [hs.nBad_eq, Maze.badCount_eq_zero_iff]
    constructor
    · intro h u
      rw [← Maze.counts_getD, ← Maze.requireds_getD, h]
    · intro h
      apply list_ext_getD _ _ 0
      · simp [Maze.counts, Maze.requireds]
      · intro i _
        rw [Maze.counts_getD, Maze.requireds_getD]
        exact h i

/-- C14 at the maze `demoMaze`. -/
theorem deficiency_counter_witness :
    PillarsFirst demoOps ∧ build demoOps = some demoMaze ∧
    demoMaze.pillars.length < UNSIGNED_MOD ∧ demoMaze.preprocess.1.nBadPillars = 2 ∧
    demoMaze.preprocess.1.nBadPillars = demoMaze.preprocess.1.badCount ∧
    (demoMaze.preprocess.1.doMove (0, 0)).1.nBadPillars
      = (demoMaze.preprocess.1.doMove (0, 0)).1.badCount :=
  ⟨by decide, demo_build, by decide, by decide,
    (deficiency_counter demoOps demoMaze (by decide) demo_build (by decide)).1.1,
    ((deficiency_counter demoOps demoMaze (by decide) demo_build (by decide)).2.1
      demoMaze.preprocess.1 (0, 0) (by decide) (by decide) (by decide) (by decide)).1⟩
/-- C17. The internal consistency error is unreachable.  On a newly built maze (any pillars
and any links, self-links and duplicate links included, all pillars added before the first
link, at most 10000 of them) the first `preprocess` throws nothing, so not "Cannot find
reverse cell": for every cell of a candidate list that is marked symmetrical, the candidate
list of its target holds a cell that points back to its source. -/
theorem reverse_error_unreachable (ops : List BuildOp) (m : Maze)
    (_hpf : PillarsFirst ops) (hb : build ops = some m) (_hn : m.pillars.length ≤ 10000) :
    m.preprocess.2 = none ∧
    ∀ u, u < m.pillars.length → ∀ c ∈ (m.preprocess.1.pillar u).cells,
      c.isSymmetrical = true →
      c.target < m.pillars.length ∧
      ∃ c2 ∈ (m.preprocess.1.pillar c.target).cells, c2.target = u := by
  have hm := fresh_build ops m hb
  obtain ⟨hnone, _, _, _, _, _, hcells⟩ := preprocess_spec m hm
  refine ⟨hnone, ?_⟩
  intro u hu c hc hsym
  rw [hcells u hu, mem_preparedCells] at hc
  obtain ⟨v, hv, h0, hB, hcv⟩ := hc
  have hsym2 : m.table u v = m.table v u := by
    rw [hcv] at hsym
    simpa [fullCell] using hsym
  have htv : c.target = v := by rw [hcv]; rfl
  rw [htv]
  refine ⟨hv, { fullCell m.table v u with
    reverse := reverseOf (keptCells m.table m.pillars.length) v (fullCell m.table v u) }, ?_, rfl⟩
  rw [hcells v hv, mem_preparedCells]
  exact ⟨u, hu, by rw [← hsym2]; exact h0, by rw [← hsym2]; exact hB, rfl⟩

/-- C17 at the maze `demoMaze` and the cell from pillar 0 to pillar 1. -/
theorem reverse_error_unreachable_witness :
    PillarsFirst demoOps ∧ build demoOps = some demoMaze ∧
    demoMaze.pillars.length ≤ 10000 ∧ demoMaze.preprocess.2 = none ∧
    0 < demoMaze.pillars.length ∧
    demoMaze.preprocess.1.cell (0, 0) ∈ (demoMaze.preprocess.1.pillar 0).cells ∧
    (demoMaze.preprocess.1.cell (0, 0)).isSymmetrical = true ∧
    ∃ c2 ∈ (demoMaze.preprocess.1.pillar (demoMaze.preprocess.1.cell (0, 0)).target).cells,
      c2.target = 0 :=
  ⟨by decide, demo_build, by decide,
    (reverse_error_unreachable demoOps demoMaze (by decide) demo_build (by decide)).1,
    by decide, by decide, by decide,
    ((reverse_error_unreachable demoOps demoMaze (by decide) demo_build (by decide)).2 0
      (by decide)
      (demoMaze.preprocess.1.cell (0, 0)) (by decide) (by decide)).2⟩

theorem solve96_build : build solve96Ops = some solve96Maze := by decide

set_option maxRecDepth 100000 in
theorem solve96_solve : (solve96Maze.solve 4).map Prod.snd
    = some (SolveResult.moves [some (3, 2), some (6, 2), some (2, 6), some (7, 4)]) := by
  decide!

set_option maxRecDepth 100000 in
theorem solve96_moves :
    (∀ p ∈ [((3 : Nat), (2 : Nat)), (6, 2), (2, 6), (7, 4)],
      p.2 < (solve96Maze.preprocess.1.pillar p.1).cells.length) ∧
    [((3 : Nat), (2 : Nat)), (6, 2), (2, 6), (7, 4)].map solve96Maze.preprocess.1.moveOf
      = [⟨3, 2, 2⟩, ⟨6, 2, 1⟩, ⟨2, 7, 3⟩, ⟨7, 4, 6⟩] := by
  decide!

/-- C13. The eight-pillar scenario.  On the maze that `solve96` builds, `solve(4)` throws
nothing and returns four moves, 3 → 2 (two tokens), 6 → 2 (one token), 2 → 7 (three tokens)
and 7 → 4 (six tokens); they are candidate moves, possible in turn from the initial counts
[0,0,0,2,0,0,1,3], and end with the required counts [0,0,0,0,6,0,0,0]. -/
theorem solve96_scenario :
    build solve96Ops = some solve96Maze ∧
    solve96Maze.initials = [0, 0, 0, 2, 0, 0, 1, 3] ∧
    solve96Maze.requireds = [0, 0, 0, 0, 6, 0, 0, 0] ∧
    ∃ (mv : Moves) (path : List CellRef),
      (solve96Maze.solve 4).map Prod.snd = some (SolveResult.moves mv) ∧
      mv = path.map some ∧ mv.length = 4 ∧
      (∀ p ∈ path, p.2 < (solve96Maze.preprocess.1.pillar p.1).cells.length) ∧
      path.map solve96Maze.preprocess.1.moveOf = [⟨3, 2, 2⟩, ⟨6, 2, 1⟩, ⟨2, 7, 3⟩, ⟨7, 4, 6⟩] ∧
      replay solve96Maze.initials (path.map solve96Maze.preprocess.1.moveOf)
        = some solve96Maze.requireds :=
  ⟨solve96_build, by decide, by decide, _, [(3, 2), (6, 2), (2, 6), (7, 4)], solve96_solve,
    rfl, rfl, solve96_moves.1, solve96_moves.2, by rw [solve96_moves.2]; decide⟩
theorem prepared_mutual (m : Maze) (hm : Fresh m) (a : CellRef)
    (ha : a.2 < (m.preprocess.1.pillar a.1).cells.length)
    (hs : (m.preprocess.1.cell a).isSymmetrical = true) :
    ∃ b, (m.preprocess.1.cell a).reverse = some b ∧
      b.2 < (m.preprocess.1.pillar b.1).cells.length ∧
      (m.preprocess.1.cell b).reverse = some a ∧
      (m.preprocess.1.cell b).isSymmetrical = true := by
  obtain ⟨u, j⟩ := a
  have hu : u < m.pillars.length :=
    Nat.lt_of_lt_of_eq (Maze.cells_length_pos_lt _ u j ha) (preprocess_spec m hm).2.1
  obtain ⟨_, _, _, _, _, _, hc⟩ := preprocess_spec m hm
  obtain ⟨v, hv, h0, hB, hget, hj2, hcell⟩ := prepared_cell m hm u j hu ha
  rw [hcell] at hs ⊢
  simp only [fullCell, decide_eq_true_eq] at hs
  obtain ⟨k, hk, hkget, hkfind⟩ := keptCells_position m.table m.pillars.length v u hu
    (by rw [← hs]; exact h0) (by rw [← hs]; exact hB)
  have hkv : k < (m.preprocess.1.pillar v).cells.length := by
    rw [hc v hv]; simpa [preparedCells] using hk
  obtain ⟨w, hw, _, _, hget2, _, hcell2⟩ := prepared_cell m hm v k hv hkv
  have hwu : w = u := by
    have := hget2.symm.trans hkget
    simpa [fullCell] using congrArg Cell.target this
  subst hwu
  have hjfind : findTarget v (keptCells m.table m.pillars.length w) 0 = some j := by
    have := findTarget_unique v (keptCells m.table m.pillars.length w) 0 j
      (keptCells_nodup _ _ _) hj2 (by rw [hget]; rfl)
    simpa using this
  refine ⟨(v, k), ?_, hkv, ?_, ?_⟩
  · simp only [reverseOf, fullCell, hs, decide_True, if_true, hkfind, Option.map_some']
  · rw [hcell2]
    simp only [reverseOf, fullCell, hs, decide_True, if_true, hjfind, Option.map_some']
  · rw [hcell2]
    simp only [fullCell, hs, decide_True]

/-- The ban counters along a sequence of moves: if in the state `m` every ban counter is the
number of cells of the history `H` whose reverse it is, the same holds after the moves
`path` for the history `H ++ path`; and no move of `path` is the reverse of a cell of `H` or
of an earlier move of `path`. -/
theorem Maze.play_bans (path : List CellRef) : ∀ (H : List CellRef) (m m1 : Maze),
    Searchable m → Sane m →
    (∀ q, (m.cell q).nBans = H.countP (fun p => decide ((m.cell p).reverse = some q))) →
    H.length + path.length < UNSIGNED_MOD → m.play path = some m1 →
    (∀ q, (m1.cell q).nBans
      = (H ++ path).countP (fun p => decide ((m1.cell p).reverse = some q))) ∧
    (∀ a ∈ H, ∀ b ∈ path, (m.cell a).reverse ≠ some b) ∧
    path.Pairwise (fun a b => (m.cell a).reverse ≠ some b) := by
  induction path with
  | nil =>
    intro H m m1 _ _ hB _ h
    simp only [Maze.play, Option.some.injEq] at h
    subst h
    refine ⟨?_, fun _ _ b hb => absurd hb (List.not_mem_nil b), List.Pairwise.nil⟩
    intro q
    rw [List.append_nil]
    exact hB q
  | cons x xs ih =>
    intro H m m1 hS hs hB hlen h
    obtain ⟨hx, hd, h1⟩ := Maze.play_cons m x xs m1 h
    have f1 := Maze.doMove_frame m x
    have hrev : ∀ p, ((m.doMove x).1.cell p).reverse = (m.cell p).reverse := f1.rev
    have hx0 : (m.cell x).nBans = 0 := ((Maze.doMove_true_iff m x).mp hd).1
    have hHx : ∀ a ∈ H, (m.cell a).reverse ≠ some x := by
      have h0 := hB x
      rw [hx0] at h0
      have h1 := List.countP_eq_zero.mp h0.symm
      intro a ha e
      have := h1 a ha
      simp [e] at this
    simp only [List.length_cons] at hlen
    have hB1 : ∀ q, ((m.doMove x).1.cell q).nBans
        = (H ++ [x]).countP (fun p => decide (((m.doMove x).1.cell p).reverse = some q)) := by
      intro q
      have hfun : (fun p => decide (((m.doMove x).1.cell p).reverse = some q))
          = (fun p => decide ((m.cell p).reverse = some q)) := by
        funext p; rw [hrev p]
      rw [hfun, List.countP_append, ← hB q, Maze.doMove_true m x hd, Maze.banStep_cell,
        Maze.moveStep_cell]
      have hcnt : (m.cell q).nBans ≤ H.length := by
        rw [hB q]; exact List.countP_le_length _
      by_cases hq : (m.cell x).reverse = some q
      · have hqv : q.2 < ((m.moveStep (m.cell x)).pillar q.1).cells.length := by
          rw [(Maze.moveStep_fields m (m.cell x) q.1).1]
          exact hS.reverse_valid x.1 x.2 hx q hq
        rw [if_pos ⟨hq, hqv⟩]
        simp only [List.countP_cons, List.countP_nil, hq, decide_True, if_true, Nat.zero_add]
        unfold incU addU
        apply Nat.mod_eq_of_lt
        omega
      · have hne : ¬ ((m.cell x).reverse = some q ∧
            q.2 < ((m.moveStep (m.cell x)).pillar q.1).cells.length) := fun e => hq e.1
        rw [if_neg hne]
        simp [hq]
    obtain ⟨hfin, hcross, hpw⟩ := ih (H ++ [x]) _ m1 (hS.of_frame f1)
      (Maze.doMove_sane m hS hs x hx) hB1
      (by rw [List.length_append, List.length_singleton]; omega) h1
    refine ⟨?_, ?_, ?_⟩
    · intro q
      have := hfin q
      rwa [List.append_assoc, List.singleton_append] at this
    · intro a ha b hb
      rcases List.mem_cons.mp hb with e | hmem
      · rw [e]; exact hHx a ha
      · have := hcross a (List.mem_append_left _ ha) b hmem
        rwa [hrev a] at this
    · refine List.pairwise_cons.mpr ⟨?_, ?_⟩
      · intro b hb
        have := hcross x (List.mem_append_right _ (List.mem_singleton_self x)) b hb
        rwa [hrev x] at this
      · refine hpw.imp ?_
        intro a b hab
        rwa [hrev a] at hab
theorem SearchState.bans {m : Maze} {path : List CellRef} (h : SearchState m path) :
    (∀ q, (m.cell q).nBans = path.countP (fun p => decide ((m.cell p).reverse = some q))) ∧
    path.Pairwise (fun a b => (m.cell a).reverse ≠ some b) := by
  obtain ⟨ops, m0, _, hb, hn, hK, hlen, hp⟩ := h
  have hm := fresh_build ops m0 hb
  obtain ⟨hS0, hs0⟩ := SearchState.start ops m0 hb hn m.wantedSolution
  have hnb := prepared_nBans m0 hm
  generalize m0.preprocess.1 = mp at hS0 hs0 hp hnb
  generalize hs : ({ mp with wantedSolution := m.wantedSolution } : Maze) = s at hS0 hs0 hp
  have hps : s.pillars = mp.pillars := by rw [← hs]
  obtain ⟨_, _, f⟩ := Maze.play_invariant path s m hS0 hs0 hp
  have h0 : ∀ q, (s.cell q).nBans
      = ([] : List CellRef).countP (fun p => decide ((s.cell p).reverse = some q)) := by
    intro q
    rw [Maze.cell_congr hps, hnb q]
    rfl
  obtain ⟨hfin, _, hpw⟩ := Maze.play_bans path [] s m hS0 hs0 h0
    (by simp only [List.length_nil, Nat.zero_add]; omega) hp
  refine ⟨?_, ?_⟩
  · intro q
    have := hfin q
    rwa [List.nil_append] at this
  · refine hpw.imp ?_
    intro a b hab
    rwa [f.rev a]

theorem SearchState.reverse_facts {m : Maze} {path : List CellRef} (h : SearchState m path)
    (a : CellRef) (ha : a.2 < (m.pillar a.1).cells.length) :
    ((m.cell a).isSymmetrical = true → ∃ b, (m.cell a).reverse = some b) ∧
    ∀ b, (m.cell a).reverse = some b →
      b.2 < (m.pillar b.1).cells.length ∧ (m.cell b).reverse = some a ∧
      (m.cell a).isSymmetrical = true ∧ (m.cell b).isSymmetrical = true ∧
      (m.cell b).source = (m.cell a).target ∧ (m.cell b).target = (m.cell a).source := by
  obtain ⟨ops, m0, _, hb, hn, hK, hlen, hp⟩ := h
  have hm := fresh_build ops m0 hb
  obtain ⟨hS0, hs0⟩ := SearchState.start ops m0 hb hn m.wantedSolution
  have hmut := prepared_mutual m0 hm
  have hrv := prepared_reverse m0 hm
  generalize m0.preprocess.1 = mp at hS0 hs0 hp hmut hrv
  generalize hs : ({ mp with wantedSolution := m.wantedSolution } : Maze) = s at hS0 hs0 hp
  have hps : s.pillars = mp.pillars := by rw [← hs]
  obtain ⟨_, _, f⟩ := Maze.play_invariant path s m hS0 hs0 hp
  have hcell : ∀ q, (m.cell q).reverse = (mp.cell q).reverse ∧
      (m.cell q).isSymmetrical = (mp.cell q).isSymmetrical ∧
      (m.cell q).source = (mp.cell q).source ∧ (m.cell q).target = (mp.cell q).target := by
    intro q
    rw [← Maze.cell_congr hps q]
    exact ⟨f.rev q, f.sym q, f.layout.source q, f.layout.target q⟩
  have hval : ∀ q : CellRef, q.2 < (m.pillar q.1).cells.length ↔ q.2 < (mp.pillar q.1).cells.length := by
    intro q
    rw [f.layout.cells_length, Maze.pillar_congr hps]
  have ha0 := (hval a).mp ha
  constructor
  · intro hsym
    rw [(hcell a).2.1] at hsym
    obtain ⟨b, hb1, _⟩ := hmut a ha0 hsym
    exact ⟨b, by rw [(hcell a).1]; exact hb1⟩
  · intro b hab
    rw [(hcell a).1] at hab
    obtain ⟨hsym, hsrc, htgt⟩ := hrv a b ha0 hab
    obtain ⟨b1, hb1, hb1v, hb1r, hb1s⟩ := hmut a ha0 hsym
    have hbb : b1 = b := Option.some.inj (hb1.symm.trans hab)
    subst hbb
    refine ⟨(hval b1).mpr hb1v, ?_, ?_, ?_, ?_, ?_⟩
    · rw [(hcell b1).1]; exact hb1r
    · rw [(hcell a).2.1]; exact hsym
    · rw [(hcell b1).2.1]; exact hb1s
    · rw [(hcell b1).2.2.1, (hcell a).2.2.2]; exact hsrc
    · rw [(hcell b1).2.2.2, (hcell a).2.2.1]; exact htgt
theorem Maze.play_valid (path : List CellRef) : ∀ (m m1 : Maze),
    m.play path = some m1 → ∀ p ∈ path, p.2 < (m.pillar p.1).cells.length := by
  induction path with
  | nil => intro m m1 _ p hp; exact absurd hp (List.not_mem_nil p)
  | cons x xs ih =>
    intro m m1 h p hp
    obtain ⟨hx, hd, h1⟩ := Maze.play_cons m x xs m1 h
    rcases List.mem_cons.mp hp with e | hmem
    · rw [e]; exact hx
    · have := ih _ m1 h1 p hmem
      rwa [(Maze.doMove_frame m x).layout.cells_length] at this

theorem Maze.doMove_source (m : Maze) (hS : Searchable m) (x : CellRef)
    (hx : x.2 < (m.pillar x.1).cells.length) (hd : (m.doMove x).2 = true) :
    ((m.doMove x).1.pillar (m.cell x).source).current + (m.cell x).dist
      = (m.pillar (m.cell x).source).current := by
  have hle := ((Maze.doMove_true_iff m x).mp hd).2
  have hsrc := hS.source_eq x.1 x.2 hx
  have hs : (m.cell x).source < m.pillars.length := by
    rw [show m.cell x = m.cell (x.1, x.2) from rfl, hsrc]
    exact hS.source_lt x hx
  have ht := hS.target_lt x.1 x.2 hx
  have hne : (m.cell x).target ≠ (m.cell x).source := by
    rw [show m.cell x = m.cell (x.1, x.2) from rfl, hsrc]
    exact hS.target_ne x.1 x.2 hx
  rw [Maze.doMove_true m x hd, Maze.banStep_current,
    Maze.moveStep_pillar m (m.cell x) hs ht hne, if_pos rfl]
  simp only []
  omega

/-- Tokens leave the source: after `n` moves of the same cell the source holds `n` times
the distance less. -/
theorem Maze.play_replicate (x : CellRef) : ∀ (n : Nat) (m m1 : Maze), Searchable m →
    m.play (List.replicate n x) = some m1 →
    (m1.pillar (m.cell x).source).current + n * (m.cell x).dist
      = (m.pillar (m.cell x).source).current := by
  intro n
  induction n with
  | zero =>
    intro m m1 _ h
    simp only [List.replicate_zero, Maze.play, Option.some.injEq] at h
    subst h
    omega
  | succ n ih =>
    intro m m1 hS h
    rw [List.replicate_succ] at h
    obtain ⟨hx, hd, h1⟩ := Maze.play_cons m x _ m1 h
    have f1 := Maze.doMove_frame m x
    have h2 := ih _ m1 (hS.of_frame f1) h1
    rw [f1.layout.source x, f1.dist x] at h2
    have h3 := Maze.doMove_source m hS x hx hd
    rw [Nat.succ_mul]
    omega
/-- The increment of a ban counter in `doMove` never wraps around. -/
theorem SearchState.ban_room {m : Maze} {path : List CellRef} (h : SearchState m path)
    (x rr : CellRef) (hx : x.2 < (m.pillar x.1).cells.length) (hd : (m.doMove x).2 = true)
    (hr : (m.cell x).reverse = some rr) : (m.cell rr).nBans + 1 < UNSIGNED_MOD := by
  have hbans := (h.bans).1 rr
  have hfacts := fun a ha => (h.reverse_facts a ha).2
  obtain ⟨ops, m0, _, hb, hn, hK, hlen, hp⟩ := h
  obtain ⟨hS0, hs0⟩ := SearchState.start ops m0 hb hn m.wantedSolution
  generalize ({ m0.preprocess.1 with wantedSolution := m.wantedSolution } : Maze) = s
    at hS0 hs0 hp
  obtain ⟨hS, _, f⟩ := Maze.play_invariant path s m hS0 hs0 hp
  have hle : (m.cell rr).nBans ≤ path.length := by
    rw [hbans]; exact List.countP_le_length _
  by_contra hcon
  have hfull : path.countP (fun p => decide ((m.cell p).reverse = some rr)) = path.length := by
    rw [← hbans]; omega
  have hall := List.countP_eq_length.mp hfull
  have hval := Maze.play_valid path s m hp
  have hrx := (hfacts x hx rr hr).2.1
  have hsame : ∀ p ∈ path, p = x := by
    intro p hpm
    have hpv : p.2 < (m.pillar p.1).cells.length := by
      rw [f.layout.cells_length]; exact hval p hpm
    have hpr : (m.cell p).reverse = some rr := by
      have := hall p hpm
      simpa using this
    have hrp := (hfacts p hpv rr hpr).2.1
    exact Option.some.inj (hrp.symm.trans hrx)
  have hrep := List.eq_replicate_of_mem hsame
  rw [hrep] at hp
  have htok := Maze.play_replicate x path.length s m hS0 hp
  rw [← f.layout.source x, ← f.dist x] at htok
  have hcur := hs0.current_lt (m.cell x).source
  have hdle := ((Maze.doMove_true_iff m x).mp hd).2
  have hpos := hS.dist_pos x.1 x.2 hx
  have hpos2 : 1 ≤ (m.cell x).dist := hpos
  have hlen2 : path.length = 4294967295 := by
    unfold UNSIGNED_MOD at hcon hK
    omega
  rw [hlen2] at htok
  unfold UNSIGNED_MOD at hcur
  omega
/-- C12. Ban correctness.  In every state of a search and for every candidate cell `x`:
`doMove(x)` returns false exactly when `x.nBans != 0` or the source holds less than
`x.dist`, and then it changes nothing.  If `x` is symmetrical and `doMove(x)` returns true,
then `x` has a reverse cell, afterwards the ban counter of that cell is greater by exactly 1
and no other ban counter has changed, and `doMove` of the reverse cell right afterwards
returns false and changes nothing. -/
theorem ban_correctness (m : Maze) (path : List CellRef) (hst : SearchState m path)
    (x : CellRef) (hx : x.2 < (m.pillar x.1).cells.length) :
    ((m.doMove x).2 = false ↔
      ((m.cell x).nBans ≠ 0 ∨ (m.pillar (m.cell x).source).current < (m.cell x).dist)) ∧
    ((m.doMove x).2 = false → (m.doMove x).1 = m) ∧
    ((m.cell x).isSymmetrical = true → (m.doMove x).2 = true →
      ∃ rr, (m.cell x).reverse = some rr ∧ rr.2 < (m.pillar rr.1).cells.length ∧
        ((m.doMove x).1.cell rr).nBans = (m.cell rr).nBans + 1 ∧
        (∀ q, q ≠ rr → ((m.doMove x).1.cell q).nBans = (m.cell q).nBans) ∧
        ((m.doMove x).1.doMove rr).2 = false ∧
        ((m.doMove x).1.doMove rr).1 = (m.doMove x).1) := by
  refine ⟨?_, Maze.doMove_false m x, ?_⟩
  · have h := Maze.doMove_true_iff m x
    constructor
    · intro hf
      by_contra hcon
      have : (m.doMove x).2 = true := h.mpr ⟨by omega, by omega⟩
      rw [hf] at this
      exact absurd this (by simp)
    · intro hor
      cases hd : (m.doMove x).2
      · rfl
      · have := h.mp hd
        omega
  · intro hsym hd
    obtain ⟨rr, hr⟩ := (hst.reverse_facts x hx).1 hsym
    have hrv := ((hst.reverse_facts x hx).2 rr hr).1
    have hroom := hst.ban_room x rr hx hd hr
    have hcell : ∀ q, ((m.doMove x).1.cell q).nBans
        = if q = rr then incU (m.cell q).nBans else (m.cell q).nBans := by
      intro q
      rw [Maze.doMove_true m x hd, Maze.banStep_cell, Maze.moveStep_cell]
      by_cases hq : q = rr
      · subst hq
        have hqv : q.2 < ((m.moveStep (m.cell x)).pillar q.1).cells.length := by
          rw [(Maze.moveStep_fields m (m.cell x) q.1).1]; exact hrv
        rw [if_pos ⟨hr, hqv⟩, if_pos rfl]
      · have hne : ¬ ((m.cell x).reverse = some q ∧
            q.2 < ((m.moveStep (m.cell x)).pillar q.1).cells.length) := by
          intro e
          exact hq (Option.some.inj (e.1.symm.trans hr))
        rw [if_neg hne, if_neg hq]
    have hinc : ((m.doMove x).1.cell rr).nBans = (m.cell rr).nBans + 1 := by
      rw [hcell rr, if_pos rfl]
      unfold incU addU
      exact Nat.mod_eq_of_lt hroom
    have hfalse : ((m.doMove x).1.doMove rr).2 = false := by
      cases hd2 : ((m.doMove x).1.doMove rr).2
      · rfl
      · have := ((Maze.doMove_true_iff _ rr).mp hd2).1
        rw [hinc] at this
        omega
    refine ⟨rr, hr, hrv, hinc, ?_, hfalse, Maze.doMove_false _ rr hfalse⟩
    intro q hq
    rw [hcell q, if_neg hq]

/-- C12 at the state `demoState` and its symmetrical cell from pillar 0 to pillar 1, whose
reverse is the cell from pillar 1 to pillar 0. -/
theorem ban_correctness_witness :
    SearchState demoState [] ∧ 0 < (demoState.pillar 0).cells.length ∧
    (demoState.cell (0, 0)).isSymmetrical = true ∧ (demoState.doMove (0, 0)).2 = true ∧
    (demoState.cell (0, 0)).reverse = some (1, 0) ∧
    ∃ rr, (demoState.cell (0, 0)).reverse = some rr ∧
        rr.2 < (demoState.pillar rr.1).cells.length ∧
        ((demoState.doMove (0, 0)).1.cell rr).nBans = (demoState.cell rr).nBans + 1 ∧
        (∀ q, q ≠ rr → ((demoState.doMove (0, 0)).1.cell q).nBans = (demoState.cell q).nBans) ∧
        ((demoState.doMove (0, 0)).1.doMove rr).2 = false ∧
        ((demoState.doMove (0, 0)).1.doMove rr).1 = (demoState.doMove (0, 0)).1 :=
  ⟨demo_state, by decide, by decide, by decide, by decide,
    (ban_correctness demoState [] demo_state (0, 0) (by decide)).2.2 (by decide) (by decide)⟩
theorem cellLoop_plays (rec : Maze → Moves → Option (Maze × Moves × Nat)) (i u K : Nat)
    (hrec : RecSound rec (i + 1) K) (hpl : RecPlays rec (i + 1) K) (hiK : i < K) :
    ∀ (js : List Nat) (m : Maze) (mv : Moves) (out : Maze × Moves × Option Nat),
    Searchable m → Sane m → m.wantedSolution = K → mv.length = K → m.nBadPillars ≠ 0 →
    (∀ j ∈ js, j < (m.pillar u).cells.length) →
    cellLoop rec i u js m mv = some out → ∀ r, out.2.2 = some r →
    ∃ path, Found m mv i out.1 out.2.1 r path ∧ m.play path = some out.1 := by
  intro js
  induction js with
  | nil =>
    intro m mv out _ _ _ _ _ _ h r e
    simp only [cellLoop, Option.some.injEq] at h
    subst h
    simp at e
  | cons j js ih =>
    intro m mv out hS hs hw hl hbad hjs h
    have hj : j < (m.pillar u).cells.length := hjs j (List.mem_cons_self j js)
    have hjs2 : ∀ k ∈ js, k < (m.pillar u).cells.length :=
      fun k hk => hjs k (List.mem_cons_of_mem j hk)
    rw [cellLoop] at h
    cases hd : (m.doMove (u, j)).2
    · have hm1 := Maze.doMove_false m (u, j) hd
      have hpair : m.doMove (u, j) = (m, false) := Prod.ext hm1 hd
      rw [hpair] at h
      exact ih m mv out hS hs hw hl hbad hjs2 h
    · have hpair : m.doMove (u, j) = ((m.doMove (u, j)).1, true) := Prod.ext rfl hd
      rw [hpair] at h
      simp only [] at h
      have f1 := Maze.doMove_frame m (u, j)
      have hS1 := hS.of_frame f1
      have hs1 := Maze.doMove_sane m hS hs (u, j) hj
      have hl1 : (mv.set i (some (u, j))).length = K := by rw [List.length_set]; exact hl
      cases hr : rec (m.doMove (u, j)).1 (mv.set i (some (u, j))) with
      | none => rw [hr] at h; exact absurd h (by simp)
      | some res =>
        obtain ⟨m2, mv2, r⟩ := res
        rw [hr] at h
        simp only [] at h
        have hw1 := f1.layout.wanted.trans hw
        have hsound := hrec _ _ _ hS1 hs1 hw1 hl1 hr
        by_cases hrc : r = CANNOT_SOLVE
        · have hfail := hsound.1 hrc
          simp only [hrc, ne_eq, not_true_eq_false, if_false] at h
          have hm2 : m2 = (m.doMove (u, j)).1 := hfail.same
          have hundo : m2.undoMove (u, j) = m := by
            rw [hm2]; exact Maze.undoMove_doMove m hS hs (u, j) hj hd
          rw [hundo] at h
          have hl2 : mv2.length = mv.length := by
            rw [hfail.length_eq, List.length_set]
          have hk2 : ∀ k, k < i → mv2.getD k none = mv.getD k none := by
            intro k hk
            rw [hfail.kept k (by omega), list_getD_set]
            have : ¬ k = i := by omega
            simp [this]
          intro r1 e
          obtain ⟨path, hf, hp⟩ := ih m mv2 out hS hs hw (hl2.trans hl) hbad hjs2 h r1 e
          exact ⟨path, hf.found_of_kept hl2 hk2, hp⟩
        · simp only [hrc, ne_eq, not_false_eq_true, if_true, Option.some.injEq] at h
          subst h
          obtain ⟨path, hf, hp⟩ := hpl _ _ _ hS1 hs1 hw1 hl1 hr hrc
          intro r1 e
          simp only [Option.some.injEq] at e
          subst e
          refine ⟨(u, j) :: path,
            Found.cons hS hs hbad (u, j) hj hd (by rw [hl]; exact hiK) hf, ?_⟩
          rw [Maze.play_of_cons m (u, j) path hj hd]
          exact hp

theorem pillarLoop_plays (rec : Maze → Moves → Option (Maze × Moves × Nat)) (i K : Nat)
    (hrec : RecSound rec (i + 1) K) (hpl : RecPlays rec (i + 1) K) (hiK : i < K) :
    ∀ (us : List Nat) (m : Maze) (mv : Moves) (out : Maze × Moves × Option Nat),
    Searchable m → Sane m → m.wantedSolution = K → mv.length = K → m.nBadPillars ≠ 0 →
    pillarLoop rec i us m mv = some out → ∀ r, out.2.2 = some r →
    ∃ path, Found m mv i out.1 out.2.1 r path ∧ m.play path = some out.1 := by
  intro us
  induction us with
  | nil =>
    intro m mv out _ _ _ _ _ h r e
    simp only [pillarLoop, Option.some.injEq] at h
    subst h
    simp at e
  | cons u us ih =>
    intro m mv out hS hs hw hl hbad h
    rw [pillarLoop] at h
    by_cases hc : (m.pillar u).current ≠ 0
    · simp only [hc, ne_eq, not_false_eq_true, if_true] at h
      cases hcl : cellLoop rec i u (List.range (m.pillar u).cells.length) m mv with
      | none => rw [hcl] at h; exact absurd h (by simp)
      | some res =>
        obtain ⟨m1, mv1, o⟩ := res
        rw [hcl] at h
        have hsound := cellLoop_sound rec i u K hrec hiK _ m mv _ hS hs hw hl hbad
          (fun j hj => List.mem_range.mp hj) hcl
        have hplays := cellLoop_plays rec i u K hrec hpl hiK _ m mv _ hS hs hw hl hbad
          (fun j hj => List.mem_range.mp hj) hcl
        cases o with
        | some r =>
          simp only [Option.some.injEq] at h
          subst h
          exact hplays
        | none =>
          simp only [] at h
          have hfail := hsound.1 rfl
          have hm1 : m1 = m := hfail.same
          subst hm1
          intro r1 e
          obtain ⟨path, hf, hp⟩ := ih m1 mv1 out hS hs hw (hfail.length_eq.trans hl) hbad h r1 e
          exact ⟨path, hf.found_of_kept hfail.length_eq hfail.kept, hp⟩
    · simp only [hc, if_false] at h
      exact ih m mv out hS hs hw hl hbad h

/-- The moves that a successful call of `recurse` reports were applied in turn with
`doMove`, starting in the state of the call and ending in the state it leaves. -/
theorem recurse_plays : ∀ (fuel : Nat) (K i : Nat), i ≤ K → K < UNSIGNED_MOD →
    RecPlays (fun m mv => recurse fuel m mv i) i K := by
  intro fuel
  induction fuel with
  | zero =>
    intro K i _ _ m mv res _ _ _ _ h
    simp [recurse] at h
  | succ fuel ih =>
    intro K i hiK hK m mv res hS hs hw hl h hne
    simp only [recurse] at h
    by_cases hbad : m.nBadPillars = 0
    · simp only [hbad, if_true, Option.some.injEq] at h
      subst h
      have hgoal : m.counts = m.requireds :=
        (Maze.badCount_eq_zero_iff m).mp (hs.nBad_eq.symm.trans hbad)
      exact ⟨[], ⟨rfl, by rw [hw]; exact hiK, fun p hp => absurd hp (List.not_mem_nil p), rfl,
        hgoal, SearchFrame.reflF m, rfl, fun _ _ => rfl,
        fun k hk => absurd hk (Nat.not_lt_zero k),
        fun k hk => absurd hk (Nat.not_lt_zero k)⟩, rfl⟩
    · simp only [hbad, if_false] at h
      rw [hw, subU_of_le K i hiK hK] at h
      by_cases hprune : (K - i) * 2 % UNSIGNED_MOD < m.nBadPillars
      · simp only [hprune, if_true, Option.some.injEq] at h
        subst h
        exact absurd rfl hne
      · simp only [hprune, if_false] at h
        have hlt : i < K := by
          by_contra hge
          have : K - i = 0 := by omega
          rw [this] at hprune
          simp only [Nat.zero_mul, Nat.zero_mod] at hprune
          omega
        have hi1 : addU i 1 = i + 1 := by
          unfold addU UNSIGNED_MOD at *
          omega
        rw [hi1] at h
        cases hpl : pillarLoop (fun m1 mv1 => recurse fuel m1 mv1 (i + 1)) i
            (List.range m.pillars.length) m mv with
        | none => rw [hpl] at h; exact absurd h (by simp)
        | some out =>
          obtain ⟨m1, mv1, o⟩ := out
          rw [hpl] at h
          have hplays := pillarLoop_plays _ i K (recurse_sound fuel K (i + 1) (by omega) hK)
            (ih K (i + 1) (by omega) hK) hlt _ m mv _ hS hs hw hl hbad hpl
          cases o with
          | some r =>
            simp only [Option.some.injEq] at h
            subst h
            exact hplays r rfl
          | none =>
            simp only [Option.some.injEq] at h
            subst h
            exact absurd rfl hne
/-- The vector that `solve` returns is the path of the state in which it leaves the maze:
its moves were applied in turn with `doMove` to the prepared maze. -/
theorem solve_state (ops : List BuildOp) (m : Maze) (hpf : PillarsFirst ops)
    (hb : build ops = some m) (hn : m.pillars.length < UNSIGNED_MOD) (K : Nat) (m1 : Maze) (mv : Moves)
    (h : m.solve K = some (m1, SolveResult.moves mv)) (hne : mv ≠ []) :
    ∃ path : List CellRef, mv = path.map some ∧ SearchState m1 path ∧
      (∀ u, (m1.pillar u).cells.length = (m.preprocess.1.pillar u).cells.length) ∧
      (∀ q, (m1.cell q).source = (m.preprocess.1.cell q).source ∧
        (m1.cell q).target = (m.preprocess.1.cell q).target ∧
        (m1.cell q).dist = (m.preprocess.1.cell q).dist ∧
        (m1.cell q).isSymmetrical = (m.preprocess.1.cell q).isSymmetrical ∧
        (m1.cell q).reverse = (m.preprocess.1.cell q).reverse) := by
  have hm := fresh_build ops m hb
  have hpre : m.preprocess = (m.preprocess.1, none) := by
    have h2 := (preprocess_spec m hm).1
    generalize m.preprocess = pp at h2 ⊢
    obtain ⟨a, b⟩ := pp
    simp only at h2
    rw [h2]
  have hS := preprocess_searchable m hm hn
  have hs := preprocess_sane m hm hn
  have hKW : K % UNSIGNED_MOD < UNSIGNED_MOD := Nat.mod_lt _ (by decide)
  unfold Maze.solve at h
  cases hcs : m.checkSums with
  | some msg => rw [hcs] at h; simp at h
  | none =>
    rw [hcs, hpre] at h
    simp only [] at h
    generalize hm2 : ({ m.preprocess.1 with wantedSolution := K % UNSIGNED_MOD } : Maze) = m2 at h
    have hp2 : m2.pillars = m.preprocess.1.pillars := by rw [← hm2]
    have hb2 : m2.nBadPillars = m.preprocess.1.nBadPillars := by rw [← hm2]
    have hw2 : m2.wantedSolution = K % UNSIGNED_MOD := by rw [← hm2]
    have hS2 := hS.searchable_of_pillars hp2
    have hs2 := hs.sane_of_pillars hp2 hb2
    have hlen0 : (resizeMoves [] (K % UNSIGNED_MOD)).length = K % UNSIGNED_MOD := by
      simp [resizeMoves]
    cases hrec : recurse (K % UNSIGNED_MOD + 1) m2 (resizeMoves [] (K % UNSIGNED_MOD)) 0 with
    | none => rw [hrec] at h; simp at h
    | some res =>
      obtain ⟨m3, r3, nMoves⟩ := res
      rw [hrec] at h
      simp only [] at h
      by_cases hcs2 : nMoves = CANNOT_SOLVE
      · simp only [hcs2, if_true, Option.some.injEq, Prod.mk.injEq, SolveResult.moves.injEq] at h
        exact absurd h.2.symm hne
      · simp only [hcs2, if_false, Option.some.injEq, Prod.mk.injEq,
          SolveResult.moves.injEq] at h
        obtain ⟨path, hp, hplay⟩ := recurse_plays (K % UNSIGNED_MOD + 1) (K % UNSIGNED_MOD) 0
          (Nat.zero_le _) hKW m2 _ _ hS2 hs2 hw2 hlen0 hrec hcs2
        have hdepth : nMoves = path.length := by
          have := hp.depth
          simpa using this
        have hbound : path.length ≤ K % UNSIGNED_MOD := by
          rw [← hdepth, ← hw2]; exact hp.bound
        have hmv : mv = path.map some := by
          rw [← h.2, hdepth]
          apply take_eq_map_some
          · rw [hp.length_eq, hlen0]; exact hbound
          · intro k hk
            have := hp.written k hk
            rwa [Nat.zero_add] at this
        have hw3 : m3.wantedSolution = K % UNSIGNED_MOD := hp.frame.layout.wanted.trans hw2
        rw [← h.1]
        refine ⟨path, hmv, ⟨ops, m, hpf, hb, hn, by rw [hw3]; exact hKW, by rw [hw3]; exact hbound,
          ?_⟩, ?_, ?_⟩
        · rw [hw3, hm2]
          exact hplay
        · intro u
          rw [hp.frame.layout.cells_length, Maze.pillar_congr hp2]
        · intro q
          rw [← Maze.cell_congr hp2 q]
          exact ⟨hp.frame.layout.source q, hp.frame.layout.target q, hp.frame.dist q,
            hp.frame.sym q, hp.frame.rev q⟩
theorem prepared_target_inj (m : Maze) (hm : Fresh m) (u j k : Nat)
    (hj : j < (m.preprocess.1.pillar u).cells.length)
    (hk : k < (m.preprocess.1.pillar u).cells.length)
    (h : (m.preprocess.1.cell (u, j)).target = (m.preprocess.1.cell (u, k)).target) :
    j = k := by
  have hu : u < m.pillars.length :=
    Nat.lt_of_lt_of_eq (Maze.cells_length_pos_lt _ u j hj) (preprocess_spec m hm).2.1
  have hc := (preprocess_spec m hm).2.2.2.2.2.2 u hu
  have hnd : ((preparedCells m u).map Cell.target).Nodup :=
    (preparedCells_sorted m u).imp (fun hab => Nat.ne_of_lt hab)
  simp only [Maze.cell] at h
  generalize (m.preprocess.1.pillar u).cells = cs at hj hk h hc
  subst hc
  have hj2 : j < ((preparedCells m u).map Cell.target).length := by
    rw [List.length_map]; exact hj
  have hk2 : k < ((preparedCells m u).map Cell.target).length := by
    rw [List.length_map]; exact hk
  have e : ((preparedCells m u).map Cell.target)[j] = ((preparedCells m u).map Cell.target)[k] := by
    rw [List.getElem_map, List.getElem_map, ← List.getD_eq_getElem _ default hj,
      ← List.getD_eq_getElem _ default hk]
    exact h
  exact (hnd.getElem_inj_iff).mp e

/-- In a state of a search the cell from one pillar to another is unique. -/
theorem SearchState.cell_unique {m : Maze} {path : List CellRef} (h : SearchState m path)
    (a b : CellRef) (ha : a.2 < (m.pillar a.1).cells.length)
    (hb : b.2 < (m.pillar b.1).cells.length) (hs : (m.cell a).source = (m.cell b).source)
    (ht : (m.cell a).target = (m.cell b).target) : a = b := by
  obtain ⟨hS, _⟩ := h.invariant
  obtain ⟨ops, m0, _, hb0, hn, hK, hlen, hp⟩ := h
  have hm := fresh_build ops m0 hb0
  obtain ⟨hS0, hs0⟩ := SearchState.start ops m0 hb0 hn m.wantedSolution
  have hinj := prepared_target_inj m0 hm
  generalize m0.preprocess.1 = mp at hS0 hs0 hp hinj
  generalize hs1 : ({ mp with wantedSolution := m.wantedSolution } : Maze) = s at hS0 hs0 hp
  have hps : s.pillars = mp.pillars := by rw [← hs1]
  obtain ⟨_, _, f⟩ := Maze.play_invariant path s m hS0 hs0 hp
  obtain ⟨u, j⟩ := a
  obtain ⟨v, k⟩ := b
  have huv : u = v := by
    have h1 := hS.source_eq u j ha
    have h2 := hS.source_eq v k hb
    rw [← h1, ← h2]; exact hs
  subst huv
  have hjk : j = k := by
    apply hinj u j k
    · rw [← Maze.pillar_congr hps, ← f.layout.cells_length]; exact ha
    · rw [← Maze.pillar_congr hps, ← f.layout.cells_length]; exact hb
    · rw [← Maze.cell_congr hps, ← Maze.cell_congr hps, ← f.layout.target, ← f.layout.target]
      exact ht
  rw [hjk]
theorem SearchState.path_valid {m : Maze} {path : List CellRef} (h : SearchState m path) :
    ∀ p ∈ path, p.2 < (m.pillar p.1).cells.length := by
  obtain ⟨ops, m0, _, hb0, hn, hK, hlen, hp⟩ := h
  obtain ⟨hS0, hs0⟩ := SearchState.start ops m0 hb0 hn m.wantedSolution
  generalize ({ m0.preprocess.1 with wantedSolution := m.wantedSolution } : Maze) = s
    at hS0 hs0 hp
  obtain ⟨_, _, f⟩ := Maze.play_invariant path s m hS0 hs0 hp
  intro p hpm
  rw [f.layout.cells_length]
  exact Maze.play_valid path s m hp p hpm

/-- In a state of a search, a symmetrical cell `a` and the cell `b` that goes back from its
target to its source are each the stored reverse of the other. -/
theorem SearchState.reverse_of_opposite {m : Maze} {path : List CellRef}
    (h : SearchState m path) (a b : CellRef) (ha : a.2 < (m.pillar a.1).cells.length)
    (hb : b.2 < (m.pillar b.1).cells.length) (hsym : (m.cell a).isSymmetrical = true)
    (hs : (m.cell b).source = (m.cell a).target) (ht : (m.cell b).target = (m.cell a).source) :
    (m.cell a).reverse = some b ∧ (m.cell b).reverse = some a := by
  obtain ⟨b1, hb1⟩ := (h.reverse_facts a ha).1 hsym
  obtain ⟨hv1, hr1, _, _, hs1, ht1⟩ := (h.reverse_facts a ha).2 b1 hb1
  have e : b1 = b := h.cell_unique b1 b hv1 hb (hs1.trans hs.symm) (ht1.trans ht.symm)
  subst e
  exact ⟨hb1, hr1⟩

/-- The moves on the path of a state of a search never go back along one another. -/
theorem SearchState.no_opposites {m : Maze} {path : List CellRef} (h : SearchState m path) :
    path.Pairwise (fun a b =>
      ¬ ((m.cell a).isSymmetrical = true ∧ (m.cell b).source = (m.cell a).target ∧
        (m.cell b).target = (m.cell a).source) ∧
      ¬ ((m.cell b).isSymmetrical = true ∧ (m.cell a).source = (m.cell b).target ∧
        (m.cell a).target = (m.cell b).source)) := by
  have hv := h.path_valid
  refine List.Pairwise.imp_of_mem ?_ h.bans.2
  intro a b ha hb hab
  constructor
  · rintro ⟨hsym, hs, ht⟩
    exact hab (h.reverse_of_opposite a b (hv a ha) (hv b hb) hsym hs ht).1
  · rintro ⟨hsym, hs, ht⟩
    exact hab (h.reverse_of_opposite b a (hv b hb) (hv a ha) hsym hs ht).2

/-- C19. The ban lasts for the whole remainder of the sequence.  A vector returned by
`solve(K)` on a newly built maze (all pillars added before the first link, fewer than 2^32
of them) consists of candidate cells and holds at no two positions a symmetrical move and the move back from its target to its
source, in either order.  In every state of a search the ban counter of every cell is the
number of moves on the path whose reverse the cell is. -/
theorem ban_whole_path (ops : List BuildOp) (m : Maze) (hpf : PillarsFirst ops)
    (hb : build ops = some m) (hn : m.pillars.length < UNSIGNED_MOD) :
    (∀ K mv, (m.solve K).map Prod.snd = some (SolveResult.moves mv) →
      ∃ path : List CellRef, mv = path.map some ∧
        (∀ p ∈ path, p.2 < (m.preprocess.1.pillar p.1).cells.length) ∧
        path.Pairwise (fun a b =>
          ¬ ((m.preprocess.1.cell a).isSymmetrical = true ∧
            (m.preprocess.1.cell b).source = (m.preprocess.1.cell a).target ∧
            (m.preprocess.1.cell b).target = (m.preprocess.1.cell a).source) ∧
          ¬ ((m.preprocess.1.cell b).isSymmetrical = true ∧
            (m.preprocess.1.cell a).source = (m.preprocess.1.cell b).target ∧
            (m.preprocess.1.cell a).target = (m.preprocess.1.cell b).source))) ∧
    (∀ (s : Maze) (path : List CellRef), SearchState s path →
      ∀ q, (s.cell q).nBans = path.countP (fun p => decide ((s.cell p).reverse = some q))) := by
  refine ⟨?_, fun s path hst => hst.bans.1⟩
  intro K mv h
  by_cases hne : mv = []
  · exact ⟨[], by rw [hne]; rfl, fun p hp => absurd hp (List.not_mem_nil p), List.Pairwise.nil⟩
  · obtain ⟨m1, h1⟩ := solve_of_map h
    obtain ⟨path, hmv, hst, hlen, hcell⟩ := solve_state ops m hpf hb hn K m1 mv h1 hne
    refine ⟨path, hmv, ?_, ?_⟩
    · intro p hp
      rw [← hlen]; exact hst.path_valid p hp
    · refine hst.no_opposites.imp ?_
      intro a b hab
      rw [(hcell a).1, (hcell a).2.1, (hcell a).2.2.2.1, (hcell b).1, (hcell b).2.1,
        (hcell b).2.2.2.1] at hab
      exact hab

/-- C19 at the maze `demoMaze` with `K = 3`. -/
theorem ban_whole_path_witness :
    PillarsFirst demoOps ∧ build demoOps = some demoMaze ∧
    demoMaze.pillars.length < UNSIGNED_MOD ∧
    (demoMaze.solve 3).map Prod.snd = some (SolveResult.moves [some (0, 0), some (1, 1)]) ∧
    ∃ path : List CellRef, [some (0, 0), some (1, 1)] = path.map some ∧
        (∀ p ∈ path, p.2 < (demoMaze.preprocess.1.pillar p.1).cells.length) ∧
        path.Pairwise (fun a b =>
          ¬ ((demoMaze.preprocess.1.cell a).isSymmetrical = true ∧
            (demoMaze.preprocess.1.cell b).source = (demoMaze.preprocess.1.cell a).target ∧
            (demoMaze.preprocess.1.cell b).target = (demoMaze.preprocess.1.cell a).source) ∧
          ¬ ((demoMaze.preprocess.1.cell b).isSymmetrical = true ∧
            (demoMaze.preprocess.1.cell a).source = (demoMaze.preprocess.1.cell b).target ∧
            (demoMaze.preprocess.1.cell a).target = (demoMaze.preprocess.1.cell b).source)) :=
  ⟨by decide, demo_build, by decide, demo_solve,
    (ban_whole_path demoOps demoMaze (by decide) demo_build (by decide)).1 3 _ demo_solve⟩
theorem cellLoopLog_erase (rec : Maze → Moves → Option ((Maze × Moves × Nat) × List Event))
    (i u : Nat) : ∀ (js : List Nat) (m : Maze) (mv : Moves),
    (cellLoopLog rec i u js m mv).map Prod.fst
      = cellLoop (fun m1 mv1 => (rec m1 mv1).map Prod.fst) i u js m mv := by
  intro js
  induction js with
  | nil => intro m mv; rfl
  | cons j js ih =>
    intro m mv
    rw [cellLoopLog, cellLoop]
    cases hd : (m.doMove (u, j)).2
    · have hpair : m.doMove (u, j) = ((m.doMove (u, j)).1, false) := Prod.ext rfl hd
      rw [hpair]
      exact ih _ mv
    · have hpair : m.doMove (u, j) = ((m.doMove (u, j)).1, true) := Prod.ext rfl hd
      rw [hpair]
      simp only []
      cases hr : rec (m.doMove (u, j)).1 (mv.set i (some (u, j))) with
      | none => rfl
      | some res =>
        obtain ⟨⟨m2, mv2, r⟩, log2⟩ := res
        simp only [Option.map_some']
        by_cases hrc : r = CANNOT_SOLVE
        · simp only [hrc, ne_eq, not_true_eq_false, if_false]
          rw [← ih (m2.undoMove (u, j)) mv2]
          cases cellLoopLog rec i u js (m2.undoMove (u, j)) mv2 with
          | none => rfl
          | some o => rfl
        · simp only [hrc, ne_eq, not_false_eq_true, if_true, Option.map_some']

theorem pillarLoopLog_erase (rec : Maze → Moves → Option ((Maze × Moves × Nat) × List Event))
    (i : Nat) : ∀ (us : List Nat) (m : Maze) (mv : Moves),
    (pillarLoopLog rec i us m mv).map Prod.fst
      = pillarLoop (fun m1 mv1 => (rec m1 mv1).map Prod.fst) i us m mv := by
  intro us
  induction us with
  | nil => intro m mv; rfl
  | cons u us ih =>
    intro m mv
    rw [pillarLoopLog, pillarLoop]
    by_cases hc : (m.pillar u).current ≠ 0
    · simp only [hc, ne_eq, not_false_eq_true, if_true]
      rw [← cellLoopLog_erase rec i u]
      cases cellLoopLog rec i u (List.range (m.pillar u).cells.length) m mv with
      | none => rfl
      | some res =>
        obtain ⟨⟨m1, mv1, o⟩, log1⟩ := res
        cases o with
        | some r => rfl
        | none =>
          simp only [Option.map_some']
          rw [← ih m1 mv1]
          cases pillarLoopLog rec i us m1 mv1 with
          | none => rfl
          | some o => rfl
    · simp only [hc, if_false]
      exact ih m mv

/-- The log does not change the function: without it `recurseLog` is `recurse`. -/
theorem recurseLog_erase : ∀ (fuel : Nat) (m : Maze) (mv : Moves) (i : Nat),
    (recurseLog fuel m mv i).map Prod.fst = recurse fuel m mv i := by
  intro fuel
  induction fuel with
  | zero => intro m mv i; rfl
  | succ fuel ih =>
    intro m mv i
    simp only [recurseLog, recurse]
    by_cases hbad : m.nBadPillars = 0
    · simp only [hbad, if_true, Option.map_some']
    · simp only [hbad, if_false]
      by_cases hprune : subU m.wantedSolution i * 2 % UNSIGNED_MOD < m.nBadPillars
      · simp only [hprune, if_true, Option.map_some']
      · simp only [hprune, if_false]
        have hfun : (fun m1 mv1 => recurse fuel m1 mv1 (addU i 1))
            = (fun m1 mv1 => (recurseLog fuel m1 mv1 (addU i 1)).map Prod.fst) := by
          funext m1 mv1
          exact (ih m1 mv1 _).symm
        rw [hfun, ← pillarLoopLog_erase]
        cases pillarLoopLog (fun m1 mv1 => recurseLog fuel m1 mv1 (addU i 1)) i
            (List.range m.pillars.length) m mv with
        | none => rfl
        | some res =>
          obtain ⟨⟨m1, mv1, o⟩, log1⟩ := res
          cases o with
          | some r => rfl
          | none => rfl
theorem cellLoopLog_bounded (rec : Maze → Moves → Option ((Maze × Moves × Nat) × List Event))
    (i u K : Nat) (hi : i < K)
    (hrec : ∀ m1 mv1, m1.wantedSolution = K → ∃ res log, rec m1 mv1 = some (res, log) ∧
      res.1.wantedSolution = K ∧ ∀ e ∈ log, e.within K) :
    ∀ (js : List Nat) (m : Maze) (mv : Moves), m.wantedSolution = K →
    ∃ out log, cellLoopLog rec i u js m mv = some (out, log) ∧
      out.1.wantedSolution = K ∧ ∀ e ∈ log, e.within K := by
  intro js
  induction js with
  | nil =>
    intro m mv hw
    exact ⟨_, _, rfl, hw, fun e he => absurd he (List.not_mem_nil e)⟩
  | cons j js ih =>
    intro m mv hw
    rw [cellLoopLog]
    have hw1 : (m.doMove (u, j)).1.wantedSolution = K :=
      (Maze.doMove_frame m (u, j)).layout.wanted.trans hw
    cases hd : (m.doMove (u, j)).2
    · have hpair : m.doMove (u, j) = ((m.doMove (u, j)).1, false) := Prod.ext rfl hd
      rw [hpair]
      exact ih _ mv hw1
    · have hpair : m.doMove (u, j) = ((m.doMove (u, j)).1, true) := Prod.ext rfl hd
      rw [hpair]
      simp only []
      obtain ⟨res, log2, hr, hwr, hlog2⟩ := hrec (m.doMove (u, j)).1 (mv.set i (some (u, j))) hw1
      obtain ⟨m2, mv2, r⟩ := res
      rw [hr]
      simp only []
      by_cases hrc : r = CANNOT_SOLVE
      · simp only [hrc, ne_eq, not_true_eq_false, if_false]
        have hw2 : (m2.undoMove (u, j)).wantedSolution = K :=
          (Maze.undoMove_frame m2 (u, j)).layout.wanted.trans hwr
        obtain ⟨out, log3, ho, hwo, hlog3⟩ := ih (m2.undoMove (u, j)) mv2 hw2
        rw [ho]
        refine ⟨_, _, rfl, hwo, ?_⟩
        intro e he
        rcases List.mem_cons.mp he with e1 | he2
        · rw [e1]; exact hi
        · rcases List.mem_append.mp he2 with h2 | h3
          · exact hlog2 e h2
          · exact hlog3 e h3
      · simp only [hrc, ne_eq, not_false_eq_true, if_true]
        refine ⟨_, _, rfl, hwr, ?_⟩
        intro e he
        rcases List.mem_cons.mp he with e1 | he2
        · rw [e1]; exact hi
        · exact hlog2 e he2

theorem pillarLoopLog_bounded (rec : Maze → Moves → Option ((Maze × Moves × Nat) × List Event))
    (i K : Nat) (hi : i < K)
    (hrec : ∀ m1 mv1, m1.wantedSolution = K → ∃ res log, rec m1 mv1 = some (res, log) ∧
      res.1.wantedSolution = K ∧ ∀ e ∈ log, e.within K) :
    ∀ (us : List Nat) (m : Maze) (mv : Moves), m.wantedSolution = K →
    ∃ out log, pillarLoopLog rec i us m mv = some (out, log) ∧
      out.1.wantedSolution = K ∧ ∀ e ∈ log, e.within K := by
  intro us
  induction us with
  | nil =>
    intro m mv hw
    exact ⟨_, _, rfl, hw, fun e he => absurd he (List.not_mem_nil e)⟩
  | cons u us ih =>
    intro m mv hw
    rw [pillarLoopLog]
    by_cases hc : (m.pillar u).current ≠ 0
    · simp only [hc, ne_eq, not_false_eq_true, if_true]
      obtain ⟨out, log1, ho, hwo, hlog1⟩ := cellLoopLog_bounded rec i u K hi hrec
        (List.range (m.pillar u).cells.length) m mv hw
      obtain ⟨m1, mv1, o⟩ := out
      rw [ho]
      cases o with
      | some r => exact ⟨_, _, rfl, hwo, hlog1⟩
      | none =>
        simp only []
        obtain ⟨out2, log2, ho2, hwo2, hlog2⟩ := ih m1 mv1 hwo
        rw [ho2]
        refine ⟨_, _, rfl, hwo2, ?_⟩
        intro e he
        rcases List.mem_append.mp he with h1 | h2
        · exact hlog1 e h1
        · exact hlog2 e h2
    · simp only [hc, if_false]
      exact ih m mv hw

/-- Bounded depth of `recurse`, for any maze: with more fuel than moves are left the call
returns, and all its events stay within `wantedSolution`. -/
theorem recurseLog_bounded : ∀ (fuel K i : Nat), i ≤ K → K < UNSIGNED_MOD → K - i < fuel →
    ∀ (m : Maze) (mv : Moves), m.wantedSolution = K →
    ∃ res log, recurseLog fuel m mv i = some (res, log) ∧
      res.1.wantedSolution = K ∧ ∀ e ∈ log, e.within K := by
  intro fuel
  induction fuel with
  | zero => intro K i _ _ hf; exact absurd hf (Nat.not_lt_zero _)
  | succ fuel ih =>
    intro K i hiK hK hfuel m mv hw
    have hself : ∀ e ∈ [Event.enter i], e.within K := by
      intro e he
      rw [List.mem_singleton.mp he]
      exact hiK
    simp only [recurseLog]
    by_cases hbad : m.nBadPillars = 0
    · simp only [hbad, if_true]
      exact ⟨_, _, rfl, hw, hself⟩
    · simp only [hbad, if_false]
      rw [hw, subU_of_le K i hiK hK]
      by_cases hprune : (K - i) * 2 % UNSIGNED_MOD < m.nBadPillars
      · simp only [hprune, if_true]
        exact ⟨_, _, rfl, hw, hself⟩
      · simp only [hprune, if_false]
        have hlt : i < K := by
          by_contra hge
          have : K - i = 0 := by omega
          rw [this] at hprune
          simp only [Nat.zero_mul, Nat.zero_mod] at hprune
          omega
        have hi1 : addU i 1 = i + 1 := by
          unfold addU UNSIGNED_MOD at *
          omega
        rw [hi1]
        obtain ⟨out, log, ho, hwo, hlog⟩ := pillarLoopLog_bounded
          (fun m1 mv1 => recurseLog fuel m1 mv1 (i + 1)) i K hlt
          (fun m1 mv1 hw1 => ih K (i + 1) (by omega) hK (by omega) m1 mv1 hw1)
          (List.range m.pillars.length) m mv hw
        obtain ⟨m1, mv1, o⟩ := out
        rw [ho]
        have hall : ∀ e ∈ Event.enter i :: log, e.within K := by
          intro e he
          rcases List.mem_cons.mp he with e1 | he2
          · rw [e1]; exact hiK
          · exact hlog e he2
        cases o with
        | some r => exact ⟨_, _, rfl, hwo, hall⟩
        | none => exact ⟨_, _, rfl, hwo, hall⟩
/-- C18. Bounded depth and termination.  For every maze object whose `wantedSolution` is a
value `K` of `unsigned` and every vector `moves`, the call `recurse(moves, 0)` returns (the
fuel `K + 1` suffices, one unit per nested call), and in its run `recurse` is entered only
with `iMove ≤ K` and every assignment `moves[iMove] = &v` has `iMove < K`.  The run is that
of `recurseLog`, which is `recurse` with a log of these events. -/
theorem recurse_depth_bounded (m : Maze) (mv : Moves) (hK : m.wantedSolution < UNSIGNED_MOD) :
    (∀ fuel m1 mv1 i, (recurseLog fuel m1 mv1 i).map Prod.fst = recurse fuel m1 mv1 i) ∧
    ∃ res log, recurse (m.wantedSolution + 1) m mv 0 = some res ∧
      recurseLog (m.wantedSolution + 1) m mv 0 = some (res, log) ∧
      ∀ e ∈ log, e.within m.wantedSolution := by
  refine ⟨recurseLog_erase, ?_⟩
  obtain ⟨res, log, h, _, hlog⟩ := recurseLog_bounded (m.wantedSolution + 1) m.wantedSolution 0
    (Nat.zero_le _) hK (by omega) m mv rfl
  refine ⟨res, log, ?_, h, hlog⟩
  rw [← recurseLog_erase, h]
  rfl

/-- C18 at the state `demoState` (`K = 3`): the run enters `recurse` at the depths 0, 1
and 2 and writes the entries 0 and 1. -/
theorem recurse_depth_bounded_witness :
    demoState.wantedSolution < UNSIGNED_MOD ∧
    (recurseLog 4 demoState [none, none, none] 0).map Prod.snd
      = some [Event.enter 0, Event.write 0, Event.enter 1, Event.write 1, Event.enter 2] ∧
    ∃ res log, recurse (demoState.wantedSolution + 1) demoState [none, none, none] 0 = some res ∧
      recurseLog (demoState.wantedSolution + 1) demoState [none, none, none] 0
        = some (res, log) ∧
      ∀ e ∈ log, e.within demoState.wantedSolution :=
  ⟨by decide, by decide,
    (recurse_depth_bounded demoState [none, none, none] (by decide)).2⟩

/-- One move changes two counts: a sequence of moves that are possible in turn and lead
from the counts of `m` to the required counts has at least half as many moves as there are
pillars that differ from their requirement. -/
theorem prune_admissible (m : Maze) (path : List CellRef)
    (h : replay m.counts (path.map m.moveOf) = some m.requireds) :
    m.badCount ≤ 2 * path.length := by
  rw [Maze.badCount_eq_diffCount]
  have := replay_diffCount _ _ _ h
  rw [List.length_map] at this
  exact this

/-- Where twice the remaining budget fits `unsigned`, the test of `recurse` is sound: if
it fires, no sequence of moves within the budget leads to the required counts. -/
theorem prune_sound (m : Maze) (hs : m.nBadPillars = m.badCount) (iMove : Nat)
    (hi : iMove ≤ m.wantedSolution) (hK : m.wantedSolution < UNSIGNED_MOD)
    (hfit : m.wantedSolution - iMove < 2147483648)
    (hprune : subU m.wantedSolution iMove * 2 % UNSIGNED_MOD < m.nBadPillars) :
    ¬ ∃ path : List CellRef, path.length ≤ m.wantedSolution - iMove ∧
      replay m.counts (path.map m.moveOf) = some m.requireds := by
  rintro ⟨path, hlen, hrep⟩
  have h1 := prune_admissible m path hrep
  rw [subU_of_le _ _ hi hK] at hprune
  have h2 : (m.wantedSolution - iMove) * 2 % UNSIGNED_MOD = (m.wantedSolution - iMove) * 2 := by
    apply Nat.mod_eq_of_lt
    unfold UNSIGNED_MOD
    omega
  rw [h2, hs] at hprune
  omega

theorem wide_state : SearchState wideState [] :=
  ⟨demoOps, demoMaze, by decide, demo_build, by decide, by decide, by decide, rfl⟩

/-- C15, at the failing input.  In the state `wideState` (the maze `demoMaze` after
`preprocess`, with `wantedSolution = 2147483648` and two deficient pillars) the product
`remainder * 2` wraps around to 0, the test `remainder * 2 < nBadPillars` fires and
`recurse(moves, 0)` returns `CANNOT_SOLVE` without a move, so `solve(2147483648)` returns
the empty vector; yet the two candidate moves 0 → 1, 1 → 2 are possible in turn and reach
the required counts, far within the budget, and `solve(3)` returns them. -/
theorem prune_overflow :
    SearchState wideState [] ∧ wideState.wantedSolution = 2147483648 ∧
    wideState.nBadPillars = 2 ∧ wideState.badCount = 2 ∧
    subU wideState.wantedSolution 0 * 2 % UNSIGNED_MOD = 0 ∧
    recurse 1 wideState [] 0 = some (wideState, [], CANNOT_SOLVE) ∧
    (demoMaze.solve 2147483648).map Prod.snd = some (SolveResult.moves []) ∧
    ([((0 : Nat), (0 : Nat)), (1, 1)].length ≤ wideState.wantedSolution - 0 ∧
      replay wideState.counts ([((0 : Nat), (0 : Nat)), (1, 1)].map wideState.moveOf)
        = some wideState.requireds) ∧
    (demoMaze.solve 3).map Prod.snd = some (SolveResult.moves [some (0, 0), some (1, 1)]) :=
  ⟨wide_state, by decide, by decide, by decide, by decide, by decide, by decide,
    ⟨by decide, by decide⟩, demo_solve⟩

theorem stale_build : build staleOps = some staleMaze := by decide

/-- C20, at the failing input.  On the maze `staleMaze` the first call `solve(1)` returns
the move 0 → 1; the second call `solve(1)` on the maze object that the first one left
throws "Cannot find reverse cell": the second `preprocess` keeps the cells of the first one
with their flags, the cell from 0 to 1 inherits the flag `isSymmetrical` of the former cell
from 0 to 2, and pillar 1 has no cell back to pillar 0.  On the maze `demoMaze` the second
`preprocess` after `solve(3)` leaves the ban counter of the cell from 1 to 0 at 1. -/
theorem solve_twice_fails :
    build staleOps = some staleMaze ∧ staleMaze.checkSums = none ∧
    (staleMaze.solve 1).map Prod.snd = some (SolveResult.moves [some (0, 0)]) ∧
    (staleMaze.solve 1).bind (fun r => r.1.checkSums) = none ∧
    (staleMaze.solve 1).bind (fun r => (r.1.solve 1).map Prod.snd)
      = some (SolveResult.threw "Cannot find reverse cell") ∧
    (staleMaze.solve 1).map (fun r => (r.1.preprocess.1.cell (0, 0)).isSymmetrical)
      = some true ∧
    (staleMaze.preprocess.1.cell (0, 0)).isSymmetrical = false ∧
    (demoMaze.solve 3).map (fun r => (r.1.preprocess.1.cell (1, 0)).nBans) = some 1 := by
  refine ⟨stale_build, ?_, ?_, ?_, ?_, ?_, ?_, ?_⟩ <;> decide

end MysticPillars
